import Mathlib

/-!
# Deep-Research: the research executor

A shallow embedding of `executorGemini` (src/deepresearch.controller.js) and of
the helpers it relies on, followed by the properties established about them.

Conventions of the embedding

* A JavaScript string is the list of its UTF-16 code units (`JsString`), so that
  `length`, `slice` and `includes` are the list operations on code units.
* A JavaScript value that can reach `executorGemini` as `subQuestions` is a
  `JsVal`; numbers are restricted to integers (`NaN` and fractions are left out).
* An exception is a value of `Except JsError`.
* The external calls of a worker (`googleSearchAndFetch`, `callLLM`) are given by
  their outcome; the model records every call made to `callLLM`.
-/

namespace DeepResearch

/-! ## JavaScript strings -/

/-- A JavaScript string: the sequence of its UTF-16 code units. -/
abbrev JsString := List Nat

/-- The UTF-16 code units of one Unicode scalar value. -/
def utf16 (c : Char) : List Nat :=
  if c.toNat < 65536 then [c.toNat]
  else [55296 + (c.toNat - 65536) / 1024, 56320 + (c.toNat - 65536) % 1024]

/-- The JavaScript string written by a source literal. -/
def js (s : String) : JsString := s.toList.flatMap utf16

/-- Code units removed by `String.prototype.trim` (and matched by `\s`):
white space and line terminators of ECMAScript. -/
def isWhiteSpace (c : Nat) : Bool :=
  c == 9 || c == 10 || c == 11 || c == 12 || c == 13 || c == 32 || c == 160 ||
  c == 5760 || (8192 ≤ c && c ≤ 8202) || c == 8232 || c == 8233 || c == 8239 ||
  c == 8287 || c == 12288 || c == 65279

/-- The method `String.prototype.trim`. -/
def trim (s : JsString) : JsString :=
  ((s.dropWhile isWhiteSpace).reverse.dropWhile isWhiteSpace).reverse

/-- Whether `s` starts with `p` (`String.prototype.startsWith`). -/
def startsWith : JsString → JsString → Bool
  | _, [] => true
  | [], _ :: _ => false
  | c :: s, d :: p => c == d && startsWith s p

/-- Whether `p` occurs in `s` (`String.prototype.includes`). -/
def includes : JsString → JsString → Bool
  | [], p => startsWith [] p
  | c :: s, p => startsWith (c :: s) p || includes s p

/-- The method `Array.prototype.join` on an array of strings. -/
def join (sep : JsString) : List JsString → JsString
  | [] => []
  | [s] => s
  | s :: t :: rest => s ++ sep ++ join sep (t :: rest)

/-- Puts a code unit in front of the first piece of a split. -/
def consHead (c : Nat) : List JsString → List JsString
  | [] => [[c]]
  | l :: ls => (c :: l) :: ls

/-- The call `s.split(/\r?\n/)`: the separators are `\n` and `\r\n`. -/
def splitLines : JsString → List JsString
  | [] => [[]]
  | [c] => if c = 10 then [[], []] else [[c]]
  | c :: d :: rest =>
    if c = 10 then [] :: splitLines (d :: rest)
    else if c = 13 ∧ d = 10 then [] :: splitLines rest
    else consHead c (splitLines (d :: rest))

/-! ## JavaScript values -/

/-- The numbers among the modelled values: the integers of magnitude at most
`Number.MAX_SAFE_INTEGER`. Each of them is a number of JavaScript, and `String`
prints it with all its decimal digits. -/
structure SafeInteger where
  val : Int
  safe : val.natAbs ≤ 9007199254740991

/-- The JavaScript values that can be passed as `subQuestions`. The first binding
of a key in `obj` is the value of that property. The numbers are the safe
integers: fractions, `NaN`, the infinities and integers of larger magnitude are
not among the modelled values. -/
inductive JsVal where
  | undefined : JsVal
  | null : JsVal
  | bool (b : Bool) : JsVal
  | num (n : SafeInteger) : JsVal
  | str (s : JsString) : JsVal
  | arr (items : List JsVal) : JsVal
  | obj (fields : List (String × JsVal)) : JsVal

/-- The errors a script can raise in the modelled fragment. -/
inductive JsError where
  | typeError : JsError
  deriving DecidableEq, Repr

/-- The results of the `typeof` operator that occur for a `JsVal`. -/
inductive JsType where
  | undefined | object | boolean | number | string
  deriving DecidableEq, Repr

namespace JsVal

/-- The operator `typeof`; note `typeof null === "object"`. -/
def typeof : JsVal → JsType
  | undefined => .undefined
  | null => .object
  | bool _ => .boolean
  | num _ => .number
  | str _ => .string
  | arr _ => .object
  | obj _ => .object

/-- The conversion `ToBoolean` of conditions, `!x` and `x || y`. -/
def truthy : JsVal → Bool
  | undefined => false
  | null => false
  | bool b => b
  | num n => n.val != 0
  | str s => !s.isEmpty
  | arr _ => true
  | obj _ => true

/-- Reading one of the properties `subQuestion`, `category`, `parsed`, `raw`:
a `TypeError` on `null` and `undefined`, the bound value on an object, and
`undefined` on arrays and primitives, which have no property of these names. -/
def getProp (v : JsVal) (key : String) : Except JsError JsVal :=
  match v with
  | undefined => .error .typeError
  | null => .error .typeError
  | obj fields => .ok ((fields.lookup key).getD undefined)
  | _ => .ok undefined

/-- The element access `a[0]` on an array (`undefined` on an empty one). -/
def index0 : JsVal → JsVal
  | arr (x :: _) => x
  | _ => undefined

mutual
/-- The conversion `String(v)` (also used by template literals). -/
def toJsString : JsVal → JsString
  | undefined => js "undefined"
  | null => js "null"
  | bool b => if b then js "true" else js "false"
  | num n => js (toString n.val)
  | str s => s
  | arr items => joinItems items
  | obj _ => js "[object Object]"
/-- The comma-join `Array.prototype.toString` performs: `null` and `undefined`
elements contribute the empty string. -/
def joinItems : List JsVal → JsString
  | [] => []
  | [x] => itemString x
  | x :: y :: rest => itemString x ++ js "," ++ joinItems (y :: rest)
/-- The text of one array element inside `Array.prototype.toString`. -/
def itemString : JsVal → JsString
  | undefined => []
  | null => []
  | bool b => if b then js "true" else js "false"
  | num n => js (toString n.val)
  | str s => s
  | arr items => joinItems items
  | obj _ => js "[object Object]"
end

end JsVal

/-! ## Normalisation of the input of `executorGemini` -/

/-- A normalised sub-question `{ category, subQuestion }`. Both fields hold
whatever value the input carried. -/
structure SubQuestion where
  category : JsVal
  subQuestion : JsVal

/-- The condition `typeof v === "object" && v.subQuestion`. -/
def objectWithSubQuestion (v : JsVal) : Except JsError Bool :=
  if v.typeof = .object then do
    let p ← v.getProp "subQuestion"
    pure p.truthy
  else pure false

/-- The callback `q => ({ category: q.category || "misc", subQuestion: q.subQuestion })`. -/
def fromObject (q : JsVal) : Except JsError SubQuestion := do
  let c ← q.getProp "category"
  let s ← q.getProp "subQuestion"
  pure { category := if c.truthy then c else .str (js "misc"), subQuestion := s }

/-- The callback `q => ({ category: "misc", subQuestion: q })`. -/
def fromString (q : JsVal) : SubQuestion :=
  { category := .str (js "misc"), subQuestion := q }

/-- The method `Array.prototype.map` with a callback that may throw. -/
def mapThrowing (f : JsVal → Except JsError SubQuestion) :
    List JsVal → Except JsError (List SubQuestion)
  | [] => .ok []
  | q :: qs => do
    let a ← f q
    let as ← mapThrowing f qs
    pure (a :: as)

/-- The two array branches, shared by `subQuestions` and `subQuestions.parsed`. -/
def normalizeArray (items : List JsVal) : Except JsError (List SubQuestion) := do
  let first := JsVal.index0 (.arr items)
  if (← objectWithSubQuestion first) then mapThrowing fromObject items
  else if first.typeof = .string then pure (items.map fromString)
  else pure []

/-- The call `text.split(/\r?\n/).map(s => s.trim()).filter(Boolean)` followed by
`lines.map(l => ({ category: 'misc', subQuestion: l }))`. -/
def normalizeLines (text : JsString) : List SubQuestion :=
  (((splitLines text).map trim).filter (fun l => !l.isEmpty)).map
    (fun l => fromString (.str l))

/-- The normalisation block at the head of `executorGemini` (lines 704-747). -/
def normalizeSubQuestions (subQuestions : JsVal) : Except JsError (List SubQuestion) :=
  if !subQuestions.truthy then pure []
  else match subQuestions with
    | .arr items => normalizeArray items
    | _ =>
      if subQuestions.typeof = .object then do
        let parsed ← subQuestions.getProp "parsed"
        if parsed.truthy then
          match parsed with
          | .arr p => normalizeArray p
          | _ => pure []
        else do
          let raw ← subQuestions.getProp "raw"
          if raw.truthy then pure (normalizeLines raw.toJsString)
          else pure []
      else match subQuestions with
        | .str s => pure (normalizeLines s)
        | _ => pure []

/-! ## The worker of `executorGemini` -/

/-- A source returned by `googleSearchAndFetch`: `{ url, title, content }`. -/
structure FetchedSource where
  url : JsString
  title : JsString
  content : JsString
  deriving DecidableEq, Repr

/-- An entry `{ title, url }` of the `sources` of an answer. -/
structure SourceRef where
  title : JsString
  url : JsString
  deriving DecidableEq, Repr

/-- The values of the `status` field of an answer. -/
inductive Status where
  | ok | no_sources | no_content | llm_undefined | error
  deriving DecidableEq, Repr

/-- The object a worker pushes on the queue: the spread sub-question
(`category`, `subQuestion`) with `summary`, `sources`, `status` and, on the
error path only, `error`. -/
structure ResearchAnswer where
  category : JsVal
  subQuestion : JsVal
  summary : JsString
  sources : List SourceRef
  status : Status
  error : Option JsString

/-- One element of the `messages` array handed to `callLLM`. -/
structure ChatMessage where
  role : JsString
  content : JsString
  deriving DecidableEq, Repr

/-- How the call `await callLLM(messages, model, 66000, 3, ...)` ends: it returns
`summaryRaw`, the streaming callback having last stored `streamedSummary`, or it
throws an error whose `message` is given. -/
inductive LLMOutcome where
  | returned (summaryRaw streamedSummary : JsString) : LLMOutcome
  | threw (message : JsString) : LLMOutcome
  deriving DecidableEq, Repr

/-- What one run of `worker(sq)` does: the answer it pushes on the queue (and
returns) and the `messages` of every call it made to `callLLM`, in order. -/
structure WorkerResult where
  answer : ResearchAnswer
  llmCalls : List (List ChatMessage)

/-- The constant `BAD_PATTERNS` of the worker. -/
def BAD_PATTERNS : List JsString :=
  [js "Register Now",
   js "Join for Free",
   js "Skip to content",
   js "Please enable JavaScript",
   js "Page Not Found",
   js "Error",
   js "does not exist",
   js "not available",
   js "Access Denied",
   js "startxref",
   js "endobj",
   js "stream",
   js "endstream",
   js "obj",
   js "xref",
   js "trailer",
   js "%%EOF"]

/-- The constant `MAX_SNIPPETS_LENGTH`. -/
def MAX_SNIPPETS_LENGTH : Nat := 6000

/-- The replacement `t.replace(/^```(?:json|markdown|text)?/, "")`. -/
def removeOpeningFence (t : JsString) : JsString :=
  if startsWith t (js "```") then
    let r := t.drop 3
    if startsWith r (js "json") then r.drop 4
    else if startsWith r (js "markdown") then r.drop 8
    else if startsWith r (js "text") then r.drop 4
    else r
  else t

/-- The replacement `t.replace(/```$/, "")`. -/
def removeClosingFence (t : JsString) : JsString :=
  if startsWith t.reverse (js "```") then (t.reverse.drop 3).reverse else t

/-- The function `stripCodeFencesAndPreface`. -/
def stripCodeFencesAndPreface (text : JsString) : JsString :=
  let t := trim text
  if startsWith t (js "```") then trim (removeClosingFence (removeOpeningFence t))
  else t

/-- The `summary` of `out` (line 764), a template literal around `sq.subQuestion`. -/
def noSourcesSummary (sq : SubQuestion) : JsString :=
  js "NO_SOURCES_FOUND: Không tìm thấy nguồn đáng tin cậy cho câu hỏi \"" ++
    sq.subQuestion.toJsString ++
    js "\". Cần điều chỉnh từ khóa hoặc mốc thời gian."

/-- The `summary` of `out2` (line 790). -/
def noUsableContentSummary : JsString :=
  js "NO_SOURCES_FOUND: Không tìm thấy nội dung phù hợp để tóm tắt."

/-- The `summary` of `out3` (line 806). -/
def noContentSummary : JsString :=
  js "Không tìm thấy nội dung thực tế để tóm tắt."

/-- The `summary` of `outUndef` (line 848). -/
def llmUndefinedSummary : JsString :=
  js "Không sinh được tóm tắt do model không trả về kết quả."

/-- The `summary` of `resErr` (line 869): the template around `err.message`. -/
def executorErrorSummary (message : JsString) : JsString :=
  js "EXECUTOR_ERROR: " ++ message

section Worker

-- The built-in `String.prototype.toLowerCase`: its Unicode case mapping is not
-- modelled, every definition and theorem takes the function as given.
variable (toLowerCase : JsString → JsString)

/-- The test of the first filter: `c && c.content && c.content.length > 50`. -/
def longEnough (c : FetchedSource) : Bool :=
  !c.content.isEmpty && decide (c.content.length > 50)

/-- The test `BAD_PATTERNS.some(pat => c.content.toLowerCase().includes(pat.toLowerCase()))`. -/
def hasBadPattern (c : FetchedSource) : Bool :=
  BAD_PATTERNS.any (fun pat => includes (toLowerCase c.content) (toLowerCase pat))

/-- The list `validContents`: the two chained filters over `sources`. -/
def validContents (sources : List FetchedSource) : List FetchedSource :=
  (sources.filter longEnough).filter (fun c => !hasBadPattern toLowerCase c)

/-- The list `allContents` of the fallback: `c && c.content && c.content.length > 30`. -/
def allContents (sources : List FetchedSource) : List FetchedSource :=
  sources.filter (fun c => !c.content.isEmpty && decide (c.content.length > 30))

/-- The value of `snippets` after lines 781-799, or `none` when the worker
leaves through `out2`. -/
def joinedSnippets (sources : List FetchedSource) : Option JsString :=
  if (validContents toLowerCase sources).length = 0 then
    if (allContents sources).length ≠ 0 then
      some (join (js "\n") ((allContents sources).map (fun c => c.content)))
    else none
  else some (join (js "\n") ((validContents toLowerCase sources).map (fun c => c.content)))

/-- The truncation `if (snippets.length > MAX_SNIPPETS_LENGTH) snippets = snippets.slice(0, MAX_SNIPPETS_LENGTH)`. -/
def truncateSnippets (snippets : JsString) : JsString :=
  if snippets.length > MAX_SNIPPETS_LENGTH then snippets.take MAX_SNIPPETS_LENGTH
  else snippets

/-- The `messages` array built at lines 814-826. -/
def buildMessages (sq : SubQuestion) (snippets : JsString) : List ChatMessage :=
  [ { role := js "system",
      content := js "Bạn là Research Executor chuyên nghiệp. Nhiệm vụ của bạn là tóm tắt nội dung từ nguồn đáng tin cậy một cách chính xác và chi tiết." },
    { role := js "user",
      content := js "Tóm tắt CHI TIẾT câu trả lời cho câu hỏi: \"" ++ sq.subQuestion.toJsString ++
        js "\"\n\nNGUỒN TÀI LIỆU:\n" ++ snippets } ]

/-- The mapping `sources.map(c => ({ title: c.title, url: c.url }))`. -/
def sourceRefs (sources : List FetchedSource) : List SourceRef :=
  sources.map (fun c => { title := c.title, url := c.url })

/-- The function `worker` of `executorGemini` (lines 752-877), given the list
`sources` that `googleSearchAndFetch` resolved to and the behaviour of
`callLLM`. The events sent to `onStep` do not influence the result and are
left out. -/
def worker (callLLM : List ChatMessage → LLMOutcome) (sq : SubQuestion)
    (sources : List FetchedSource) : WorkerResult :=
  if sources.length = 0 then
    { answer :=
        { category := sq.category, subQuestion := sq.subQuestion,
          summary := noSourcesSummary sq,
          sources := [], status := .no_sources, error := none },
      llmCalls := [] }
  else
    match joinedSnippets toLowerCase sources with
    | none =>
      { answer :=
          { category := sq.category, subQuestion := sq.subQuestion,
            summary := noUsableContentSummary,
            sources := [], status := .no_sources, error := none },
        llmCalls := [] }
    | some joined =>
      let snippets := truncateSnippets joined
      if (trim snippets).isEmpty || decide (snippets.length < 80) then
        { answer :=
            { category := sq.category, subQuestion := sq.subQuestion,
              summary := noContentSummary,
              sources := sourceRefs (validContents toLowerCase sources),
              status := .no_content, error := none },
          llmCalls := [] }
      else
        let messages := buildMessages sq snippets
        match callLLM messages with
        | .returned summaryRaw streamedSummary =>
          let finalText := stripCodeFencesAndPreface
            (if !summaryRaw.isEmpty then summaryRaw else streamedSummary)
          if finalText.isEmpty then
            { answer :=
                { category := sq.category, subQuestion := sq.subQuestion,
                  summary := llmUndefinedSummary,
                  sources := sourceRefs sources, status := .llm_undefined, error := none },
              llmCalls := [messages] }
          else
            { answer :=
                { category := sq.category, subQuestion := sq.subQuestion,
                  summary := finalText,
                  sources := sourceRefs sources, status := .ok, error := none },
              llmCalls := [messages] }
        | .threw message =>
          { answer :=
              { category := sq.category, subQuestion := sq.subQuestion,
                summary := executorErrorSummary message,
                sources := sourceRefs sources, status := .error, error := some message },
            llmCalls := [messages] }

end Worker

/-- Lower-casing of the letters `A`-`Z` only: the value of `toLowerCase` on
strings whose letters are all in Basic Latin. Used to evaluate examples. -/
def asciiToLowerCase (s : JsString) : JsString :=
  s.map (fun c => if 65 ≤ c ∧ c ≤ 90 then c + 32 else c)

/-! ## The worker pool and the generator loop of `executorGemini` -/

/-- The loop `for (let i = c; i < flat.length; i += CONCURRENCY)` of one pool
member, started with `i`: the indices it hands to `worker`, in order. `n` is
`flat.length`; `fuel` bounds the number of iterations. -/
def workerLoop (CONCURRENCY n : Nat) : Nat → Nat → List Nat
  | 0, _ => []
  | fuel + 1, i =>
    if i < n then i :: workerLoop CONCURRENCY n fuel (i + CONCURRENCY) else []

/-- The indices processed by the pool member created for `c` (lines 880-886). -/
def workerIndices (CONCURRENCY n c : Nat) : List Nat :=
  workerLoop CONCURRENCY n n c

/-- The outcome of the external calls made for the sub-question at each index of
`flat`: what `googleSearchAndFetch` resolves to and how `callLLM` ends. -/
structure Env where
  search : Nat → List FetchedSource
  llm : Nat → List ChatMessage → LLMOutcome

/-- The shared state of a run of `executorGemini`: the loop variable `i` of each
pool member, the array `queue`, and the answers yielded so far. -/
structure ExecState where
  cursors : List Nat
  queue : List ResearchAnswer
  yielded : List ResearchAnswer

/-- The atomic steps of a run: pool member `c` completes `worker(flat[i])`
(which pushes on `queue`) and advances `i`, or the generator takes
`queue.shift()` and yields it. -/
inductive Action where
  | workerDone (c : Nat) : Action
  | yieldNext : Action
  deriving DecidableEq, Repr

section Executor

variable (toLowerCase : JsString → JsString) (env : Env) (CONCURRENCY : Nat)
  (flat : List SubQuestion)

/-- The run of `worker` on the sub-question at index `i` of `flat`. -/
def workerAt (i : Nat) : WorkerResult :=
  worker toLowerCase (env.llm i) (flat.getD i { category := .undefined, subQuestion := .undefined })
    (env.search i)

/-- The answer produced for the sub-question at index `i` of `flat`. -/
def answerAt (i : Nat) : ResearchAnswer :=
  (workerAt toLowerCase env flat i).answer

/-- The state after `workers` has been filled: member `c` starts with `i = c`. -/
def initState : ExecState :=
  { cursors := List.range CONCURRENCY, queue := [], yielded := [] }

/-- One atomic step; `none` when the step is not possible in the state (the
member does not exist or has left its loop, the queue is empty, or the
generator loop `while (yielded < flat.length)` has ended). -/
def step : Action → ExecState → Option ExecState
  | .workerDone c, st =>
    match st.cursors[c]? with
    | none => none
    | some i =>
      if i < flat.length then
        some { st with
          cursors := st.cursors.set c (i + CONCURRENCY)
          queue := st.queue ++ [answerAt toLowerCase env flat i] }
      else none
  | .yieldNext, st =>
    if st.yielded.length < flat.length then
      match st.queue with
      | [] => none
      | a :: rest => some { st with queue := rest, yielded := st.yielded ++ [a] }
    else none

/-- The state reached by a sequence of steps, `none` if one is not possible. -/
def run : List Action → ExecState → Option ExecState
  | [], st => some st
  | a :: as, st =>
    match step toLowerCase env CONCURRENCY flat a st with
    | none => none
    | some st1 => run as st1

/-- No step is possible: every pool member has left its loop and the generator
has nothing left to yield. -/
def Quiescent (st : ExecState) : Prop :=
  ∀ a, step toLowerCase env CONCURRENCY flat a st = none

end Executor

/-- The pair `(category, subQuestion)` carried by an answer. -/
def ResearchAnswer.key (a : ResearchAnswer) : JsVal × JsVal := (a.category, a.subQuestion)

/-- The pair `(category, subQuestion)` of a normalised sub-question. -/
def SubQuestion.key (q : SubQuestion) : JsVal × JsVal := (q.category, q.subQuestion)

/-! ## Auxiliary notions for reasoning about runs -/

section RunNotions

variable (toLowerCase : JsString → JsString) (env : Env) (CONCURRENCY : Nat)
  (flat : List SubQuestion)

/-- The indices still to be processed by the pool, given the loop variables. -/
def pending (cursors : List Nat) : List Nat :=
  cursors.flatMap (workerIndices CONCURRENCY flat.length)

/-- The invariant of a run: the yielded answers, the queued answers and the
indices still to be processed account for every index exactly once. -/
def RunInv (st : ExecState) : Prop :=
  ∃ ys qs : List Nat,
    st.yielded = ys.map (answerAt toLowerCase env flat) ∧
    st.queue = qs.map (answerAt toLowerCase env flat) ∧
    (ys ++ qs ++ pending CONCURRENCY flat st.cursors).Perm (List.range flat.length)

/-- The number of steps a run can still take. -/
def stepsLeft (st : ExecState) : Nat :=
  2 * (pending CONCURRENCY flat st.cursors).length + st.queue.length

end RunNotions

section ExecutorGemini

variable (toLowerCase : JsString → JsString) (env : Env) (CONCURRENCY : Nat)

/-- The generator `executorGemini`: the normalisation of `subQuestions`, which
may throw, followed by the pool and the generator loop run along the given
steps. The answers yielded so far are the field `yielded` of the state. -/
def executorGemini (subQuestions : JsVal) (acts : List Action) :
    Except JsError (Option ExecState) :=
  match normalizeSubQuestions subQuestions with
  | .error e => .error e
  | .ok flat => .ok (run toLowerCase env CONCURRENCY flat acts (initState CONCURRENCY))

end ExecutorGemini

/-! ## Concrete inputs used in examples -/

/-- An environment in which every search finds nothing. -/
def quietEnv : Env :=
  { search := fun _ => [], llm := fun _ _ => .threw (js "timeout") }

/-- The input `["What is X?", "How does Y work?"]`. -/
def twoQuestions : JsVal :=
  .arr [.str (js "What is X?"), .str (js "How does Y work?")]

/-- The normalised form of `twoQuestions`. -/
def twoQuestionsFlat : List SubQuestion :=
  [fromString (.str (js "What is X?")), fromString (.str (js "How does Y work?"))]

/-- The normalised sub-question `{ category: "misc", subQuestion: "What is X?" }`. -/
def sampleQuestion : SubQuestion := fromString (.str (js "What is X?"))

/-- A source whose content is the letter `a` repeated `n` times. -/
def sourceOfLength (n : Nat) : FetchedSource :=
  { url := js "https://example.org/a", title := js "A", content := List.replicate n 97 }

/-- An environment in which every search returns one source of 100 characters
and every call of `callLLM` throws an error with message `timeout`. -/
def failingEnv : Env :=
  { search := fun _ => [sourceOfLength 100], llm := fun _ _ => .threw (js "timeout") }

/-! ## The three shapes of input compared by the normalisation claim -/

/-- A sub-question as the data model describes it: a category and a text. -/
structure PlainSubQuestion where
  category : JsString
  text : JsString

/-- The sub-questions fed as an array of `{ category, subQuestion }` objects. -/
def asObjects (qs : List PlainSubQuestion) : JsVal :=
  .arr (qs.map (fun q => .obj [("category", .str q.category), ("subQuestion", .str q.text)]))

/-- The sub-questions fed as an array of their texts. -/
def asStrings (qs : List PlainSubQuestion) : JsVal :=
  .arr (qs.map (fun q => .str q.text))

/-- The sub-questions fed as one string, the texts joined by newlines. -/
def asText (qs : List PlainSubQuestion) : JsVal :=
  .str (join (js "\n") (qs.map (fun q => q.text)))

/-- The list `{ category: "misc", subQuestion: text }` over the sub-questions. -/
def miscList (qs : List PlainSubQuestion) : List SubQuestion :=
  qs.map (fun q => fromString (.str q.text))

/-- A summarizer that returns a fenced answer, nothing having been streamed. -/
def fencedReply : List ChatMessage → LLMOutcome :=
  fun _ => .returned (js "```markdown\nAnswer\n```") []

/-- A summarizer that returns the empty string after streaming ` Answer `. -/
def streamedReply : List ChatMessage → LLMOutcome :=
  fun _ => .returned [] (js " Answer ")

/-! ## Text clean-up of `googleSearchAndFetch` -/

/-- The replacement `s.replace(/\s+/g, " ")`: every maximal run of white space
becomes one space. The flag tells whether the previous code unit was white
space. -/
def collapseWhiteSpace : Bool → JsString → JsString
  | _, [] => []
  | inRun, c :: s =>
    if isWhiteSpace c then
      if inRun then collapseWhiteSpace true s else 32 :: collapseWhiteSpace true s
    else c :: collapseWhiteSpace false s

/-- The replacement `s.replace(/\n{3,}/g, "\n\n")`: of every run of line feeds at
most two are kept. The counter is the number of line feeds of the current run
already kept. -/
def squeezeNewlines : Nat → JsString → JsString
  | _, [] => []
  | kept, c :: s =>
    if c = 10 then
      if kept < 2 then 10 :: squeezeNewlines (kept + 1) s else squeezeNewlines kept s
    else c :: squeezeNewlines 0 s

/-- The helper `norm` (lines 423-426). -/
def norm (s : JsString) : JsString :=
  trim (squeezeNewlines 0 (collapseWhiteSpace false s))

/-- The canonical form under which a regular expression with the flag `i`
compares a code unit with a pattern character of Basic Latin: `a`-`z` are
mapped to `A`-`Z`, every other code unit to itself. -/
def foldCase (c : Nat) : Nat := if 97 ≤ c ∧ c ≤ 122 then c - 32 else c

/-- Whether `s` starts with the literal `p`, compared with the flag `i`. -/
def startsWithFold : JsString → JsString → Bool
  | _, [] => true
  | [], _ :: _ => false
  | c :: s, d :: p => foldCase c == foldCase d && startsWithFold s p

/-- The pieces of the regular expressions of the clean-up, all under the flag
`i`: a literal, an optional character `c?`, `\s+`, `\s*` and a class `[...]`. -/
inductive Piece where
  | lit (p : JsString) : Piece
  | opt (c : Nat) : Piece
  | spaces1 : Piece
  | spaces0 : Piece
  | oneOf (cs : List Nat) : Piece

/-- Greedy `\s*` followed by the rest of the pattern: the longest run of white
space after which the rest matches. The result is the number of code units
matched. -/
def trySpaces (rest : JsString → Option Nat) : JsString → Option Nat
  | [] => rest []
  | c :: s =>
    if isWhiteSpace c then
      match trySpaces rest s with
      | some n => some (n + 1)
      | none => rest (c :: s)
    else rest (c :: s)

/-- Matching a sequence of pieces at the start of `s`, with the backtracking of
the regular expression: the number of code units matched, if any. -/
def matchPieces : List Piece → JsString → Option Nat
  | [], _ => some 0
  | .lit p :: ps, s =>
    if startsWithFold s p then (matchPieces ps (s.drop p.length)).map (fun n => p.length + n)
    else none
  | .opt c :: ps, s =>
    match s with
    | [] => matchPieces ps []
    | d :: t =>
      if foldCase d = foldCase c then
        match matchPieces ps t with
        | some n => some (n + 1)
        | none => matchPieces ps (d :: t)
      else matchPieces ps (d :: t)
  | .spaces1 :: ps, s =>
    match s with
    | [] => none
    | d :: t =>
      if isWhiteSpace d then (trySpaces (matchPieces ps) t).map (fun n => n + 1) else none
  | .spaces0 :: ps, s => trySpaces (matchPieces ps) s
  | .oneOf cs :: ps, s =>
    match s with
    | [] => none
    | d :: t => if d ∈ cs then (matchPieces ps t).map (fun n => n + 1) else none

/-- The replacement `s.replace(re, '')` for a regular expression with the flag
`g`: `matchAt prev rest` is the length of the match of `re` at a position, given
the code unit before it; `skip` counts the code units of a match still to be
dropped. After a match the search resumes at its end; an empty match removes
nothing. -/
def removeMatches (matchAt : Option Nat → JsString → Option Nat) :
    Option Nat → Nat → JsString → JsString
  | _, _, [] => []
  | _, skip + 1, c :: s => removeMatches matchAt (some c) skip s
  | prev, 0, c :: s =>
    match matchAt prev (c :: s) with
    | some (n + 1) => removeMatches matchAt (some c) n s
    | _ => c :: removeMatches matchAt (some c) 0 s

/-- The characters matched by `\w`. -/
def isWordChar (c : Nat) : Bool :=
  (97 ≤ c && c ≤ 122) || (65 ≤ c && c ≤ 90) || (48 ≤ c && c ≤ 57) || c == 95

/-- The match of `\b(click here|read more|learn more)\b` with the flag `i` at a
position: the first `\b` holds when the code unit before is not a word
character (the alternatives start with a letter), the second when the code unit
after the phrase is not one (they end with a letter). -/
def matchCallToAction (prev : Option Nat) (s : JsString) : Option Nat :=
  if (match prev with | some c => isWordChar c | none => false) then none
  else
    ([js "click here", js "read more", js "learn more"].find? (fun p =>
      startsWithFold s p &&
        !(match (s.drop p.length).head? with | some c => isWordChar c | none => false))).map
      (fun p => p.length)

/-- The line terminators after which `^` matches under the flag `m`. -/
def isLineTerminator (c : Nat) : Bool := c == 10 || c == 13 || c == 8232 || c == 8233

/-- The match of `^\s*[-•]\s*` with the flag `m` at a position. -/
def matchBullet (prev : Option Nat) (s : JsString) : Option Nat :=
  if (match prev with | some c => isLineTerminator c | none => true) then
    matchPieces [.spaces0, .oneOf [45, 8226], .spaces0] s
  else none

/-- The clean-up of the accumulated text (lines 483-494): `norm`, the seven
replacements in order, and `trim`. -/
def cleanAccumulated (acc : JsString) : JsString :=
  trim
    (removeMatches matchBullet none 0
      (removeMatches matchCallToAction none 0
        (removeMatches (fun _ => matchPieces [.lit (js "newsletter")]) none 0
          (removeMatches (fun _ => matchPieces [.lit (js "subscribe"), .spaces1, .lit (js "to")])
            none 0
            (removeMatches (fun _ => matchPieces
                [.lit (js "terms"), .spaces1, .lit (js "of"), .spaces1, .lit (js "service")])
              none 0
              (removeMatches (fun _ => matchPieces
                  [.lit (js "privacy"), .spaces1, .lit (js "policy")]) none 0
                (removeMatches (fun _ => matchPieces
                    [.lit (js "cookie"), .opt 115, .spaces1, .lit (js "policy")]) none 0
                  (norm acc))))))))

/-! ## Candidates, scores and ranking of `googleSearchAndFetch` -/

/-- What the parsed page gives to the extraction: `text sel` is
`$(sel).text() || ""` after the removal of the non-content elements, and
`metaContent` is `$('meta[name="description"]').attr("content") || ""`. -/
structure HtmlPage where
  text : JsString → JsString
  metaContent : JsString

/-- An element `{ sel, text, priority }` of `candidates`. -/
structure Candidate where
  sel : JsString
  text : JsString
  priority : Nat
  deriving DecidableEq, Repr

/-- An element `{ ...c, score }` of `ranked`. The score is a double, held as
the rational number it stands for. -/
structure RankedCandidate where
  sel : JsString
  text : JsString
  priority : Nat
  score : ℚ
  deriving DecidableEq, Repr

/-- The helper `pushIf(sel, priority)`: the candidate it pushes, if any. -/
def pushIf (page : HtmlPage) (sel : JsString) (priority : Nat) : List Candidate :=
  if !(norm (page.text sel)).isEmpty && decide ((norm (page.text sel)).length > 50) then
    [{ sel := sel, text := norm (page.text sel), priority := priority }]
  else []

/-- The pattern `const t = norm(...); if (t) candidates.push({ sel, text: t, priority })`
used for headings, paragraphs, list items, the meta description and the body. -/
def pushText (name : JsString) (t : JsString) (priority : Nat) : List Candidate :=
  if !t.isEmpty then [{ sel := name, text := t, priority := priority }] else []

/-- The array `candidates` after lines 428-456. -/
def candidatesOf (page : HtmlPage) : List Candidate :=
  pushIf page (js "article") 10 ++
  pushIf page (js "main article") 9 ++
  pushIf page (js "div[itemprop='articleBody']") 9 ++
  pushIf page (js "main") 8 ++
  pushIf page (js ".post-content, .entry-content, .article-content") 8 ++
  pushIf page (js "#content, #main, .content") 7 ++
  pushIf page (js ".post, .article") 6 ++
  pushText (js "headings") (norm (page.text (js "h1, h2, h3"))) 5 ++
  pushText (js "paragraphs") (norm (page.text (js "p"))) 4 ++
  pushText (js "lists") (norm (page.text (js "li"))) 3 ++
  pushText (js "meta") (norm page.metaContent) 2 ++
  pushText (js "body") (norm (page.text (js "body"))) 1

/-- The characters kept by the split of line 458: `a-zA-Z0-9À-ɏ`. -/
def isTermChar (c : Nat) : Bool :=
  (97 ≤ c && c ≤ 122) || (65 ≤ c && c ≤ 90) || (48 ≤ c && c ≤ 57) || (192 ≤ c && c ≤ 591)

/-- The call `s.split(/[^a-zA-Z0-9À-ɏ]+/)`: the flag tells whether the
previous code unit belonged to a separator. -/
def splitTerms : Bool → JsString → List JsString
  | _, [] => [[]]
  | inSep, c :: s =>
    if isTermChar c then consHead c (splitTerms false s)
    else if inSep then splitTerms true s
    else [] :: splitTerms true s

/-- The conversion `Array.from(new Set(xs))`: the first occurrence of each
element, in order. `seen` holds the elements already in the set. -/
def uniqueFrom (seen : List JsString) : List JsString → List JsString
  | [] => []
  | w :: ws => if w ∈ seen then uniqueFrom seen ws else w :: uniqueFrom (w :: seen) ws

/-- The array `terms` of line 458. -/
def queryTerms (toLowerCase : JsString → JsString) (query : JsVal) : List JsString :=
  (splitTerms false (toLowerCase query.toJsString)).filter (fun w => decide (w.length ≥ 4))

/-- The array `uniqueTerms` of line 459. -/
def uniqueTerms (toLowerCase : JsString → JsString) (query : JsVal) : List JsString :=
  uniqueFrom [] (queryTerms toLowerCase query)

/-- The result `{ fromYear, toYear }` of `extractYearPrefFromText`. -/
structure YearPref where
  fromYear : Int
  toYear : Int
  deriving DecidableEq, Repr

/-- Whether a code unit is a decimal digit. -/
def isDigit (c : Nat) : Bool := 48 ≤ c && c ≤ 57

/-- The match of `\b(19|20)\d{2}\b` at a position, given the code unit before:
the year matched, read by `parseInt(m[0], 10)`. -/
def matchYear (prev : Option Nat) (s : JsString) : Option Nat :=
  if (match prev with | some c => isWordChar c | none => false) then none
  else
    match s with
    | a :: b :: c :: d :: rest =>
      if ((a == 49 && b == 57) || (a == 50 && b == 48)) && isDigit c && isDigit d &&
          !(match rest.head? with | some e => isWordChar e | none => false) then
        some ((a - 48) * 1000 + (b - 48) * 100 + (c - 48) * 10 + (d - 48))
      else none
    | _ => none

/-- The years found by `text.matchAll(/\b(19|20)\d{2}\b/g)`, in order; `skip`
counts the code units of a match still to be passed. -/
def yearsIn : Option Nat → Nat → JsString → List Nat
  | _, _, [] => []
  | _, skip + 1, c :: s => yearsIn (some c) skip s
  | prev, 0, c :: s =>
    match matchYear prev (c :: s) with
    | some y => y :: yearsIn (some c) 3 s
    | none => yearsIn (some c) 0 s

/-- The value `pref?.fromYear || (new Date().getFullYear() - 5)`; `now` is the
current year. -/
def baseYear (now : Int) (pref : Option YearPref) : Int :=
  match pref with
  | some p => if p.fromYear ≠ 0 then p.fromYear else now - 5
  | none => now - 5

/-- The function `recencyBoostFromText(text, pref)`; `now` is
`new Date().getFullYear()`. -/
def recencyBoostFromText (now : Int) (text : JsString) (pref : Option YearPref) : ℚ :=
  if (yearsIn none 0 text).length = 0 then 0
  else
    max 0 (min 3
      ((((yearsIn none 0 text).foldl max 0 : Nat) - (baseYear now pref : ℚ)) * (1 / 2)))

/-! ## Arithmetic of JavaScript numbers (IEEE 754 binary64) -/

/-- The integer nearest to `x`, the even one when two are equally near. -/
def roundHalfEven (x : ℚ) : ℤ :=
  if x - ⌊x⌋ < 1 / 2 then ⌊x⌋
  else if 1 / 2 < x - ⌊x⌋ then ⌊x⌋ + 1
  else if ⌊x⌋ % 2 = 0 then ⌊x⌋
  else ⌊x⌋ + 1

/-- The distance between the doubles next to `q`: `2 ^ (e - 52)` when
`2 ^ e ≤ |q| < 2 ^ (e + 1)`, and `2 ^ (-1074)` for the subnormal numbers, below
`2 ^ (-1022)`, and for zero. -/
def ulp (q : ℚ) : ℚ := 2 ^ (max (Int.log 2 |q|) (-1022) - 52)

/-- The double nearest to the real number `q`, ties to even: the rounding every
arithmetic operation on numbers ends with. A number is held as the rational it
stands for. Results of magnitude `2 ^ 1024` and more, which are infinite in
JavaScript, are not modelled; the lengths and counts of strings stay far
below. -/
def roundDouble (q : ℚ) : ℚ :=
  if q < 0 then -((roundHalfEven (-q / ulp q) : ℚ) * ulp q)
  else (roundHalfEven (q / ulp q) : ℚ) * ulp q

/-- The operator `+` on numbers. -/
def doubleAdd (a b : ℚ) : ℚ := roundDouble (a + b)

/-- The operator `*` on numbers. -/
def doubleMul (a b : ℚ) : ℚ := roundDouble (a * b)

/-- The operator `/` on numbers, for a divisor other than zero. -/
def doubleDiv (a b : ℚ) : ℚ := roundDouble (a / b)

/-- The number `hits` of `scoreOf`: the reduction over `uniqueTerms`. -/
def termHits (terms : List JsString) (low : JsString) : Nat :=
  terms.foldl (fun n w => n + (if includes low w then 1 else 0)) 0

section Ranking

variable (toLowerCase : JsString → JsString) (now : Int) (query : JsVal)
  (yearPref : Option YearPref)

/-- The function `scoreOf(text, priority)` (lines 461-467), every operation
rounded to a double, in the order of the source: `((hits * 3 + lenBoost) +
recency) + priority * 0.5`. The count `hits`, the length of the text and the
priority are integers below `2 ^ 53`, which a number holds exactly; so are the
values of `recencyBoostFromText`, multiples of one half between 0 and 3. -/
def scoreOf (text : JsString) (priority : Nat) : ℚ :=
  doubleAdd
    (doubleAdd
      (doubleAdd
        (doubleMul (termHits (uniqueTerms toLowerCase query) (toLowerCase text) : ℚ) 3)
        (min (doubleDiv (text.length : ℚ) 2000) 1))
      (recencyBoostFromText now text yearPref))
    (doubleMul (priority : ℚ) (1 / 2))

/-- The array `ranked` (lines 469-471): the candidates with their scores, sorted
by the comparator `(a, b) => b.score - a.score`, whose sign is that of the exact
difference of the two doubles. The sort of an array is stable, as is the
insertion sort used here. -/
def ranked (candidates : List Candidate) : List RankedCandidate :=
  List.insertionSort (fun a b => a.score ≥ b.score)
    (candidates.map (fun c =>
      { sel := c.sel, text := c.text, priority := c.priority,
        score := scoreOf toLowerCase now query yearPref c.text c.priority }))

end Ranking

/-- The constant `MAX` of the accumulation. -/
def MAX : Nat := 8000

/-- The loop of lines 474-481 from the accumulator `acc` over the remaining
candidates. -/
def accumulate : JsString → List RankedCandidate → JsString
  | acc, [] => acc
  | acc, c :: rest =>
    if acc.length ≥ MAX then acc
    else if acc.isEmpty || !includes acc (c.text.take 100) then
      accumulate (acc ++ (if !acc.isEmpty then js "\n\n" else []) ++ c.text) rest
    else accumulate acc rest

/-- The constant `BAD` of lines 502-506. -/
def BAD : List JsString :=
  [js "page not found", js "404", js "enable javascript", js "captcha",
   js "access denied", js "forbidden", js "error", js "not available",
   js "cookie consent", js "gdpr", js "please wait"]

section PageContent

variable (toLowerCase : JsString → JsString) (now : Int) (query : JsVal)
  (yearPref : Option YearPref)

/-- The text tested by lines 500-510: the cleaned accumulated text or, when that
has fewer than 100 characters and the meta description has at least 100, the
meta description (lines 496-499). -/
def withMetaFallback (cleanText : JsString) (page : HtmlPage) : JsString :=
  if cleanText.length < 100 then
    if (norm page.metaContent).length ≥ 100 then norm page.metaContent else cleanText
  else cleanText

/-- The end of the HTML branch (lines 500-514): `none` for `return null`,
otherwise the `content` of the returned source. -/
def acceptContent (cleanText : JsString) : Option JsString :=
  if cleanText.length < 100 then none
  else if BAD.any (fun p => includes (toLowerCase cleanText) p) then none
  else some cleanText

/-- The accumulated text `acc` of a page (lines 428-481). -/
def accumulatedText (page : HtmlPage) : JsString :=
  accumulate [] (ranked toLowerCase now query yearPref (candidatesOf page))

/-- The ranking code of the HTML branch (lines 423-514) on a parsed page: the
`content` of the source it returns, or `none` when it returns `null`. -/
def rankedContent (page : HtmlPage) : Option JsString :=
  acceptContent toLowerCase
    (withMetaFallback (cleanAccumulated (accumulatedText toLowerCase now query yearPref page))
      page)

end PageContent

/-! ## Search results and fetched pages of `googleSearchAndFetch` -/

/-- An element of `gcsResponse.data.items`: `link`, `title` and `snippet` (empty
when absent). -/
structure SearchItem where
  link : JsString
  title : JsString
  snippet : JsString
  deriving DecidableEq, Repr

/-- What the requests made for one retained result end in. `pdf` is the outcome
of `fetchWithRetry` and `extractPdfText` for a link ending in `.pdf`: the
extracted text, or the message of the error thrown. `html` is the outcome of
the request and the parsing for any other link: the parsed page, `none` when the
response has content type `application/pdf`, or the message of the error
thrown. -/
structure PageWorld where
  pdf : Except JsString JsString
  html : Except JsString (Option HtmlPage)

/-- Whether `s` ends with `p` (`String.prototype.endsWith`). -/
def endsWith (s p : JsString) : Bool := startsWith s.reverse p.reverse

section Search

-- `hostname link` is `new URL(link).hostname`, `none` when the constructor
-- throws; the parsing of URLs is not modelled. `yearPref` is the value of
-- `extractYearPrefFromText(cleanQuery)`, `now` the current year.
variable (toLowerCase : JsString → JsString) (hostname : JsString → Option JsString)
  (TOP_SOURCES : Nat) (now : Int) (query : JsVal) (yearPref : Option YearPref)

/-- The key `new URL(it.link).hostname.toLowerCase()` of a result, `none` when it
cannot be computed (the empty `catch` of line 336). -/
def hostKey (it : SearchItem) : Option JsString :=
  (hostname it.link).map toLowerCase

/-- The loop of lines 328-337: the array `items`, given the hosts already in
`seenHosts`. -/
def dedupeHosts (seenHosts : List JsString) : List SearchItem → List SearchItem
  | [] => []
  | it :: rest =>
    match hostKey toLowerCase hostname it with
    | none => dedupeHosts seenHosts rest
    | some h =>
      if h ∈ seenHosts then dedupeHosts seenHosts rest
      else it :: dedupeHosts (h :: seenHosts) rest

/-- The fallback of the `catch` of lines 515-520. -/
def snippetFallback (item : SearchItem) : Option FetchedSource :=
  if !(trim item.snippet).isEmpty then
    some { url := item.link, title := item.title, content := trim item.snippet }
  else none

/-- The callback of `pages.map` (lines 348-521) for one retained result: the
source it resolves to, or `none` for `null`. -/
def fetchPage (item : SearchItem) (world : PageWorld) : Option FetchedSource :=
  if endsWith (toLowerCase item.link) (js ".pdf") then
    match world.pdf with
    | .ok pdfText =>
      if pdfText.length < 80 then none
      else some { url := item.link, title := item.title, content := pdfText }
    | .error _ => snippetFallback item
  else
    match world.html with
    | .ok none => none
    | .ok (some page) =>
      (rankedContent toLowerCase now query yearPref page).map
        (fun cleanText => { url := item.link, title := item.title, content := cleanText })
    | .error _ => snippetFallback item

/-- The array `fetchContents`: the callback applied to the pages, the first of
which has the given index. -/
def fetchFrom (world : Nat → PageWorld) : Nat → List SearchItem → List (Option FetchedSource)
  | _, [] => []
  | index, item :: rest =>
    fetchPage toLowerCase now query yearPref item (world index) ::
      fetchFrom world (index + 1) rest

/-- The filter `fetchContents.filter((c) => c && c.content && c.content.length > 0)`. -/
def keepResults : List (Option FetchedSource) → List FetchedSource
  | [] => []
  | none :: rest => keepResults rest
  | some c :: rest =>
    if !c.content.isEmpty && decide (c.content.length > 0) then c :: keepResults rest
    else keepResults rest

/-- The value `googleSearchAndFetch` resolves to (lines 323-531), given the
outcome of the request to the search backend (`gcsResponse.data.items || []`, or
the message of the error thrown) and of the requests made for each page. The
events sent to `onStep` are left out. -/
def googleSearchAndFetch (response : Except JsString (List SearchItem))
    (world : Nat → PageWorld) : List FetchedSource :=
  match response with
  | .error _ => []
  | .ok rawItems =>
    if (dedupeHosts toLowerCase hostname [] rawItems).length = 0 then []
    else
      keepResults
        (fetchFrom toLowerCase now query yearPref world 0
          ((dedupeHosts toLowerCase hostname [] rawItems).take TOP_SOURCES))

end Search

/-- A parsed page whose only text is the body text `t`. -/
def bodyOnly (t : JsString) : HtmlPage :=
  { text := fun sel => if sel = js "body" then t else [], metaContent := [] }

/-! ## Date preference of a query -/

/-- The match of `(19|20)\d{2}` at the start of `s`: the year read by `parseInt`
and the rest of the text. -/
def yearDigits (s : JsString) : Option (Nat × JsString) :=
  match s with
  | a :: b :: c :: d :: rest =>
    if ((a == 49 && b == 57) || (a == 50 && b == 48)) && isDigit c && isDigit d then
      some ((a - 48) * 1000 + (b - 48) * 100 + (c - 48) * 10 + (d - 48), rest)
    else none
  | _ => none

/-- The match of `\b(19|20)\d{2}\s*[-–]\s*(19|20)\d{2}\b` at a position, given
the code unit before: the two years, as `range[0].split(/[-–]/)` and `parseInt`
read them. -/
def matchYearRange (prev : Option Nat) (s : JsString) : Option YearPref :=
  if (match prev with | some c => isWordChar c | none => false) then none
  else
    match yearDigits s with
    | none => none
    | some (fromYear, afterFrom) =>
      match afterFrom.dropWhile isWhiteSpace with
      | [] => none
      | dash :: afterDash =>
        if dash == 45 || dash == 8211 then
          match yearDigits (afterDash.dropWhile isWhiteSpace) with
          | none => none
          | some (toYear, afterTo) =>
            if (match afterTo.head? with | some e => isWordChar e | none => false) then none
            else some { fromYear := fromYear, toYear := toYear }
        else none

/-- The first match of the range pattern in the text (`s.match(...)` without the
flag `g`), scanning from the left. -/
def firstYearRange : Option Nat → JsString → Option YearPref
  | _, [] => none
  | prev, c :: s =>
    match matchYearRange prev (c :: s) with
    | some p => some p
    | none => firstYearRange (some c) s

/-- The match of `\blast\s+(\d{1,2})\s+years?\b` with the flag `i` at a position,
given the code unit before: the number read by `parseInt(last[1], 10)`. -/
def matchLastYears (prev : Option Nat) (s : JsString) : Option Nat :=
  if (match prev with | some c => isWordChar c | none => false) then none
  else if !startsWithFold s (js "last") then none
  else
    match s.drop 4 with
    | [] => none
    | w :: afterW =>
      if !isWhiteSpace w then none
      else
        match ((afterW.dropWhile isWhiteSpace).takeWhile isDigit).take 2 with
        | [] => none
        | d :: ds =>
          match (afterW.dropWhile isWhiteSpace).drop (d :: ds).length with
          | [] => none
          | w2 :: afterW2 =>
            if !isWhiteSpace w2 then none
            else if !startsWithFold (afterW2.dropWhile isWhiteSpace) (js "year") then none
            else
              match ((afterW2.dropWhile isWhiteSpace).drop 4) with
              | [] => some ((d :: ds).foldl (fun n c => 10 * n + (c - 48)) 0)
              | e :: afterE =>
                if foldCase e = foldCase 115 then
                  if (match afterE.head? with | some f => isWordChar f | none => false) then none
                  else some ((d :: ds).foldl (fun n c => 10 * n + (c - 48)) 0)
                else if isWordChar e then none
                else some ((d :: ds).foldl (fun n c => 10 * n + (c - 48)) 0)

/-- The first match of the `last N years` pattern in the text. -/
def firstLastYears : Option Nat → JsString → Option Nat
  | _, [] => none
  | prev, c :: s =>
    match matchLastYears prev (c :: s) with
    | some n => some n
    | none => firstLastYears (some c) s

/-- The function `extractYearPrefFromText`; `now` is `new Date().getFullYear()`. -/
def extractYearPrefFromText (now : Int) (text : JsString) : Option YearPref :=
  match firstYearRange none text with
  | some range => some range
  | none =>
    if (yearsIn none 0 text).length ≠ 0 then
      some { fromYear := ((yearsIn none 0 text).foldl max 0 : Nat),
             toYear := ((yearsIn none 0 text).foldl max 0 : Nat) }
    else
      match firstLastYears none text with
      | some n => some { fromYear := now - (min n 10 : Nat), toYear := now }
      | none => none

/-- The function `buildDateRestrictFromPref`. Both fields of a preference are
always present, so the `??` defaults (the only use of the current year) never
apply. -/
def buildDateRestrictFromPref (pref : Option YearPref) : JsString :=
  match pref with
  | none => js "y2"
  | some p => js "y" ++ js (toString (max 1 (min 10 (p.toYear - p.fromYear + 1))))

/-! ## Events and query of `googleSearchAndFetch` -/

/-- The match of `site:[^\s)]+` at the start of `s`: its length. -/
def matchSiteFilter (s : JsString) : Option Nat :=
  if startsWith s (js "site:") then
    if ((s.drop 5).takeWhile (fun c => !isWhiteSpace c && c != 41)).length ≥ 1 then
      some (5 + ((s.drop 5).takeWhile (fun c => !isWhiteSpace c && c != 41)).length)
    else none
  else none

/-- The replacement `s.replace(/\s{2,}/g, " ")`: a run of two or more white-space
code units becomes one space, a single one is kept. `pending` is a white-space
code unit read and not yet written, `inLong` tells whether the current run has
already been replaced. -/
def squeezeSpaceRuns : Option Nat → Bool → JsString → JsString
  | pending, _, [] =>
    match pending with
    | some d => [d]
    | none => []
  | pending, inLong, c :: s =>
    if isWhiteSpace c then
      match pending with
      | some _ => 32 :: squeezeSpaceRuns none true s
      | none => if inLong then squeezeSpaceRuns none true s else squeezeSpaceRuns (some c) false s
    else
      match pending with
      | some d => d :: c :: squeezeSpaceRuns none false s
      | none => c :: squeezeSpaceRuns none false s

/-- The value `cleanQuery` of line 302. -/
def cleanQueryOf (query : JsVal) : JsString :=
  trim (squeezeSpaceRuns none false
    (removeMatches (fun _ => matchSiteFilter) none 0 query.toJsString))

/-- The value `q` of lines 306-309. -/
def searchQueryOf (cleanQuery : JsString) (yearPref : Option YearPref) : JsString :=
  trim (cleanQuery ++
    (match yearPref with
      | some p =>
        js " " ++ (if p.fromYear = p.toYear then js (toString p.toYear)
          else js (toString p.fromYear) ++ js "-" ++ js (toString p.toYear))
      | none => []))

/-- The events `googleSearchAndFetch` sends to `onStep`. -/
inductive StepEvent where
  | searchStart (q : JsString) (category : JsVal) (dateRestrict : JsString) : StepEvent
  | searchEmpty (q : JsString) (category : JsVal) : StepEvent
  | searchError (q : JsString) (error : JsString) : StepEvent
  | searchDone (q : JsString) (count : Nat) : StepEvent
  | googleFetch (title url : JsString) (length : Nat) (pdf : Bool) : StepEvent
  | googleFetchError (title url error : JsString) : StepEvent

/-- What a call of `googleSearchAndFetch` does: the events sent to `onStep` and
the list it resolves to. -/
structure SearchRun where
  events : List StepEvent
  results : List FetchedSource

section SearchRun

variable (toLowerCase : JsString → JsString) (hostname : JsString → Option JsString)
  (TOP_SOURCES : Nat) (now : Int) (query : JsVal) (yearPref : Option YearPref)

/-- The events sent by the callback of `pages.map` for one page: `google-fetch`
when a source is built from the page, `google-fetch-error` in the `catch`. -/
def fetchPageEvents (item : SearchItem) (world : PageWorld) : List StepEvent :=
  if endsWith (toLowerCase item.link) (js ".pdf") then
    match world.pdf with
    | .ok pdfText =>
      if pdfText.length < 80 then []
      else [.googleFetch item.title item.link pdfText.length true]
    | .error message => [.googleFetchError item.title item.link message]
  else
    match world.html with
    | .ok none => []
    | .ok (some page) =>
      match rankedContent toLowerCase now query yearPref page with
      | some cleanText => [.googleFetch item.title item.link cleanText.length false]
      | none => []
    | .error message => [.googleFetchError item.title item.link message]

/-- The events of all pages, page after page (the callbacks run concurrently, so
the events of different pages may in fact interleave). -/
def fetchEventsFrom (world : Nat → PageWorld) : Nat → List SearchItem → List StepEvent
  | _, [] => []
  | index, item :: rest =>
    fetchPageEvents toLowerCase now query yearPref item (world index) ++
      fetchEventsFrom world (index + 1) rest

end SearchRun

/-- The function `googleSearchAndFetch(query, onStep, category)` with its events,
given the outcome of the request to the search backend and of the requests made
for each page. The callback `onStep` is assumed not to throw. -/
def googleSearchAndFetchRun (toLowerCase : JsString → JsString)
    (hostname : JsString → Option JsString) (TOP_SOURCES : Nat) (now : Int)
    (query category : JsVal) (response : Except JsString (List SearchItem))
    (world : Nat → PageWorld) : SearchRun :=
  { events :=
      .searchStart
          (searchQueryOf (cleanQueryOf query) (extractYearPrefFromText now (cleanQueryOf query)))
          category
          (buildDateRestrictFromPref (extractYearPrefFromText now (cleanQueryOf query))) ::
        (match response with
          | .error message =>
            [.searchError
                (searchQueryOf (cleanQueryOf query)
                  (extractYearPrefFromText now (cleanQueryOf query))) message,
              .searchDone
                (searchQueryOf (cleanQueryOf query)
                  (extractYearPrefFromText now (cleanQueryOf query))) 0]
          | .ok rawItems =>
            if (dedupeHosts toLowerCase hostname [] rawItems).length = 0 then
              [.searchEmpty
                  (searchQueryOf (cleanQueryOf query)
                    (extractYearPrefFromText now (cleanQueryOf query))) category,
                .searchDone
                  (searchQueryOf (cleanQueryOf query)
                    (extractYearPrefFromText now (cleanQueryOf query))) 0]
            else
              fetchEventsFrom toLowerCase now query
                  (extractYearPrefFromText now (cleanQueryOf query)) world 0
                  ((dedupeHosts toLowerCase hostname [] rawItems).take TOP_SOURCES) ++
                [.searchDone
                  (searchQueryOf (cleanQueryOf query)
                    (extractYearPrefFromText now (cleanQueryOf query)))
                  (googleSearchAndFetch toLowerCase hostname TOP_SOURCES now query
                    (extractYearPrefFromText now (cleanQueryOf query)) response
                    world).length]),
    results :=
      googleSearchAndFetch toLowerCase hostname TOP_SOURCES now query
        (extractYearPrefFromText now (cleanQueryOf query)) response world }

/-! ## More concrete inputs used in examples -/

/-- A search result with a snippet surrounded by white space. -/
def sampleItem : SearchItem :=
  { link := js "https://example.org/a", title := js "A", snippet := js "  A snippet. " }

/-- The same result without a snippet. -/
def bareItem : SearchItem :=
  { link := js "https://example.org/a", title := js "A", snippet := [] }

/-- A page for which every request fails with the message `timeout`. -/
def failedWorld : PageWorld :=
  { pdf := .error (js "timeout"), html := .error (js "timeout") }

/-! ## Sub-questions being processed during a run -/

/-- The indices of the sub-questions being processed in a state: the loop
variable `i` of every pool member that is still inside its loop, where it awaits
`worker(flat[i])`. -/
def inFlight (flat : List SubQuestion) (st : ExecState) : List Nat :=
  st.cursors.filter (fun i => decide (i < flat.length))

/-- The input of five questions `Q1` ... `Q5`. -/
def fiveQuestions : JsVal :=
  .arr [.str (js "Q1"), .str (js "Q2"), .str (js "Q3"), .str (js "Q4"), .str (js "Q5")]

/-- The normalised form of `fiveQuestions`. -/
def fiveQuestionsFlat : List SubQuestion :=
  [fromString (.str (js "Q1")), fromString (.str (js "Q2")), fromString (.str (js "Q3")),
    fromString (.str (js "Q4")), fromString (.str (js "Q5"))]

/-! ## The source list of the event `completed` of `deepsearchStream` -/

/-- The call `self.indexOf(url)` on an array of strings, counting from `index`:
the position of the first element equal to `url`, or `-1`. -/
def indexOfFrom (url : JsString) : Nat → List JsString → Int
  | _, [] => -1
  | index, u :: rest => if u = url then (index : Int) else indexOfFrom url (index + 1) rest

/-- The array the filter of line 1276 is applied to: the `url` of every source of
every answer that has sources. -/
def allSourceUrls (answers : List ResearchAnswer) : List JsString :=
  (answers.filter (fun a => decide (a.sources.length > 0))).flatMap
    (fun a => a.sources.map (fun s => s.url))

/-- The filter `(url, index, self) => url && self.indexOf(url) === index` over the
elements of `self` from position `index` on. -/
def keepFirstOccurrences (self : List JsString) : Nat → List JsString → List JsString
  | _, [] => []
  | index, url :: rest =>
    if !url.isEmpty && decide (indexOfFrom url 0 self = (index : Int)) then
      url :: keepFirstOccurrences self (index + 1) rest
    else keepFirstOccurrences self (index + 1) rest

/-- The array `sourceUrls` of lines 1273-1277. -/
def sourceUrls (answers : List ResearchAnswer) : List JsString :=
  (keepFirstOccurrences (allSourceUrls answers) 0 (allSourceUrls answers)).take 20

/-! ## Validation of the topic by the route `/stream` and by `deepsearch` -/

/-- The condition `!topic || typeof topic !== "string" || topic.trim().length < 3`,
which the route and `deepsearch` both test first. The method `trim` is only
reached for a string. -/
def topicRejected (topic : JsVal) : Bool :=
  !topic.truthy || topic.typeof != .string ||
    (match topic with
      | .str s => decide ((trim s).length < 3)
      | _ => false)

/-- What the handler of `POST /stream` does with a request body: it writes one
`error` event with the given message and ends the response, or it goes on to
call `deepsearchStream` with the topic. -/
inductive RouteOutcome where
  | errorEvent (message : JsString) : RouteOutcome
  | started (topic : JsVal) : RouteOutcome

/-- The handler of `POST /stream` up to the call of `deepsearchStream`
(`src/deepsearch.js`, lines 38-47); `topic` is `req.body.topic`, `undefined`
when absent. -/
def streamRoute (topic : JsVal) : RouteOutcome :=
  if topicRejected topic then
    .errorEvent (js "Topic phải là chuỗi có ít nhất 3 ký tự")
  else .started topic

/-- The function `deepsearch` up to the first research step (lines 951-959): the
message of the error thrown by the validation, or the value `cleanTopic` the
steps are run with. -/
def deepsearch (topic model : JsVal) : Except JsString JsString :=
  if topicRejected topic then
    .error (js "Topic phải là string có ít nhất 3 ký tự")
  else if !model.truthy || model.typeof != .string then
    .error (js "Model parameter là bắt buộc và phải là string")
  else
    match topic with
    | .str s => .ok (trim s)
    | _ => .ok []

/-! ## File names of the reports -/

/-- The replacement `s.replace(/[\u0300-\u036f]/g, "")`: the combining marks of
the block U+0300-U+036F are removed. -/
def removeCombiningMarks (s : JsString) : JsString :=
  s.filter (fun c => !(decide (768 ≤ c) && decide (c ≤ 879)))

/-- The replacement `s.replace(/[^\w\d]+/g, "_")`: every maximal run of code units
that `\w` does not match becomes one underscore. `inRun` tells whether the code
unit before belongs to such a run. -/
def replaceNonWordRuns : Bool → JsString → JsString
  | _, [] => []
  | inRun, c :: s =>
    if isWordChar c then c :: replaceNonWordRuns false s
    else if inRun then replaceNonWordRuns true s
    else 95 :: replaceNonWordRuns true s

/-- The replacement `s.replace(/^_+|_+$/g, "")`: the underscores at the start and
at the end are removed. -/
def stripUnderscores (s : JsString) : JsString :=
  (s.dropWhile (fun c => c == 95)).rdropWhile (fun c => c == 95)

/-- The replacement `s.replace(/_+/g, "_")`: every run of underscores becomes one
underscore. `inRun` tells whether the code unit before is an underscore. -/
def collapseUnderscores : Bool → JsString → JsString
  | _, [] => []
  | inRun, c :: s =>
    if c == 95 then
      if inRun then collapseUnderscores true s else 95 :: collapseUnderscores true s
    else c :: collapseUnderscores false s

/-- The call `s.lastIndexOf(c, fromIndex)` for a single code unit `c`: the
largest index not above `fromIndex` at which `c` occurs, or `-1`. -/
def lastIndexOf (c : Nat) (s : JsString) (fromIndex : Nat) : Int :=
  (((s.take (fromIndex + 1)).rdropWhile (fun x => x != c)).length : Int) - 1

/-- The truncation of lines 1234-1237: a name of more than 60 code units is cut
at its last underscore at an index up to 60, or after 60 code units. -/
def truncateName (s : JsString) : JsString :=
  if s.length > 60 then
    s.take (if lastIndexOf 95 s 60 > 0 then (lastIndexOf 95 s 60).toNat else 60)
  else s

/-- The function `toFileName` of `deepsearchStream`
(`src/deepresearch.controller.js`, lines 1230-1239); `normalizeNFD` is
`String.prototype.normalize("NFD")`, which is not modelled. -/
def toFileName (normalizeNFD : JsString → JsString) (str : JsString) : JsString :=
  truncateName
    (collapseUnderscores false
      (stripUnderscores
        (replaceNonWordRuns false (removeCombiningMarks (normalizeNFD str)))))

/-- The function `toFileName` of the route that generates a report file
(`src/deepsearch.js`, lines 339-348), statement by statement. -/
def toFileNameRoute (normalizeNFD : JsString → JsString) (str : JsString) : JsString :=
  let str1 := removeCombiningMarks (normalizeNFD str)
  let str2 := replaceNonWordRuns false str1
  let str3 := collapseUnderscores false (stripUnderscores str2)
  if str3.length > 60 then
    str3.take (if lastIndexOf 95 str3 60 > 0 then (lastIndexOf 95 str3 60).toNat else 60)
  else str3

/-! ## The conversion of a report to document elements (`src/report.controller.js`) -/

/-- The elements pushed on `children` by `parseMarkdownToDocx`, with the data
they are built from: the note standing for a Mermaid chart, a heading of level
1 to 3, a bullet holding a link or a text, a table with the cells of its rows, a
citation, a link and a plain paragraph. -/
inductive DocxChild where
  | mermaidNote : DocxChild
  | heading (level : Nat) (text : JsString) : DocxChild
  | bulletLink (text link : JsString) : DocxChild
  | bullet (text : JsString) : DocxChild
  | table (rows : List (List JsString)) : DocxChild
  | citation (number link : JsString) : DocxChild
  | link (text link : JsString) : DocxChild
  | paragraph (text : JsString) : DocxChild
  deriving DecidableEq, Repr

/-- The three regular expressions on links, which are not modelled: the match of
a bullet text against `^\[([^\]]+)\]\((https?:\/\/[^\s)]+)\)$`, of a line against
`\[\[(\d+)\]\]\((https?:\/\/[^\s)]+)\)` and of a line against
`\[([^\]]+)\]\((https?:\/\/[^\s)]+)\)`; each gives the two groups of the match. -/
structure LinkPatterns where
  bulletLink : JsString → Option (JsString × JsString)
  citation : JsString → Option (JsString × JsString)
  mdLink : JsString → Option (JsString × JsString)

/-- The call `s.split(sep)` for a separator of one code unit. -/
def splitOn (sep : Nat) : JsString → List JsString
  | [] => [[]]
  | c :: s => if c = sep then [] :: splitOn sep s else consHead c (splitOn sep s)

/-- The test `/^\|\s*-+/.test(rowLine)` of line 81. -/
def separatorTest (rowLine : JsString) : Bool :=
  match rowLine with
  | [] => false
  | c :: rest => c == 124 && (rest.dropWhile isWhiteSpace).head? == some 45

/-- The array `cells` of line 82: `rowLine.split('|').map(c => c.trim()).filter(Boolean)`. -/
def cellsOf (rowLine : JsString) : List JsString :=
  ((splitOn 124 rowLine).map trim).filter (fun c => !c.isEmpty)

/-- The `while` loop of lines 79-87, started with the given `i` and `rows`: the
values of `i` and `rows` when it ends. `fuel` bounds the number of iterations. -/
def tableLoop (lines : List JsString) :
    Nat → Nat → List (List JsString) → Nat × List (List JsString)
  | 0, i, rows => (i, rows)
  | fuel + 1, i, rows =>
    match lines[i]? with
    | none => (i, rows)
    | some l =>
      if startsWith (trim l) (js "|") then
        if separatorTest (trim l) then tableLoop lines fuel (i + 1) rows
        else tableLoop lines fuel (i + 1) (rows ++ [cellsOf (trim l)])
      else (i, rows)

/-- The statement `if (rows.length) children.push(new Table({ rows }))` of
line 89: the elements it pushes. -/
def pushTable (rows : List (List JsString)) : List DocxChild :=
  if rows.length ≠ 0 then [.table rows] else []

/-- The value of `line` after lines 25-30: the line is trimmed when it starts
with `#`, `- ` or `>`. -/
def lineOf (raw : JsString) : JsString :=
  if startsWith raw (js "#") || startsWith raw (js "- ") || startsWith raw (js ">") then trim raw
  else raw

/-- What one pass through the body of the `for` loop leaves: the elements pushed
on `children`, the value of `i` when the body ends (before `i++`) and the value
of `inMermaid`. -/
structure LineResult where
  children : List DocxChild
  i : Nat
  inMermaid : Bool

/-- The body of the `for` loop (lines 25-123) for the line `raw = lines[i]`. In
the table branch the `while` loop ends with `i` at least 1, so `i--` stays a
natural number. -/
def lineStep (p : LinkPatterns) (lines : List JsString) (i : Nat) (inMermaid : Bool)
    (raw : JsString) : LineResult :=
  if (trim raw).isEmpty then { children := [], i := i, inMermaid := inMermaid }
  else if startsWith (lineOf raw) (js "```mermaid") then
    { children := [.mermaidNote], i := i, inMermaid := true }
  else if inMermaid && startsWith (lineOf raw) (js "```") then
    { children := [], i := i, inMermaid := false }
  else if inMermaid then { children := [], i := i, inMermaid := inMermaid }
  else if startsWith (lineOf raw) (js "# ") then
    { children := [.heading 1 ((lineOf raw).drop 2)], i := i, inMermaid := inMermaid }
  else if startsWith (lineOf raw) (js "## ") then
    { children := [.heading 2 ((lineOf raw).drop 3)], i := i, inMermaid := inMermaid }
  else if startsWith (lineOf raw) (js "### ") then
    { children := [.heading 3 ((lineOf raw).drop 4)], i := i, inMermaid := inMermaid }
  else if startsWith (lineOf raw) (js "- ") then
    match p.bulletLink ((lineOf raw).drop 2) with
    | some (text, link) =>
      { children := [.bulletLink text link], i := i, inMermaid := inMermaid }
    | none => { children := [.bullet ((lineOf raw).drop 2)], i := i, inMermaid := inMermaid }
  else if startsWith (lineOf raw) (js "|") then
    { children := pushTable (tableLoop lines (lines.length - i) i []).2,
      i := (tableLoop lines (lines.length - i) i []).1 - 1,
      inMermaid := inMermaid }
  else
    match p.citation (lineOf raw) with
    | some (number, link) =>
      { children := [.citation number link], i := i, inMermaid := inMermaid }
    | none =>
      match p.mdLink (lineOf raw) with
      | some (text, link) => { children := [.link text link], i := i, inMermaid := inMermaid }
      | none => { children := [.paragraph (lineOf raw)], i := i, inMermaid := inMermaid }

/-- The `for` loop of lines 24-124 from the given `i` and `inMermaid` on: the
elements it pushes on `children`, in order. `fuel` bounds the number of
iterations. -/
def parseLoop (p : LinkPatterns) (lines : List JsString) : Nat → Nat → Bool → List DocxChild
  | 0, _, _ => []
  | fuel + 1, i, inMermaid =>
    match lines[i]? with
    | none => []
    | some raw =>
      (lineStep p lines i inMermaid raw).children ++
        parseLoop p lines fuel ((lineStep p lines i inMermaid raw).i + 1)
          (lineStep p lines i inMermaid raw).inMermaid

/-- The canonical form under which a regular expression with the flag `i`
compares a code unit with a pattern character of Basic Latin or Latin-1: the
lower-case letters of these two blocks are mapped to their upper case, every
other code unit to itself. No code unit outside the two blocks has its upper
case inside them, except those upper-cased to Basic Latin, which the flag `i`
leaves alone. -/
def canonicalize (c : Nat) : Nat :=
  if (97 ≤ c ∧ c ≤ 122) ∨ (224 ≤ c ∧ c ≤ 254 ∧ c ≠ 247) then c - 32 else c

/-- Whether `s` starts with the literal `p` of Basic Latin and Latin-1
characters, compared with the flag `i`. -/
def startsWithCanon : JsString → JsString → Bool
  | _, [] => true
  | [], _ :: _ => false
  | c :: s, d :: p => canonicalize c == canonicalize d && startsWithCanon s p

/-- The three alternatives of `reportStartPattern` (line 9), in order. -/
def reportHeadings : List JsString :=
  [js "**BÁO CÁO PHÂN TÍCH CHUYÊN SÂU**",
   js "# BÁO CÁO PHÂN TÍCH CHUYÊN SÂU",
   js "## BÁO CÁO PHÂN TÍCH CHUYÊN SÂU"]

/-- The match of `reportStartPattern` at the start of `s`: the text `match[0]`
matched by the first alternative that applies. -/
def matchReportStart (s : JsString) : Option JsString :=
  (reportHeadings.find? (fun h => startsWithCanon s h)).map (fun h => s.take h.length)

/-- The call `markdown.match(reportStartPattern)`: the text `match[0]` of the
leftmost match. -/
def firstReportStart : JsString → Option JsString
  | [] => none
  | c :: s =>
    match matchReportStart (c :: s) with
    | some m => some m
    | none => firstReportStart s

/-- The call `s.indexOf(p)` counted from `index`: the position of the first
occurrence of `p`, or `-1`. -/
def stringIndexOf (p : JsString) : Nat → JsString → Int
  | index, [] => if p.isEmpty then (index : Int) else -1
  | index, c :: s =>
    if startsWith (c :: s) p then (index : Int) else stringIndexOf p (index + 1) s

/-- Lines 10-15: when the heading of the report is found, the text starts at the
line break before the first occurrence of the matched text, or at this
occurrence when no line break comes before it. -/
def cutToReportHeading (markdown : JsString) : JsString :=
  match firstReportStart markdown with
  | none => markdown
  | some m =>
    if lastIndexOf 10 markdown (stringIndexOf m 0 markdown).toNat ≥ 0 then
      markdown.drop (lastIndexOf 10 markdown (stringIndexOf m 0 markdown).toNat).toNat
    else markdown.drop (stringIndexOf m 0 markdown).toNat

/-- The replacement `t.replace(/^```[a-zA-Z]*\n?/, '')`. -/
def removeFenceLine (t : JsString) : JsString :=
  if startsWith t (js "```") then
    if ((t.drop 3).dropWhile (fun c => (97 ≤ c && c ≤ 122) || (65 ≤ c && c ≤ 90))).head?
        = some 10 then
      ((t.drop 3).dropWhile (fun c => (97 ≤ c && c ≤ 122) || (65 ≤ c && c ≤ 90))).drop 1
    else (t.drop 3).dropWhile (fun c => (97 ≤ c && c ≤ 122) || (65 ≤ c && c ≤ 90))
  else t

/-- The replacement `t.replace(/\n?```$/, '')`: the fence at the end of the text
is removed, with the line break before it if there is one. -/
def removeFinalFence (t : JsString) : JsString :=
  if endsWith t (js "```") then
    if (t.take (t.length - 3)).getLast? = some 10 then t.take (t.length - 4)
    else t.take (t.length - 3)
  else t

/-- Lines 17-20: a text that, once trimmed, starts and ends with three backticks
loses this wrapping. -/
def unwrapFence (markdown : JsString) : JsString :=
  if startsWith (trim markdown) (js "```") && endsWith (trim markdown) (js "```") then
    removeFinalFence (removeFenceLine (trim markdown))
  else markdown

/-- The array `lines` of line 20. -/
def reportLines (markdown : JsString) : List JsString :=
  splitOn 10 (unwrapFence (cutToReportHeading markdown))

/-- The function `parseMarkdownToDocx`. Every iteration of the loop moves to a
later line, so `lines.length` iterations are enough. -/
def parseMarkdownToDocx (p : LinkPatterns) (markdown : JsString) : List DocxChild :=
  parseLoop p (reportLines markdown) (reportLines markdown).length 0 false

/-- The lines consumed by the `while` loop started at line `i`: the lines from
there on whose trimmed text starts with `|`. -/
def tableBlock (lines : List JsString) (i : Nat) : List JsString :=
  (lines.drop i).takeWhile (fun l => startsWith (trim l) (js "|"))

/-- A separator line of a table: the line has cells, and all of them are made of
dashes only. -/
def dashCellsOnly (rowLine : JsString) : Bool :=
  !(cellsOf rowLine).isEmpty && (cellsOf rowLine).all (fun cell => cell.all (fun c => c == 45))

/-- Link patterns that match nothing. -/
def noLinks : LinkPatterns :=
  { bulletLink := fun _ => none, citation := fun _ => none, mdLink := fun _ => none }

/-- A report with a table of two rows, the second of them indented. -/
def tableReport : JsString :=
  js "Results\n| a | b |\n|---|---|\n  | 1 | 2 |\nDone"

/-- A report with a table line inside a Mermaid block. -/
def mermaidReport : JsString :=
  js "# Chart\n```mermaid\n|a|b|\n```"

/-- A report made of a Mermaid block only, which is taken for a wrapping fence. -/
def wrappedReport : JsString :=
  js "```mermaid\n|a|b|\n```"

/-- A report with text before the heading of the report. -/
def prefacedReport : JsString :=
  js "| x |\nintro ## báo cáo phân tích chuyên sâu\n| y |"

/-! ## Round-robin partition of the indices -/

theorem workerLoop_mem_imp {C n : Nat} : ∀ (fuel i x : Nat),
    x ∈ workerLoop C n fuel i → i ≤ x ∧ x < n ∧ x % C = i % C := by
  intro fuel
  induction fuel with
  | zero => intro i x h; simp [workerLoop] at h
  | succ f ih =>
    intro i x h
    unfold workerLoop at h
    split at h
    · rename_i hin
      rcases List.mem_cons.1 h with h1 | h1
      · subst h1; exact ⟨le_rfl, hin, rfl⟩
      · obtain ⟨h2, h3, h4⟩ := ih (i + C) x h1
        refine ⟨by omega, h3, ?_⟩
        rw [h4, Nat.add_mod_right]
    · simp at h

theorem workerLoop_mem_of {C n : Nat} (hC : 0 < C) : ∀ (fuel i x : Nat),
    n ≤ fuel + i → i ≤ x → x < n → x % C = i % C → x ∈ workerLoop C n fuel i := by
  intro fuel
  induction fuel with
  | zero => intro i x h1 h2 h3 _; omega
  | succ f ih =>
    intro i x h1 h2 h3 h4
    unfold workerLoop
    have hin : i < n := by omega
    rw [if_pos hin]
    by_cases hx : x = i
    · subst hx; exact List.mem_cons_self _ _
    · refine List.mem_cons_of_mem _ (ih (i + C) x (by omega) ?_ h3 ?_)
      · have hd : C ∣ x - i := Nat.dvd_of_mod_eq_zero (Nat.sub_mod_eq_zero_of_mod_eq h4)
        have := Nat.le_of_dvd (by omega) hd
        omega
      · rw [h4, Nat.add_mod_right]

theorem workerLoop_pairwise {C n : Nat} (hC : 0 < C) : ∀ (fuel i : Nat),
    (workerLoop C n fuel i).Pairwise (· < ·) := by
  intro fuel
  induction fuel with
  | zero => intro i; simp [workerLoop]
  | succ f ih =>
    intro i
    unfold workerLoop
    split
    · refine List.pairwise_cons.2 ⟨?_, ih _⟩
      intro x hx
      have := (workerLoop_mem_imp f (i + C) x hx).1
      omega
    · exact List.Pairwise.nil

theorem workerLoop_fuel {C n : Nat} (hC : 0 < C) : ∀ (fuel fuel2 i : Nat),
    n ≤ fuel + i → n ≤ fuel2 + i → workerLoop C n fuel i = workerLoop C n fuel2 i := by
  intro fuel
  induction fuel with
  | zero =>
    intro fuel2 i h1 _
    cases fuel2 with
    | zero => rfl
    | succ g => simp only [workerLoop]; rw [if_neg (by omega)]
  | succ f ih =>
    intro fuel2 i h1 h2
    cases fuel2 with
    | zero => simp only [workerLoop]; rw [if_neg (by omega)]
    | succ g =>
      simp only [workerLoop]
      split
      · rw [ih g (i + C) (by omega) (by omega)]
      · rfl

theorem mem_workerIndices {C n : Nat} (hC : 0 < C) (k x : Nat) :
    x ∈ workerIndices C n k ↔ x < n ∧ k ≤ x ∧ x % C = k % C := by
  constructor
  · intro h
    obtain ⟨h1, h2, h3⟩ := workerLoop_mem_imp n k x h
    exact ⟨h2, h1, h3⟩
  · rintro ⟨h1, h2, h3⟩
    exact workerLoop_mem_of hC n k x (by omega) h2 h1 h3

theorem stride_iff {C : Nat} (k x : Nat) :
    (k ≤ x ∧ x % C = k % C) ↔ ∃ j, x = k + j * C := by
  constructor
  · rintro ⟨h1, h2⟩
    obtain ⟨j, hj⟩ := Nat.dvd_of_mod_eq_zero (Nat.sub_mod_eq_zero_of_mod_eq h2)
    exact ⟨j, by rw [Nat.mul_comm]; omega⟩
  · rintro ⟨j, rfl⟩
    exact ⟨by omega, Nat.add_mul_mod_self_right _ _ _⟩

theorem workerIndices_unfold {C n : Nat} (hC : 0 < C) {i : Nat} (hi : i < n) :
    workerIndices C n i = i :: workerIndices C n (i + C) := by
  unfold workerIndices
  cases n with
  | zero => omega
  | succ m =>
    rw [workerLoop, if_pos hi]
    rw [workerLoop_fuel hC m (m + 1) (i + C) (by omega) (by omega)]

theorem workerIndices_done {C n : Nat} {i : Nat} (hi : n ≤ i) :
    workerIndices C n i = [] := by
  unfold workerIndices
  cases n with
  | zero => rfl
  | succ m => rw [workerLoop, if_neg (by omega)]

/-- C2. With a positive `CONCURRENCY`, the pool member created for `k` processes
exactly the indices `k, k + CONCURRENCY, k + 2 * CONCURRENCY, ...` below
`n = flat.length`, in increasing order (its loop ends: any fuel of at least `n`
gives the same list), and every index below `n` is processed by exactly one
member, exactly once. -/
theorem workerIndices_round_robin (CONCURRENCY n : Nat) (hC : 0 < CONCURRENCY) :
    (∀ k, k < CONCURRENCY →
      (∀ i, i ∈ workerIndices CONCURRENCY n k ↔ i < n ∧ ∃ j, i = k + j * CONCURRENCY) ∧
      (workerIndices CONCURRENCY n k).Pairwise (· < ·) ∧
      (∀ fuel, n ≤ fuel → workerLoop CONCURRENCY n fuel k = workerIndices CONCURRENCY n k)) ∧
    (∀ i, i < n → ∃! k, k < CONCURRENCY ∧ i ∈ workerIndices CONCURRENCY n k) ∧
    (∀ i, i < n → ∀ k, k < CONCURRENCY →
      (workerIndices CONCURRENCY n k).count i = if k = i % CONCURRENCY then 1 else 0) := by
  refine ⟨?_, ?_, ?_⟩
  · intro k _
    refine ⟨?_, workerLoop_pairwise hC n k, ?_⟩
    · intro i
      rw [mem_workerIndices hC, stride_iff]
    · intro fuel hf
      exact workerLoop_fuel hC fuel n k (by omega) (by omega)
  · intro i hi
    refine ⟨i % CONCURRENCY, ⟨Nat.mod_lt _ hC, ?_⟩, ?_⟩
    · exact (mem_workerIndices hC _ _).2 ⟨hi, Nat.mod_le _ _, (Nat.mod_mod _ _).symm⟩
    · rintro k ⟨hk, hmem⟩
      have := ((mem_workerIndices hC _ _).1 hmem).2.2
      rw [Nat.mod_eq_of_lt hk] at this
      exact this.symm
  · intro i hi k hk
    have hnd : (workerIndices CONCURRENCY n k).Nodup :=
      (workerLoop_pairwise hC n k).imp (fun h => Nat.ne_of_lt h)
    split
    · rename_i hki
      refine List.count_eq_one_of_mem hnd ?_
      rw [hki]
      exact (mem_workerIndices hC _ _).2 ⟨hi, Nat.mod_le _ _, (Nat.mod_mod _ _).symm⟩
    · rename_i hki
      refine List.count_eq_zero.2 ?_
      intro hmem
      have := ((mem_workerIndices hC _ _).1 hmem).2.2
      rw [Nat.mod_eq_of_lt hk] at this
      exact hki this.symm

/-- Witness of C2 with `CONCURRENCY = 2` and five sub-questions: the members
process `[0, 2, 4]` and `[1, 3]`. -/
theorem workerIndices_round_robin_witness :
    0 < 2 ∧ workerIndices 2 5 0 = [0, 2, 4] ∧ workerIndices 2 5 1 = [1, 3] ∧
    (∀ i, i < 5 → ∃! k, k < 2 ∧ i ∈ workerIndices 2 5 k) :=
  ⟨by decide, by decide, by decide, (workerIndices_round_robin 2 5 (by decide)).2.1⟩

/-! ## Runs of the executor -/

section ExecutorProofs

variable (toLowerCase : JsString → JsString) (env : Env) (CONCURRENCY : Nat)
  (flat : List SubQuestion)

theorem pending_initial (hC : 0 < CONCURRENCY) :
    (pending CONCURRENCY flat (List.range CONCURRENCY)).Perm (List.range flat.length) := by
  have hnd : (pending CONCURRENCY flat (List.range CONCURRENCY)).Nodup := by
    unfold pending
    rw [List.nodup_flatMap]
    refine ⟨fun k _ => (workerLoop_pairwise hC _ k).imp (fun h => Nat.ne_of_lt h), ?_⟩
    refine (List.nodup_range CONCURRENCY).imp_of_mem ?_
    intro a b ha hb hab x hxa hxb
    have h1 := ((mem_workerIndices hC _ _).1 hxa).2.2
    have h2 := ((mem_workerIndices hC _ _).1 hxb).2.2
    rw [Nat.mod_eq_of_lt (List.mem_range.1 ha)] at h1
    rw [Nat.mod_eq_of_lt (List.mem_range.1 hb)] at h2
    exact hab (h1.symm.trans h2)
  refine (List.perm_ext_iff_of_nodup hnd (List.nodup_range _)).2 ?_
  intro x
  unfold pending
  rw [List.mem_flatMap, List.mem_range]
  constructor
  · rintro ⟨k, _, hx⟩
    exact ((mem_workerIndices hC _ _).1 hx).1
  · intro hx
    exact ⟨x % CONCURRENCY, List.mem_range.2 (Nat.mod_lt _ hC),
      (mem_workerIndices hC _ _).2 ⟨hx, Nat.mod_le _ _, (Nat.mod_mod _ _).symm⟩⟩

theorem pending_set (hC : 0 < CONCURRENCY) (cursors : List Nat) (c i : Nat)
    (hc : cursors[c]? = some i) (hi : i < flat.length) :
    (pending CONCURRENCY flat cursors).Perm
      (i :: pending CONCURRENCY flat (cursors.set c (i + CONCURRENCY))) := by
  induction cursors generalizing c with
  | nil => simp at hc
  | cons x xs ih =>
    cases c with
    | zero =>
      simp at hc
      subst hc
      simp only [pending, List.set_cons_zero, List.flatMap_cons]
      rw [workerIndices_unfold hC hi]
      exact List.Perm.refl _
    | succ c =>
      simp at hc
      have := ih c hc
      simp only [pending, List.set_cons_succ, List.flatMap_cons] at this ⊢
      exact (List.Perm.append_left _ this).trans List.perm_middle

theorem pending_nil_of_done (cursors : List Nat)
    (h : ∀ (c i : Nat), cursors[c]? = some i → flat.length ≤ i) :
    pending CONCURRENCY flat cursors = [] := by
  induction cursors with
  | nil => rfl
  | cons x xs ih =>
    simp only [pending, List.flatMap_cons]
    rw [workerIndices_done (h 0 x (by simp))]
    exact ih (fun c i hc => h (c + 1) i (by simpa using hc))

theorem runInv_init (hC : 0 < CONCURRENCY) :
    RunInv toLowerCase env CONCURRENCY flat (initState CONCURRENCY) :=
  ⟨[], [], rfl, rfl, by simpa [initState] using pending_initial CONCURRENCY flat hC⟩

theorem runInv_step (hC : 0 < CONCURRENCY) (a : Action) (st st1 : ExecState)
    (hinv : RunInv toLowerCase env CONCURRENCY flat st)
    (hstep : step toLowerCase env CONCURRENCY flat a st = some st1) :
    RunInv toLowerCase env CONCURRENCY flat st1 ∧
      stepsLeft CONCURRENCY flat st1 + 1 = stepsLeft CONCURRENCY flat st := by
  obtain ⟨ys, qs, hy, hq, hperm⟩ := hinv
  cases a with
  | workerDone c =>
    simp only [step] at hstep
    split at hstep
    · simp at hstep
    · rename_i i hci
      split at hstep
      · rename_i hi
        simp only [Option.some.injEq] at hstep
        subst hstep
        have hp := pending_set CONCURRENCY flat hC st.cursors c i hci hi
        refine ⟨⟨ys, qs ++ [i], hy, by simp [hq], ?_⟩, ?_⟩
        · refine List.Perm.trans ?_ hperm
          have h1 : (ys ++ (qs ++ [i]) ++
              pending CONCURRENCY flat (st.cursors.set c (i + CONCURRENCY))) =
              (ys ++ qs) ++ (i :: pending CONCURRENCY flat (st.cursors.set c (i + CONCURRENCY))) := by
            simp
          rw [h1]
          exact List.Perm.append_left _ hp.symm
        · have := hp.length_eq
          simp only [stepsLeft, List.length_append, List.length_cons, List.length_nil] at this ⊢
          omega
      · simp at hstep
  | yieldNext =>
    simp only [step] at hstep
    split at hstep
    · split at hstep
      · simp at hstep
      · rename_i b rest hqueue
        simp only [Option.some.injEq] at hstep
        subst hstep
        rw [hqueue] at hq
        cases qs with
        | nil => simp at hq
        | cons q qs1 =>
          simp only [List.map_cons, List.cons.injEq] at hq
          refine ⟨⟨ys ++ [q], qs1, by simp [hy, hq.1], hq.2, ?_⟩, ?_⟩
          · simpa using hperm
          · simp only [stepsLeft, hqueue, List.length_cons]
            omega
    · simp at hstep

theorem runInv_run (hC : 0 < CONCURRENCY) : ∀ (acts : List Action) (st st1 : ExecState),
    RunInv toLowerCase env CONCURRENCY flat st →
    run toLowerCase env CONCURRENCY flat acts st = some st1 →
    RunInv toLowerCase env CONCURRENCY flat st1 ∧
      stepsLeft CONCURRENCY flat st1 + acts.length = stepsLeft CONCURRENCY flat st := by
  intro acts
  induction acts with
  | nil =>
    intro st st1 hinv hrun
    simp only [run, Option.some.injEq] at hrun
    subst hrun
    exact ⟨hinv, rfl⟩
  | cons a as ih =>
    intro st st1 hinv hrun
    simp only [run] at hrun
    split at hrun
    · simp at hrun
    · rename_i st2 hstep
      obtain ⟨h1, h2⟩ := runInv_step toLowerCase env CONCURRENCY flat hC a st st2 hinv hstep
      obtain ⟨h3, h4⟩ := ih st2 st1 h1 hrun
      refine ⟨h3, ?_⟩
      simp only [List.length_cons]
      omega

end ExecutorProofs

section ExecutorResults

variable (toLowerCase : JsString → JsString) (env : Env) (CONCURRENCY : Nat)
  (flat : List SubQuestion)

theorem worker_answer_key (callLLM : List ChatMessage → LLMOutcome) (sq : SubQuestion)
    (sources : List FetchedSource) :
    (worker toLowerCase callLLM sq sources).answer.key = sq.key := by
  unfold worker
  dsimp only
  repeat' split
  all_goals rfl

theorem keys_of_range (d : SubQuestion) :
    (List.range flat.length).map (fun i => (flat.getD i d).key) = flat.map SubQuestion.key := by
  apply List.ext_getElem
  · simp
  · intro i h1 h2
    simp only [List.length_map, List.length_range] at h1
    simp [List.getD_eq_getElem?_getD, List.getElem?_eq_getElem h1]

theorem answerAt_key (i : Nat) :
    (answerAt toLowerCase env flat i).key =
      (flat.getD i { category := .undefined, subQuestion := .undefined }).key :=
  worker_answer_key toLowerCase _ _ _

theorem runInv_length_le (st : ExecState)
    (hinv : RunInv toLowerCase env CONCURRENCY flat st) :
    st.yielded.length + st.queue.length + (pending CONCURRENCY flat st.cursors).length =
      flat.length := by
  obtain ⟨ys, qs, hy, hq, hperm⟩ := hinv
  have := hperm.length_eq
  simp only [List.length_append, List.length_range] at this
  rw [hy, hq, List.length_map, List.length_map]
  exact this

theorem quiescent_iff_finished (hC : 0 < CONCURRENCY) (st : ExecState)
    (hinv : RunInv toLowerCase env CONCURRENCY flat st) :
    Quiescent toLowerCase env CONCURRENCY flat st ↔ st.yielded.length = flat.length := by
  have hlen := runInv_length_le toLowerCase env CONCURRENCY flat st hinv
  constructor
  · intro hq
    have hp : pending CONCURRENCY flat st.cursors = [] := by
      apply pending_nil_of_done
      intro c i hci
      have := hq (.workerDone c)
      simp only [step, hci] at this
      by_contra hcon
      rw [if_pos (by omega)] at this
      simp at this
    have hy := hq .yieldNext
    simp only [step] at hy
    rw [hp] at hlen
    simp only [List.length_nil, Nat.add_zero] at hlen
    split at hy
    · split at hy
      · rename_i hqueue
        rw [hqueue] at hlen
        simpa using hlen
      · simp at hy
    · omega
  · intro hfin a
    have hq : st.queue = [] := List.length_eq_zero.1 (by omega)
    have hp : pending CONCURRENCY flat st.cursors = [] := List.length_eq_zero.1 (by omega)
    cases a with
    | workerDone c =>
      simp only [step]
      split
      · rfl
      · rename_i i hci
        split
        · rename_i hi
          have := (pending_set CONCURRENCY flat hC st.cursors c i hci hi).length_eq
          rw [hp] at this
          simp at this
        · rfl
    | yieldNext =>
      simp only [step]
      rw [if_neg (by omega)]

theorem finished_keys (st : ExecState)
    (hinv : RunInv toLowerCase env CONCURRENCY flat st)
    (hfin : st.yielded.length = flat.length) :
    (st.yielded.map ResearchAnswer.key).Perm (flat.map SubQuestion.key) ∧
      st.yielded.Perm ((List.range flat.length).map (answerAt toLowerCase env flat)) := by
  have hlen := runInv_length_le toLowerCase env CONCURRENCY flat st hinv
  obtain ⟨ys, qs, hy, hq, hperm⟩ := hinv
  have hq0 : qs = [] := by
    have : st.queue.length = 0 := by omega
    rw [hq, List.length_map] at this
    exact List.length_eq_zero.1 this
  have hp : pending CONCURRENCY flat st.cursors = [] := List.length_eq_zero.1 (by omega)
  rw [hq0, hp] at hperm
  simp only [List.append_nil] at hperm
  have h2 : st.yielded.Perm ((List.range flat.length).map (answerAt toLowerCase env flat)) := by
    rw [hy]
    exact hperm.map _
  refine ⟨?_, h2⟩
  have h3 := h2.map ResearchAnswer.key
  rw [List.map_map] at h3
  have h4 : (ResearchAnswer.key ∘ answerAt toLowerCase env flat) =
      fun i => (flat.getD i { category := .undefined, subQuestion := .undefined }).key := by
    funext i
    exact answerAt_key toLowerCase env flat i
  rw [h4, keys_of_range] at h3
  exact h3

theorem exists_quiescent_run (hC : 0 < CONCURRENCY) : ∀ (k : Nat) (st : ExecState),
    RunInv toLowerCase env CONCURRENCY flat st → stepsLeft CONCURRENCY flat st = k →
    ∃ acts st1, run toLowerCase env CONCURRENCY flat acts st = some st1 ∧
      Quiescent toLowerCase env CONCURRENCY flat st1 := by
  intro k
  induction k with
  | zero =>
    intro st hinv hk
    by_cases hq : Quiescent toLowerCase env CONCURRENCY flat st
    · exact ⟨[], st, rfl, hq⟩
    · unfold Quiescent at hq
      push_neg at hq
      obtain ⟨a, ha⟩ := hq
      obtain ⟨st2, hst2⟩ := Option.ne_none_iff_exists'.1 ha
      have := (runInv_step toLowerCase env CONCURRENCY flat hC a st st2 hinv hst2).2
      omega
  | succ k ih =>
    intro st hinv hk
    by_cases hq : Quiescent toLowerCase env CONCURRENCY flat st
    · exact ⟨[], st, rfl, hq⟩
    · unfold Quiescent at hq
      push_neg at hq
      obtain ⟨a, ha⟩ := hq
      obtain ⟨st2, hst2⟩ := Option.ne_none_iff_exists'.1 ha
      obtain ⟨h1, h2⟩ := runInv_step toLowerCase env CONCURRENCY flat hC a st st2 hinv hst2
      obtain ⟨acts, st1, hrun, hq1⟩ := ih st2 h1 (by omega)
      refine ⟨a :: acts, st1, ?_, hq1⟩
      simp only [run, hst2]
      exact hrun

theorem stepsLeft_init (hC : 0 < CONCURRENCY) :
    stepsLeft CONCURRENCY flat (initState CONCURRENCY) = 2 * flat.length := by
  have := (pending_initial CONCURRENCY flat hC).length_eq
  simp only [List.length_range] at this
  simp only [stepsLeft, initState, this, List.length_nil, Nat.add_zero]

end ExecutorResults

/-- C1. With a positive `CONCURRENCY` and an input that normalises to a non-empty
list `flat` of `N` sub-questions, `executorGemini` yields exactly `N` answers,
one per sub-question: some run reaches the end of the generator loop; every run
takes at most `2 * N` steps, never yields more than `N` answers, can take no
further step exactly when `N` answers have been yielded, and then the multiset
of `(category, subQuestion)` pairs of the yielded answers is that of `flat`. -/
theorem executorGemini_yields_one_answer_per_subQuestion
    (toLowerCase : JsString → JsString) (env : Env) (CONCURRENCY : Nat)
    (subQuestions : JsVal) (flat : List SubQuestion)
    (hC : 0 < CONCURRENCY) (hnorm : normalizeSubQuestions subQuestions = .ok flat)
    (hne : flat ≠ []) :
    (∃ acts st, executorGemini toLowerCase env CONCURRENCY subQuestions acts = .ok (some st) ∧
      st.yielded.length = flat.length ∧ st.yielded ≠ []) ∧
    (∀ acts st, executorGemini toLowerCase env CONCURRENCY subQuestions acts = .ok (some st) →
      acts.length ≤ 2 * flat.length ∧
      st.yielded.length ≤ flat.length ∧
      (Quiescent toLowerCase env CONCURRENCY flat st ↔ st.yielded.length = flat.length) ∧
      (st.yielded.length = flat.length →
        Multiset.ofList (st.yielded.map ResearchAnswer.key) =
          Multiset.ofList (flat.map SubQuestion.key))) := by
  have hex : ∀ acts, executorGemini toLowerCase env CONCURRENCY subQuestions acts =
      .ok (run toLowerCase env CONCURRENCY flat acts (initState CONCURRENCY)) := by
    intro acts
    simp only [executorGemini, hnorm]
  have hinit := runInv_init toLowerCase env CONCURRENCY flat hC
  constructor
  · obtain ⟨acts, st, hrun, hq⟩ :=
      exists_quiescent_run toLowerCase env CONCURRENCY flat hC _ _ hinit rfl
    have hinv := (runInv_run toLowerCase env CONCURRENCY flat hC acts _ st hinit hrun).1
    have hfin := (quiescent_iff_finished toLowerCase env CONCURRENCY flat hC st hinv).1 hq
    refine ⟨acts, st, by rw [hex, hrun], hfin, ?_⟩
    intro h0
    rw [h0] at hfin
    exact hne (List.length_eq_zero.1 hfin.symm)
  · intro acts st h
    rw [hex] at h
    have hrun : run toLowerCase env CONCURRENCY flat acts (initState CONCURRENCY) = some st := by
      injection h
    obtain ⟨hinv, hsteps⟩ := runInv_run toLowerCase env CONCURRENCY flat hC acts _ st hinit hrun
    rw [stepsLeft_init CONCURRENCY flat hC] at hsteps
    have hlen := runInv_length_le toLowerCase env CONCURRENCY flat st hinv
    refine ⟨by omega, by omega,
      quiescent_iff_finished toLowerCase env CONCURRENCY flat hC st hinv, ?_⟩
    intro hfin
    exact Multiset.coe_eq_coe.2 (finished_keys toLowerCase env CONCURRENCY flat st hinv hfin).1

/-- Witness of C1: the input `["What is X?", "How does Y work?"]` with two pool
members. -/
theorem executorGemini_yields_one_answer_per_subQuestion_witness :
    0 < 2 ∧ normalizeSubQuestions twoQuestions = .ok twoQuestionsFlat ∧ twoQuestionsFlat ≠ [] ∧
    (∃ acts st, executorGemini asciiToLowerCase quietEnv 2 twoQuestions acts = .ok (some st) ∧
      st.yielded.length = twoQuestionsFlat.length ∧ st.yielded ≠ []) :=
  ⟨by decide, rfl, List.cons_ne_nil _ _,
    (executorGemini_yields_one_answer_per_subQuestion asciiToLowerCase quietEnv 2 twoQuestions
      twoQuestionsFlat (by decide) rfl (List.cons_ne_nil _ _)).1⟩

/-! ## The answers of a worker -/

theorem js_append_ne_nil {a : JsString} (b : JsString) (h : a ≠ []) : a ++ b ≠ [] := by
  intro hab
  exact h (List.append_eq_nil.1 hab).1

theorem noSourcesSummary_ne_nil (sq : SubQuestion) : noSourcesSummary sq ≠ [] := by
  unfold noSourcesSummary
  rw [List.append_assoc]
  exact js_append_ne_nil _ (by decide)

theorem executorErrorSummary_ne_nil (m : JsString) : executorErrorSummary m ≠ [] :=
  js_append_ne_nil _ (by decide)

theorem sourceRefs_eq_nil {sources : List FetchedSource} :
    sourceRefs sources = [] ↔ sources = [] := by
  unfold sourceRefs
  exact List.map_eq_nil_iff

/-- The shape of every result of `worker`: either `callLLM` is not called and
the answer is one of `out`, `out2`, `out3`, or it is called once and the
answer is `resErr`, `outUndef` or `res` according to how the call ends. -/
theorem worker_cases (toLowerCase : JsString → JsString)
    (callLLM : List ChatMessage → LLMOutcome) (sq : SubQuestion)
    (sources : List FetchedSource) :
    ((worker toLowerCase callLLM sq sources).llmCalls = [] ∧
      (worker toLowerCase callLLM sq sources).answer.error = none ∧
      (((worker toLowerCase callLLM sq sources).answer.status = .no_sources ∧
          (worker toLowerCase callLLM sq sources).answer.sources = [] ∧
          ((worker toLowerCase callLLM sq sources).answer.summary = noSourcesSummary sq ∨
            (worker toLowerCase callLLM sq sources).answer.summary = noUsableContentSummary)) ∨
        ((worker toLowerCase callLLM sq sources).answer.status = .no_content ∧
          (worker toLowerCase callLLM sq sources).answer.sources =
            sourceRefs (validContents toLowerCase sources) ∧
          (worker toLowerCase callLLM sq sources).answer.summary = noContentSummary))) ∨
    (∃ msgs, (worker toLowerCase callLLM sq sources).llmCalls = [msgs] ∧
      sources ≠ [] ∧
      (worker toLowerCase callLLM sq sources).answer.sources = sourceRefs sources ∧
      ((∃ m, callLLM msgs = .threw m ∧
          (worker toLowerCase callLLM sq sources).answer.status = .error ∧
          (worker toLowerCase callLLM sq sources).answer.error = some m ∧
          (worker toLowerCase callLLM sq sources).answer.summary = executorErrorSummary m) ∨
        (∃ a b, callLLM msgs = .returned a b ∧
          (worker toLowerCase callLLM sq sources).answer.error = none ∧
          (((worker toLowerCase callLLM sq sources).answer.status = .llm_undefined ∧
              (worker toLowerCase callLLM sq sources).answer.summary = llmUndefinedSummary) ∨
            ((worker toLowerCase callLLM sq sources).answer.status = .ok ∧
              (worker toLowerCase callLLM sq sources).answer.summary ≠ [] ∧
              (worker toLowerCase callLLM sq sources).answer.summary =
                stripCodeFencesAndPreface (if !a.isEmpty then a else b)))))) := by
  by_cases hlen : sources.length = 0
  · left
    simp only [worker, hlen, ↓reduceIte]
    simp
  · have hne : sources ≠ [] := fun h => hlen (by rw [h]; rfl)
    cases hj : joinedSnippets toLowerCase sources with
    | none =>
      left
      simp only [worker, hlen, hj, ↓reduceIte]
      simp
    | some joined =>
      by_cases hshort : ((trim (truncateSnippets joined)).isEmpty ||
          decide ((truncateSnippets joined).length < 80)) = true
      · left
        simp only [worker, hlen, hj, hshort, ↓reduceIte]
        simp
      · right
        refine ⟨buildMessages sq (truncateSnippets joined), ?_⟩
        cases hcall : callLLM (buildMessages sq (truncateSnippets joined)) with
        | threw m =>
          simp only [worker, hlen, hj, hshort, hcall, ↓reduceIte]
          exact ⟨rfl, hne, rfl, Or.inl ⟨m, rfl, rfl, rfl, rfl⟩⟩
        | returned a b =>
          by_cases hfin : (stripCodeFencesAndPreface (if !a.isEmpty then a else b)).isEmpty = true
          · simp only [worker, hlen, hj, hshort, hcall, hfin, ↓reduceIte]
            exact ⟨rfl, hne, rfl, Or.inr ⟨a, b, rfl, rfl, Or.inl ⟨rfl, rfl⟩⟩⟩
          · simp only [worker, hlen, hj, hshort, hcall, hfin, ↓reduceIte]
            refine ⟨rfl, hne, rfl, Or.inr ⟨a, b, rfl, rfl, Or.inr ⟨rfl, ?_, rfl⟩⟩⟩
            intro h0
            apply hfin
            have h1 : stripCodeFencesAndPreface (if !a.isEmpty then a else b) = [] := h0
            rw [h1]
            rfl

/-- C5. When the call of `callLLM` made for the sub-question at index `i` throws
an error with the non-empty message `m`, nothing propagates: the worker enqueues
an answer with status `error`, whose `error` field is `m` (non-empty) and whose
summary is `EXECUTOR_ERROR: m`; the answers of the other sub-questions are the
ones they would be under any other behaviour of the calls made for `i`, and the
pool still runs to completion, yielding every one of the `N` answers. -/
theorem worker_summarizer_exception_is_error_answer
    (toLowerCase : JsString → JsString) (env : Env) (CONCURRENCY : Nat)
    (flat : List SubQuestion) (i : Nat) (msgs : List ChatMessage) (m : JsString)
    (hC : 0 < CONCURRENCY) (hi : i < flat.length)
    (hcall : msgs ∈ (workerAt toLowerCase env flat i).llmCalls)
    (hthrow : env.llm i msgs = .threw m) (hm : m ≠ []) :
    ((answerAt toLowerCase env flat i).status = .error ∧
      (answerAt toLowerCase env flat i).error = some m ∧
      (answerAt toLowerCase env flat i).error ≠ some [] ∧
      (answerAt toLowerCase env flat i).summary = executorErrorSummary m ∧
      (answerAt toLowerCase env flat i).key =
        (flat.getD i { category := .undefined, subQuestion := .undefined }).key) ∧
    (∀ env2 : Env, (∀ j, j ≠ i → env2.search j = env.search j ∧ env2.llm j = env.llm j) →
      ∀ j, j ≠ i → answerAt toLowerCase env2 flat j = answerAt toLowerCase env flat j) ∧
    (∃ acts st, run toLowerCase env CONCURRENCY flat acts (initState CONCURRENCY) = some st ∧
      st.yielded.length = flat.length) ∧
    (∀ acts st, run toLowerCase env CONCURRENCY flat acts (initState CONCURRENCY) = some st →
      st.yielded.length = flat.length →
      answerAt toLowerCase env flat i ∈ st.yielded ∧
      st.yielded.Perm ((List.range flat.length).map (answerAt toLowerCase env flat))) := by
  have hinit := runInv_init toLowerCase env CONCURRENCY flat hC
  refine ⟨?_, ?_, ?_, ?_⟩
  · unfold answerAt
    unfold workerAt at hcall ⊢
    rcases worker_cases toLowerCase (env.llm i)
        (flat.getD i { category := .undefined, subQuestion := .undefined }) (env.search i) with
      ⟨h0, _⟩ | ⟨msgs1, h1, _, _, h2⟩
    · rw [h0] at hcall
      simp at hcall
    · rw [h1] at hcall
      have hmsgs : msgs = msgs1 := by simpa using hcall
      subst hmsgs
      rcases h2 with ⟨m1, h3, h4, h5, h6⟩ | ⟨a, b, h3, _⟩
      · rw [hthrow] at h3
        have hmm : m = m1 := by injection h3
        subst hmm
        refine ⟨h4, h5, ?_, h6, worker_answer_key toLowerCase _ _ _⟩
        rw [h5]
        intro h7
        injection h7 with h8
        exact hm h8
      · rw [hthrow] at h3
        cases h3
  · intro env2 henv j hj
    obtain ⟨h1, h2⟩ := henv j hj
    simp only [answerAt, workerAt, h1, h2]
  · obtain ⟨acts, st, hrun, hq⟩ :=
      exists_quiescent_run toLowerCase env CONCURRENCY flat hC _ _ hinit rfl
    have hinv := (runInv_run toLowerCase env CONCURRENCY flat hC acts _ st hinit hrun).1
    exact ⟨acts, st, hrun,
      (quiescent_iff_finished toLowerCase env CONCURRENCY flat hC st hinv).1 hq⟩
  · intro acts st hrun hfin
    have hinv := (runInv_run toLowerCase env CONCURRENCY flat hC acts _ st hinit hrun).1
    have hperm := (finished_keys toLowerCase env CONCURRENCY flat st hinv hfin).2
    refine ⟨hperm.symm.subset ?_, hperm⟩
    exact List.mem_map.2 ⟨i, List.mem_range.2 hi, rfl⟩

set_option maxRecDepth 8000 in
/-- Witness of C5: one sub-question, one source of 100 characters, and a
summarizer that throws `timeout`. -/
theorem worker_summarizer_exception_is_error_answer_witness :
    0 < 1 ∧ 0 < [sampleQuestion].length ∧
    buildMessages sampleQuestion (truncateSnippets (List.replicate 100 97)) ∈
      (workerAt asciiToLowerCase failingEnv [sampleQuestion] 0).llmCalls ∧
    failingEnv.llm 0 (buildMessages sampleQuestion (truncateSnippets (List.replicate 100 97))) =
      .threw (js "timeout") ∧
    js "timeout" ≠ [] ∧
    (answerAt asciiToLowerCase failingEnv [sampleQuestion] 0).status = .error ∧
    (answerAt asciiToLowerCase failingEnv [sampleQuestion] 0).error = some (js "timeout") :=
  have h := worker_summarizer_exception_is_error_answer asciiToLowerCase failingEnv 1
    [sampleQuestion] 0
    (buildMessages sampleQuestion (truncateSnippets (List.replicate 100 97)))
    (js "timeout") (by decide) (by decide) (by decide) rfl (by decide)
  ⟨by decide, by decide, by decide, rfl, by decide, h.1.1, h.1.2.1⟩

/-- C6. Every answer of a worker has a non-empty summary, and an answer whose
status is not `ok` carries one of the fixed diagnostic texts (for status
`error`, `EXECUTOR_ERROR: ` followed by the recorded message). -/
theorem worker_summary_never_empty (toLowerCase : JsString → JsString)
    (callLLM : List ChatMessage → LLMOutcome) (sq : SubQuestion)
    (sources : List FetchedSource) :
    (worker toLowerCase callLLM sq sources).answer.summary ≠ [] ∧
    ((worker toLowerCase callLLM sq sources).answer.status ≠ .ok →
      (worker toLowerCase callLLM sq sources).answer.summary = noSourcesSummary sq ∨
      (worker toLowerCase callLLM sq sources).answer.summary = noUsableContentSummary ∨
      (worker toLowerCase callLLM sq sources).answer.summary = noContentSummary ∨
      (worker toLowerCase callLLM sq sources).answer.summary = llmUndefinedSummary ∨
      ∃ m, (worker toLowerCase callLLM sq sources).answer.error = some m ∧
        (worker toLowerCase callLLM sq sources).answer.summary = executorErrorSummary m) := by
  rcases worker_cases toLowerCase callLLM sq sources with
    ⟨_, _, ⟨_, _, h | h⟩ | ⟨_, _, h⟩⟩ | ⟨msgs, _, _, _, ⟨m, _, _, he, h⟩ | ⟨a, b, _, _, ⟨_, h⟩ | ⟨hs, hne, _⟩⟩⟩
  · exact ⟨by rw [h]; exact noSourcesSummary_ne_nil sq, fun _ => Or.inl h⟩
  · exact ⟨by rw [h]; decide, fun _ => Or.inr (Or.inl h)⟩
  · exact ⟨by rw [h]; decide, fun _ => Or.inr (Or.inr (Or.inl h))⟩
  · exact ⟨by rw [h]; exact executorErrorSummary_ne_nil m,
      fun _ => Or.inr (Or.inr (Or.inr (Or.inr ⟨m, he, h⟩)))⟩
  · exact ⟨by rw [h]; decide, fun _ => Or.inr (Or.inr (Or.inr (Or.inl h)))⟩
  · exact ⟨hne, fun hnok => absurd hs hnok⟩

/-- C8. When `googleSearchAndFetch` returns no source, the worker produces an
answer with status `no_sources`, an empty `sources` list and the (non-empty)
diagnostic summary of line 764, and `callLLM` is not called. -/
theorem worker_zero_sources (toLowerCase : JsString → JsString)
    (callLLM : List ChatMessage → LLMOutcome) (sq : SubQuestion) :
    (worker toLowerCase callLLM sq []).answer.status = .no_sources ∧
    (worker toLowerCase callLLM sq []).answer.sources = [] ∧
    (worker toLowerCase callLLM sq []).answer.summary = noSourcesSummary sq ∧
    noSourcesSummary sq ≠ [] ∧
    (worker toLowerCase callLLM sq []).answer.error = none ∧
    (worker toLowerCase callLLM sq []).answer.key = sq.key ∧
    (worker toLowerCase callLLM sq []).llmCalls = [] :=
  ⟨rfl, rfl, rfl, noSourcesSummary_ne_nil sq, rfl, rfl, rfl⟩

set_option maxRecDepth 8000 in
/-- C7, counterexample: a single fetched source of 40 characters fails the first
filter, is used by the fallback, gives a snippet shorter than 80 characters, and
the answer has status `no_content` with an empty `sources` list. -/
theorem worker_empty_sources_with_no_content :
    (worker asciiToLowerCase (fun _ => .threw (js "timeout")) sampleQuestion
      [sourceOfLength 40]).answer.sources = [] ∧
    (worker asciiToLowerCase (fun _ => .threw (js "timeout")) sampleQuestion
      [sourceOfLength 40]).answer.status = .no_content ∧
    (worker asciiToLowerCase (fun _ => .threw (js "timeout")) sampleQuestion
      [sourceOfLength 40]).answer.status ≠ .no_sources := by
  decide

/-- C7, amended. The `sources` list of an answer is empty only if its status is
`no_sources` or `no_content`, and in the latter case no fetched source passed
the filter (the snippet came from the fallback). -/
theorem worker_sources_empty_only_if (toLowerCase : JsString → JsString)
    (callLLM : List ChatMessage → LLMOutcome) (sq : SubQuestion)
    (sources : List FetchedSource)
    (hempty : (worker toLowerCase callLLM sq sources).answer.sources = []) :
    ((worker toLowerCase callLLM sq sources).answer.status = .no_sources ∨
      ((worker toLowerCase callLLM sq sources).answer.status = .no_content ∧
        validContents toLowerCase sources = [])) := by
  rcases worker_cases toLowerCase callLLM sq sources with
    ⟨_, _, ⟨h, _⟩ | ⟨h, hs, _⟩⟩ | ⟨msgs, _, hne, hs, _⟩
  · exact Or.inl h
  · refine Or.inr ⟨h, ?_⟩
    rw [hs] at hempty
    exact sourceRefs_eq_nil.1 hempty
  · rw [hs] at hempty
    exact absurd (sourceRefs_eq_nil.1 hempty) hne

set_option maxRecDepth 8000 in
/-- Witness of the amended C7 at the source of 40 characters. -/
theorem worker_sources_empty_only_if_witness :
    (worker asciiToLowerCase (fun _ => .threw (js "timeout")) sampleQuestion
      [sourceOfLength 40]).answer.sources = [] ∧
    ((worker asciiToLowerCase (fun _ => .threw (js "timeout")) sampleQuestion
        [sourceOfLength 40]).answer.status = .no_sources ∨
      ((worker asciiToLowerCase (fun _ => .threw (js "timeout")) sampleQuestion
          [sourceOfLength 40]).answer.status = .no_content ∧
        validContents asciiToLowerCase [sourceOfLength 40] = [])) :=
  ⟨by decide, worker_sources_empty_only_if asciiToLowerCase (fun _ => .threw (js "timeout"))
    sampleQuestion [sourceOfLength 40] (by decide)⟩

set_option maxRecDepth 8000 in
/-- C9, counterexample: a source whose content is 50 letters `a` contains no
marker and is dropped by the filter. -/
theorem validContents_drops_fifty_characters :
    (sourceOfLength 50).content.length = 50 ∧
    hasBadPattern asciiToLowerCase (sourceOfLength 50) = false ∧
    validContents asciiToLowerCase [sourceOfLength 50] = [] ∧
    validContents asciiToLowerCase [sourceOfLength 51] = [sourceOfLength 51] := by
  decide

/-- C9, amended. The filter keeps a fetched source exactly when its content has
more than 50 characters and contains, after lower-casing both, none of the
markers of `BAD_PATTERNS`; it drops a source exactly when its content has at
most 50 characters or contains a marker. The order of the sources is kept. -/
theorem validContents_keeps_exactly (toLowerCase : JsString → JsString)
    (sources : List FetchedSource) :
    validContents toLowerCase sources =
      sources.filter (fun c => decide (50 < c.content.length) &&
        !BAD_PATTERNS.any (fun pat => includes (toLowerCase c.content) (toLowerCase pat))) ∧
    (∀ c, c ∈ sources → (c ∉ validContents toLowerCase sources ↔
      c.content.length ≤ 50 ∨
        ∃ pat, pat ∈ BAD_PATTERNS ∧ includes (toLowerCase c.content) (toLowerCase pat) = true)) := by
  have hfilter : validContents toLowerCase sources =
      sources.filter (fun c => decide (50 < c.content.length) &&
        !BAD_PATTERNS.any (fun pat => includes (toLowerCase c.content) (toLowerCase pat))) := by
    unfold validContents
    rw [List.filter_filter]
    apply List.filter_congr
    intro c _
    unfold longEnough hasBadPattern
    cases hc : c.content with
    | nil => simp
    | cons x xs => simp [Bool.and_comm]
  refine ⟨hfilter, ?_⟩
  intro c hc
  rw [hfilter, List.mem_filter]
  simp only [hc, true_and, Bool.and_eq_true, decide_eq_true_eq, Bool.not_eq_true',
    List.any_eq_false, not_and_or, not_lt]
  constructor
  · rintro (h | h)
    · exact Or.inl h
    · right
      push_neg at h
      obtain ⟨pat, hp, hinc⟩ := h
      exact ⟨pat, hp, by simpa using hinc⟩
  · rintro (h | ⟨pat, hp, hinc⟩)
    · exact Or.inl h
    · right
      push_neg
      exact ⟨pat, hp, by simpa using hinc⟩

set_option maxRecDepth 8000 in
/-- C10, counterexample: with a single fetched source of 10 characters nothing
survives the filter or the fallback and the answer has status `no_sources`, not
`no_content`; a source of exactly 30 characters is not taken by the fallback,
one of 31 characters is. -/
theorem worker_fallback_threshold_and_status :
    (worker asciiToLowerCase (fun _ => .threw (js "timeout")) sampleQuestion
      [sourceOfLength 10]).answer.status = .no_sources ∧
    (worker asciiToLowerCase (fun _ => .threw (js "timeout")) sampleQuestion
      [sourceOfLength 10]).answer.status ≠ .no_content ∧
    validContents asciiToLowerCase [sourceOfLength 30] = [] ∧
    (sourceOfLength 30).content.length = 30 ∧
    joinedSnippets asciiToLowerCase [sourceOfLength 30] = none ∧
    joinedSnippets asciiToLowerCase [sourceOfLength 31] = some (sourceOfLength 31).content := by
  decide

/-- C10, amended. When the filter leaves no source, the worker falls back to
every fetched source whose content has more than 30 characters, in order and
without applying the blocklist: the snippet is the newline-join of their
contents. If no fetched source has more than 30 characters, the answer has
status `no_sources`, an empty `sources` list and the summary of line 790, and
`callLLM` is not called. -/
theorem worker_fallback (toLowerCase : JsString → JsString)
    (callLLM : List ChatMessage → LLMOutcome) (sq : SubQuestion)
    (sources : List FetchedSource) (hsrc : sources ≠ [])
    (hvalid : validContents toLowerCase sources = []) :
    allContents sources = sources.filter (fun c => decide (30 < c.content.length)) ∧
    (allContents sources ≠ [] →
      joinedSnippets toLowerCase sources =
        some (join (js "\n") ((allContents sources).map (fun c => c.content)))) ∧
    (allContents sources = [] →
      joinedSnippets toLowerCase sources = none ∧
      (worker toLowerCase callLLM sq sources).answer.status = .no_sources ∧
      (worker toLowerCase callLLM sq sources).answer.sources = [] ∧
      (worker toLowerCase callLLM sq sources).answer.summary = noUsableContentSummary ∧
      (worker toLowerCase callLLM sq sources).llmCalls = []) := by
  have hlen : ¬ sources.length = 0 := fun h => hsrc (List.length_eq_zero.1 h)
  refine ⟨?_, ?_, ?_⟩
  · unfold allContents
    apply List.filter_congr
    intro c _
    cases hc : c.content with
    | nil => simp
    | cons x xs => simp
  · intro hall
    have hall2 : (allContents sources).length ≠ 0 := fun h => hall (List.length_eq_zero.1 h)
    simp only [joinedSnippets, hvalid, List.length_nil, ↓reduceIte, hall2, ne_eq,
      not_false_eq_true]
  · intro hall
    have hj : joinedSnippets toLowerCase sources = none := by
      simp only [joinedSnippets, hvalid, hall, List.length_nil, ↓reduceIte, ne_eq,
        not_true_eq_false]
    refine ⟨hj, ?_⟩
    simp only [worker, hlen, hj, ↓reduceIte, and_self]

set_option maxRecDepth 8000 in
/-- Witness of the amended C10: the sources of 10 and of 40 characters. -/
theorem worker_fallback_witness :
    [sourceOfLength 10, sourceOfLength 40] ≠ [] ∧
    validContents asciiToLowerCase [sourceOfLength 10, sourceOfLength 40] = [] ∧
    allContents [sourceOfLength 10, sourceOfLength 40] = [sourceOfLength 40] ∧
    joinedSnippets asciiToLowerCase [sourceOfLength 10, sourceOfLength 40] =
      some (sourceOfLength 40).content :=
  have h := worker_fallback asciiToLowerCase (fun _ => .threw (js "timeout")) sampleQuestion
    [sourceOfLength 10, sourceOfLength 40] (by decide) (by decide)
  ⟨by decide, by decide, by decide, (h.2.1 (by decide)).trans (by decide)⟩

/-! ## Normalisation of the input -/

theorem splitLines_no_lf : ∀ (s : JsString), 10 ∉ s → splitLines s = [s]
  | [], _ => rfl
  | [c], h => by
    have hc : c ≠ 10 := fun e => h (by simp [e])
    simp [splitLines, hc]
  | c :: d :: rest, h => by
    have hc : c ≠ 10 := fun e => h (by simp [e])
    have hd : d ≠ 10 := fun e => h (by simp [e])
    have ih := splitLines_no_lf (d :: rest) (fun hm => h (List.mem_cons_of_mem _ hm))
    rw [splitLines, if_neg hc, if_neg (fun hcd => hd hcd.2), ih]
    rfl

theorem splitLines_append_lf : ∀ (t s : JsString), 10 ∉ t → t.getLast? ≠ some 13 →
    splitLines (t ++ 10 :: s) = t :: splitLines s
  | [], s, _, _ => by
    cases s with
    | nil => rfl
    | cons d rest => simp [splitLines]
  | [c], s, h, hl => by
    have hc : c ≠ 10 := fun e => h (by simp [e])
    have hc13 : c ≠ 13 := fun e => hl (by simp [e])
    have ih := splitLines_append_lf [] s (by simp) (by simp)
    simp only [List.nil_append] at ih
    simp only [List.singleton_append]
    rw [splitLines, if_neg hc, if_neg (fun hcd => hc13 hcd.1), ih]
    rfl
  | c :: d :: rest, s, h, hl => by
    have hc : c ≠ 10 := fun e => h (by simp [e])
    have hd : d ≠ 10 := fun e => h (by simp [e])
    have ih := splitLines_append_lf (d :: rest) s (fun hm => h (List.mem_cons_of_mem _ hm))
      (by simpa using hl)
    simp only [List.cons_append] at ih ⊢
    rw [splitLines, if_neg hc, if_neg (fun hcd => hd hcd.2), ih]
    rfl

theorem splitLines_join : ∀ (ts : List JsString), ts ≠ [] →
    (∀ t, t ∈ ts → 10 ∉ t ∧ t.getLast? ≠ some 13) → splitLines (join [10] ts) = ts
  | [], h, _ => absurd rfl h
  | [t], _, h => by
    simp only [join]
    exact splitLines_no_lf t (h t (by simp)).1
  | t :: u :: rest, _, h => by
    have ih := splitLines_join (u :: rest) (by simp) (fun x hx => h x (List.mem_cons_of_mem _ hx))
    simp only [join, List.append_assoc, List.singleton_append]
    rw [splitLines_append_lf t _ (h t (by simp)).1 (h t (by simp)).2, ih]

theorem dropWhile_length_le (p : Nat → Bool) : ∀ (l : List Nat),
    (l.dropWhile p).length ≤ l.length
  | [] => by simp
  | a :: l => by
    have := dropWhile_length_le p l
    by_cases ha : p a = true
    · rw [List.dropWhile_cons_of_pos ha]
      simp only [List.length_cons]
      omega
    · rw [List.dropWhile_cons_of_neg ha]

theorem dropWhile_full_length (p : Nat → Bool) (l : List Nat)
    (h : l.length ≤ (l.dropWhile p).length) :
    l.dropWhile p = l ∧ ∀ c, l.head? = some c → p c = false := by
  cases l with
  | nil => simp
  | cons a l =>
    by_cases ha : p a = true
    · rw [List.dropWhile_cons_of_pos ha] at h
      have := dropWhile_length_le p l
      simp only [List.length_cons] at h
      omega
    · rw [List.dropWhile_cons_of_neg ha]
      refine ⟨rfl, ?_⟩
      intro c hc
      simp only [List.head?_cons, Option.some.injEq] at hc
      rw [← hc]
      simpa using ha

theorem trim_fixed {t : JsString} (h : trim t = t) :
    (∀ c, t.head? = some c → isWhiteSpace c = false) ∧
    (∀ c, t.getLast? = some c → isWhiteSpace c = false) := by
  have h1 := dropWhile_length_le isWhiteSpace t
  have h2 := dropWhile_length_le isWhiteSpace (t.dropWhile isWhiteSpace).reverse
  have h3 : (trim t).length = t.length := by rw [h]
  unfold trim at h3
  simp only [List.length_reverse] at h2 h3
  obtain ⟨h4, h5⟩ := dropWhile_full_length isWhiteSpace t (by omega)
  rw [h4] at h2 h3
  obtain ⟨_, h7⟩ := dropWhile_full_length isWhiteSpace t.reverse
    (by simp only [List.length_reverse]; omega)
  refine ⟨h5, ?_⟩
  intro c hc
  exact h7 c (by simpa using hc)

theorem normalizeLines_join (ts : List JsString)
    (h : ∀ t, t ∈ ts → t ≠ [] ∧ 10 ∉ t ∧ trim t = t) :
    normalizeLines (join (js "\n") ts) = ts.map (fun t => fromString (.str t)) := by
  have hsep : js "\n" = [10] := by decide
  rw [hsep]
  cases ts with
  | nil => rfl
  | cons t rest =>
    unfold normalizeLines
    rw [splitLines_join (t :: rest) (by simp)]
    · have hmap : (t :: rest).map trim = t :: rest :=
        (List.map_congr_left (fun x hx => (h x hx).2.2)).trans (List.map_id _)
      rw [hmap]
      have hfil : (t :: rest).filter (fun l => !l.isEmpty) = t :: rest := by
        apply List.filter_eq_self.2
        intro x hx
        have := (h x hx).1
        cases x with
        | nil => exact absurd rfl this
        | cons a b => rfl
      rw [hfil]
    · intro x hx
      refine ⟨(h x hx).2.1, ?_⟩
      intro hlast
      have := (trim_fixed (h x hx).2.2).2 13 hlast
      revert this
      decide

theorem fromObject_plain (c t : JsString) (hc : c = js "misc" ∨ c = []) :
    fromObject (.obj [("category", .str c), ("subQuestion", .str t)]) =
      .ok (fromString (.str t)) := by
  rcases hc with h | h <;> subst h <;> rfl

theorem mapThrowing_fromObject : ∀ (qs : List PlainSubQuestion),
    (∀ q, q ∈ qs → q.category = js "misc" ∨ q.category = []) →
    mapThrowing fromObject
      (qs.map (fun q => .obj [("category", .str q.category), ("subQuestion", .str q.text)])) =
      .ok (miscList qs)
  | [], _ => rfl
  | q :: rest, h => by
    have ih := mapThrowing_fromObject rest (fun x hx => h x (List.mem_cons_of_mem _ hx))
    simp only [List.map_cons, mapThrowing]
    rw [fromObject_plain q.category q.text (h q (by simp)), ih]
    rfl

theorem join_ne_nil (sep : JsString) : ∀ (ts : List JsString), ts ≠ [] →
    (∀ t, t ∈ ts → t ≠ []) → join sep ts ≠ []
  | [], h, _ => absurd rfl h
  | [t], _, h => by simpa [join] using h t (by simp)
  | t :: u :: rest, _, h => by
    simp only [join, List.append_assoc]
    exact js_append_ne_nil _ (h t (by simp))

/-- C3, counterexample: the sub-question `{ category: "tech", subQuestion:
"What is X?" }` keeps its category when fed as an object and gets the category
`misc` when fed as a string; the text ` a` is kept by the array forms and
trimmed by the newline-joined form. -/
theorem normalizeSubQuestions_shapes_differ :
    normalizeSubQuestions (asObjects [{ category := js "tech", text := js "What is X?" }]) ≠
      normalizeSubQuestions (asStrings [{ category := js "tech", text := js "What is X?" }]) ∧
    normalizeSubQuestions (asStrings [{ category := js "misc", text := js " a" }]) ≠
      normalizeSubQuestions (asText [{ category := js "misc", text := js " a" }]) := by
  constructor
  · have h1 : normalizeSubQuestions
        (asObjects [{ category := js "tech", text := js "What is X?" }]) =
        .ok [{ category := .str (js "tech"), subQuestion := .str (js "What is X?") }] := rfl
    have h2 : normalizeSubQuestions
        (asStrings [{ category := js "tech", text := js "What is X?" }]) =
        .ok [{ category := .str (js "misc"), subQuestion := .str (js "What is X?") }] := rfl
    rw [h1, h2]
    intro h
    injection h with h
    injection h with h _
    injection h with h _
    injection h with h
    revert h
    decide
  · have h1 : normalizeSubQuestions (asStrings [{ category := js "misc", text := js " a" }]) =
        .ok [{ category := .str (js "misc"), subQuestion := .str (js " a") }] := rfl
    have h2 : normalizeSubQuestions (asText [{ category := js "misc", text := js " a" }]) =
        .ok [{ category := .str (js "misc"), subQuestion := .str (js "a") }] := rfl
    rw [h1, h2]
    intro h
    injection h with h
    injection h with h _
    injection h with _ h
    injection h with h
    revert h
    decide

/-- C3, amended. For every list of sub-questions whose categories are `misc` (or
empty) and whose texts are non-empty, contain no line feed and have no leading
or trailing white space, the normalisation yields the same list, with category
`misc` and the texts in order, whether they are fed as an array of `{ category,
subQuestion }` objects, as an array of their texts, or as one newline-joined
string. -/
theorem normalizeSubQuestions_three_shapes (qs : List PlainSubQuestion)
    (h : ∀ q, q ∈ qs → (q.category = js "misc" ∨ q.category = []) ∧
      q.text ≠ [] ∧ 10 ∉ q.text ∧ trim q.text = q.text) :
    normalizeSubQuestions (asObjects qs) = .ok (miscList qs) ∧
    normalizeSubQuestions (asStrings qs) = .ok (miscList qs) ∧
    normalizeSubQuestions (asText qs) = .ok (miscList qs) := by
  refine ⟨?_, ?_, ?_⟩
  · cases qs with
    | nil => rfl
    | cons q rest =>
      have hq := (h q (by simp)).2.1
      have hm := mapThrowing_fromObject (q :: rest) (fun x hx => (h x hx).1)
      rcases q with ⟨c, t⟩
      cases t with
      | nil => exact absurd rfl hq
      | cons a b => exact hm
  · cases qs with
    | nil => rfl
    | cons q rest =>
      have hmap : ((q :: rest).map (fun q => JsVal.str q.text)).map fromString =
          miscList (q :: rest) := by
        rw [List.map_map]
        rfl
      exact congrArg Except.ok hmap
  · cases qs with
    | nil => rfl
    | cons q rest =>
      have hne : join (js "\n") ((q :: rest).map (fun q => q.text)) ≠ [] := by
        apply join_ne_nil
        · simp
        · intro t ht
          obtain ⟨x, hx, rfl⟩ := List.mem_map.1 ht
          exact (h x hx).2.1
      have hl := normalizeLines_join ((q :: rest).map (fun q => q.text)) (by
        intro t ht
        obtain ⟨x, hx, rfl⟩ := List.mem_map.1 ht
        exact (h x hx).2)
      rw [List.map_map] at hl
      unfold asText
      cases hj : join (js "\n") ((q :: rest).map (fun q => q.text)) with
      | nil => exact absurd hj hne
      | cons a b =>
        rw [hj] at hl
        exact congrArg Except.ok hl

/-- Witness of the amended C3 at the two sub-questions `What is X?` and
`How does Y work?` of category `misc`. -/
theorem normalizeSubQuestions_three_shapes_witness :
    normalizeSubQuestions (asText [{ category := js "misc", text := js "What is X?" },
      { category := [], text := js "How does Y work?" }]) = .ok twoQuestionsFlat ∧
    normalizeSubQuestions (asObjects [{ category := js "misc", text := js "What is X?" },
      { category := [], text := js "How does Y work?" }]) = .ok twoQuestionsFlat :=
  have h := normalizeSubQuestions_three_shapes
    [{ category := js "misc", text := js "What is X?" },
      { category := [], text := js "How does Y work?" }]
    (by
      intro q hq
      simp only [List.mem_cons, List.mem_singleton, List.not_mem_nil, or_false] at hq
      rcases hq with rfl | rfl <;> decide)
  ⟨h.2.2, h.1⟩

/-- The malformed and empty inputs on which the normalisation does yield the
empty list: `undefined`, `null`, booleans, numbers, the empty string, the empty
array, an array whose first element is neither an object nor a string, and an
object with neither `parsed` nor `raw`. -/
theorem normalizeSubQuestions_malformed_empty :
    normalizeSubQuestions .undefined = .ok [] ∧
    normalizeSubQuestions .null = .ok [] ∧
    (∀ b, normalizeSubQuestions (.bool b) = .ok []) ∧
    (∀ n, normalizeSubQuestions (.num n) = .ok []) ∧
    normalizeSubQuestions (.str []) = .ok [] ∧
    normalizeSubQuestions (.arr []) = .ok [] ∧
    (∀ x rest, x.typeof ≠ .object → x.typeof ≠ .string →
      normalizeSubQuestions (.arr (x :: rest)) = .ok []) ∧
    (∀ fields, fields.lookup "parsed" = none → fields.lookup "raw" = none →
      normalizeSubQuestions (.obj fields) = .ok []) := by
  refine ⟨rfl, rfl, ?_, ?_, rfl, rfl, ?_, ?_⟩
  · intro b
    cases b <;> rfl
  · intro n
    by_cases hn : n.val = 0
    · have : (n.val != 0) = false := by simpa using hn
      simp only [normalizeSubQuestions, JsVal.truthy, this]
      rfl
    · have : (n.val != 0) = true := by simpa using hn
      simp only [normalizeSubQuestions, JsVal.truthy, this, JsVal.typeof]
      rfl
  · intro x rest h1 h2
    cases x <;> first | rfl | exact absurd rfl h1 | exact absurd rfl h2
  · intro fields h1 h2
    simp only [normalizeSubQuestions, JsVal.truthy, JsVal.typeof, JsVal.getProp, h1, h2,
      bind, Except.bind, Option.getD]
    rfl

/-- C4, the failing input: on the array `[null]` the test
`typeof subQuestions[0] === "object"` succeeds and reading `.subQuestion` of
`null` raises a `TypeError`, so `executorGemini` throws instead of producing
zero answers. The same happens for `{ parsed: [null] }`. -/
theorem normalizeSubQuestions_null_element_throws :
    normalizeSubQuestions (.arr [.null]) = .error .typeError ∧
    normalizeSubQuestions (.obj [("parsed", .arr [.null])]) = .error .typeError ∧
    (∀ acts, executorGemini asciiToLowerCase quietEnv 5 (.arr [.null]) acts =
      .error .typeError) :=
  ⟨rfl, rfl, fun _ => rfl⟩

/-! ## The summarizer call of a worker -/

theorem joinedSnippets_nil (toLowerCase : JsString → JsString) :
    joinedSnippets toLowerCase [] = none := rfl

/-- The calls of `callLLM` made by a worker: none when there is no snippet or the
truncated snippet fails the test of line 803, one otherwise. -/
theorem worker_llmCalls_eq (toLowerCase : JsString → JsString)
    (callLLM : List ChatMessage → LLMOutcome) (sq : SubQuestion)
    (sources : List FetchedSource) :
    (worker toLowerCase callLLM sq sources).llmCalls =
      match joinedSnippets toLowerCase sources with
      | none => []
      | some joined =>
        if (trim (truncateSnippets joined)).isEmpty ||
            decide ((truncateSnippets joined).length < 80) then []
        else [buildMessages sq (truncateSnippets joined)] := by
  by_cases hlen : sources.length = 0
  · have hs : sources = [] := List.length_eq_zero.1 hlen
    subst hs
    rfl
  · cases hj : joinedSnippets toLowerCase sources with
    | none => simp only [worker, hlen, hj, ↓reduceIte]
    | some joined =>
      by_cases hshort : ((trim (truncateSnippets joined)).isEmpty ||
          decide ((truncateSnippets joined).length < 80)) = true
      · simp only [worker, hlen, hj, hshort, ↓reduceIte]
      · simp only [worker, hlen, hj, hshort, ↓reduceIte]
        cases hcall : callLLM (buildMessages sq (truncateSnippets joined)) with
        | threw m => rfl
        | returned a b =>
          by_cases hfin :
              (stripCodeFencesAndPreface (if !a.isEmpty then a else b)).isEmpty = true
          · simp only [hfin, ↓reduceIte]
            rfl
          · simp only [hfin, ↓reduceIte]
            rfl

/-- The answer of a worker whose snippet passes the test of line 803, by the
outcome of the call of `callLLM`. -/
theorem worker_answer_of_call (toLowerCase : JsString → JsString)
    (callLLM : List ChatMessage → LLMOutcome) (sq : SubQuestion)
    (sources : List FetchedSource) (joined : JsString)
    (hj : joinedSnippets toLowerCase sources = some joined)
    (hlong : ((trim (truncateSnippets joined)).isEmpty ||
      decide ((truncateSnippets joined).length < 80)) = false) :
    (∀ m, callLLM (buildMessages sq (truncateSnippets joined)) = .threw m →
      (worker toLowerCase callLLM sq sources).answer.status = .error) ∧
    (∀ a b, callLLM (buildMessages sq (truncateSnippets joined)) = .returned a b →
      ((stripCodeFencesAndPreface (if !a.isEmpty then a else b) = [] →
        (worker toLowerCase callLLM sq sources).answer.status = .llm_undefined ∧
        (worker toLowerCase callLLM sq sources).answer.summary = llmUndefinedSummary) ∧
      (stripCodeFencesAndPreface (if !a.isEmpty then a else b) ≠ [] →
        (worker toLowerCase callLLM sq sources).answer.status = .ok ∧
        (worker toLowerCase callLLM sq sources).answer.summary =
          stripCodeFencesAndPreface (if !a.isEmpty then a else b)))) := by
  have hlen : ¬ sources.length = 0 := by
    intro h
    rw [List.length_eq_zero.1 h, joinedSnippets_nil] at hj
    cases hj
  have hshort : ¬ ((trim (truncateSnippets joined)).isEmpty ||
      decide ((truncateSnippets joined).length < 80)) = true := by
    rw [hlong]
    decide
  refine ⟨?_, ?_⟩
  · intro m hcall
    simp only [worker, hlen, hj, hshort, hcall, Bool.false_eq_true, ↓reduceIte]
  · intro a b hcall
    refine ⟨?_, ?_⟩
    · intro hfin
      have hfin2 : (stripCodeFencesAndPreface (if !a.isEmpty then a else b)).isEmpty = true := by
        rw [hfin]
        rfl
      simp only [worker, hlen, hj, hshort, hcall, hfin2, Bool.false_eq_true, ↓reduceIte, and_self]
    · intro hfin
      have hfin2 : ¬ (stripCodeFencesAndPreface (if !a.isEmpty then a else b)).isEmpty = true := by
        intro h
        exact hfin (List.isEmpty_iff.1 h)
      simp only [worker, hlen, hj, hshort, hcall, hfin2, Bool.false_eq_true, ↓reduceIte, and_self]

theorem truncateSnippets_eq_take (s : JsString) : truncateSnippets s = s.take 6000 := by
  unfold truncateSnippets MAX_SNIPPETS_LENGTH
  split
  · rfl
  · exact (List.take_of_length_le (by omega)).symm

theorem joinedSnippets_eq (toLowerCase : JsString → JsString) (sources : List FetchedSource)
    (joined : JsString) (hj : joinedSnippets toLowerCase sources = some joined) :
    joined = join (js "\n")
      ((if validContents toLowerCase sources = [] then allContents sources
        else validContents toLowerCase sources).map (fun c => c.content)) := by
  unfold joinedSnippets at hj
  by_cases hv : validContents toLowerCase sources = []
  · rw [if_pos hv]
    rw [hv] at hj
    simp only [List.length_nil, ↓reduceIte] at hj
    split at hj
    · injection hj with hj
      exact hj.symm
    · cases hj
  · rw [if_neg hv]
    have hv2 : ¬ (validContents toLowerCase sources).length = 0 :=
      fun h => hv (List.length_eq_zero.1 h)
    rw [if_neg hv2] at hj
    injection hj with hj
    exact hj.symm

/-- C11. Whatever the fetched sources, the source text placed in the prompt of a
call of `callLLM` is the newline-join of the contents of the surviving sources
(those that pass the filter or, when none does, those of the fallback) cut to
its first 6000 characters: it is the tail of the user message and has at most
6000 characters. -/
theorem worker_prompt_snippet (toLowerCase : JsString → JsString)
    (callLLM : List ChatMessage → LLMOutcome) (sq : SubQuestion)
    (sources : List FetchedSource) (msgs : List ChatMessage)
    (hcall : msgs ∈ (worker toLowerCase callLLM sq sources).llmCalls) :
    ∃ snippets : JsString,
      snippets = (join (js "\n")
        ((if validContents toLowerCase sources = [] then allContents sources
          else validContents toLowerCase sources).map (fun c => c.content))).take 6000 ∧
      snippets.length ≤ 6000 ∧
      msgs = buildMessages sq snippets ∧
      (∃ system question, msgs = [system, { role := js "user", content := question ++ snippets }]) := by
  rw [worker_llmCalls_eq] at hcall
  cases hj : joinedSnippets toLowerCase sources with
  | none =>
    rw [hj] at hcall
    simp at hcall
  | some joined =>
    rw [hj] at hcall
    simp only at hcall
    split at hcall
    · simp at hcall
    · have hm : msgs = buildMessages sq (truncateSnippets joined) := by simpa using hcall
      rw [truncateSnippets_eq_take] at hm
      rw [joinedSnippets_eq toLowerCase sources joined hj] at hm
      refine ⟨_, rfl, ?_, hm, ?_⟩
      · exact (List.length_take_le _ _)
      · rw [hm]
        exact ⟨_, _, rfl⟩

set_option maxRecDepth 8000 in
/-- Witness of C11: one fetched source of 100 characters, whose content is the
snippet of the prompt. -/
theorem worker_prompt_snippet_witness :
    buildMessages sampleQuestion (sourceOfLength 100).content ∈
      (worker asciiToLowerCase (fun _ => .threw (js "timeout")) sampleQuestion
        [sourceOfLength 100]).llmCalls ∧
    (∃ snippets : JsString, snippets.length ≤ 6000 ∧
      buildMessages sampleQuestion (sourceOfLength 100).content =
        buildMessages sampleQuestion snippets) :=
  have h := worker_prompt_snippet asciiToLowerCase (fun _ => .threw (js "timeout"))
    sampleQuestion [sourceOfLength 100] (buildMessages sampleQuestion (sourceOfLength 100).content)
    (by decide)
  ⟨by decide, h.elim (fun s hs => ⟨s, hs.2.1, hs.2.2.1⟩)⟩

/-- C12. When the joined snippet, after truncation, has fewer than 80 characters
or consists of white space only, the worker produces an answer with status
`no_content` and does not call `callLLM`; conversely every call of `callLLM` is
made with that truncated snippet, which then has at least 80 characters and is
not blank. -/
theorem worker_short_snippet_no_content (toLowerCase : JsString → JsString)
    (callLLM : List ChatMessage → LLMOutcome) (sq : SubQuestion)
    (sources : List FetchedSource) (joined : JsString)
    (hj : joinedSnippets toLowerCase sources = some joined) :
    ((truncateSnippets joined).length < 80 ∨ trim (truncateSnippets joined) = [] →
      (worker toLowerCase callLLM sq sources).answer.status = .no_content ∧
      (worker toLowerCase callLLM sq sources).answer.summary = noContentSummary ∧
      (worker toLowerCase callLLM sq sources).llmCalls = []) ∧
    (∀ msgs, msgs ∈ (worker toLowerCase callLLM sq sources).llmCalls →
      msgs = buildMessages sq (truncateSnippets joined) ∧
      80 ≤ (truncateSnippets joined).length ∧
      trim (truncateSnippets joined) ≠ []) := by
  have hlen : ¬ sources.length = 0 := by
    intro h
    rw [List.length_eq_zero.1 h, joinedSnippets_nil] at hj
    cases hj
  refine ⟨?_, ?_⟩
  · intro hs
    have hshort : ((trim (truncateSnippets joined)).isEmpty ||
        decide ((truncateSnippets joined).length < 80)) = true := by
      rcases hs with h | h
      · simp [h]
      · simp [h]
    simp only [worker, hlen, hj, hshort, ↓reduceIte, and_self]
  · intro msgs hcall
    rw [worker_llmCalls_eq, hj] at hcall
    simp only at hcall
    split at hcall
    · simp at hcall
    · rename_i hshort
      have hm : msgs = buildMessages sq (truncateSnippets joined) := by simpa using hcall
      simp only [Bool.or_eq_true, decide_eq_true_eq, not_or, not_lt] at hshort
      refine ⟨hm, hshort.2, ?_⟩
      intro h
      exact hshort.1 (by rw [h]; rfl)

set_option maxRecDepth 8000 in
/-- Witness of C12: one fetched source of 60 characters passes the filter and
gives a snippet of 60 characters. -/
theorem worker_short_snippet_no_content_witness :
    joinedSnippets asciiToLowerCase [sourceOfLength 60] = some (sourceOfLength 60).content ∧
    (truncateSnippets (sourceOfLength 60).content).length = 60 ∧
    (worker asciiToLowerCase fencedReply sampleQuestion [sourceOfLength 60]).answer.status =
      .no_content ∧
    (worker asciiToLowerCase fencedReply sampleQuestion [sourceOfLength 60]).llmCalls = [] :=
  have h := (worker_short_snippet_no_content asciiToLowerCase fencedReply sampleQuestion
    [sourceOfLength 60] (sourceOfLength 60).content (by decide)).1 (Or.inl (by decide))
  ⟨by decide, by decide, h.1, h.2.2⟩

/-- C13. When the call of `callLLM` returns, the final text is
`stripCodeFencesAndPreface` of the returned text or, when that is empty, of the
streamed accumulation; the answer has status `llm_undefined` exactly when the
final text is empty, and otherwise status `ok` with the final text as summary. -/
theorem worker_returned_status (toLowerCase : JsString → JsString)
    (callLLM : List ChatMessage → LLMOutcome) (sq : SubQuestion)
    (sources : List FetchedSource) (msgs : List ChatMessage) (summaryRaw streamed : JsString)
    (hcall : msgs ∈ (worker toLowerCase callLLM sq sources).llmCalls)
    (hret : callLLM msgs = .returned summaryRaw streamed) :
    ((worker toLowerCase callLLM sq sources).answer.status = .llm_undefined ↔
      stripCodeFencesAndPreface (if summaryRaw ≠ [] then summaryRaw else streamed) = []) ∧
    (stripCodeFencesAndPreface (if summaryRaw ≠ [] then summaryRaw else streamed) ≠ [] →
      (worker toLowerCase callLLM sq sources).answer.status = .ok ∧
      (worker toLowerCase callLLM sq sources).answer.summary =
        stripCodeFencesAndPreface (if summaryRaw ≠ [] then summaryRaw else streamed)) ∧
    (stripCodeFencesAndPreface (if summaryRaw ≠ [] then summaryRaw else streamed) = [] →
      (worker toLowerCase callLLM sq sources).answer.summary = llmUndefinedSummary) := by
  have hpick : (if summaryRaw ≠ [] then summaryRaw else streamed) =
      (if !summaryRaw.isEmpty then summaryRaw else streamed) := by
    cases summaryRaw <;> rfl
  rw [hpick]
  rw [worker_llmCalls_eq] at hcall
  cases hj : joinedSnippets toLowerCase sources with
  | none =>
    rw [hj] at hcall
    simp at hcall
  | some joined =>
    rw [hj] at hcall
    simp only at hcall
    split at hcall
    · simp at hcall
    · rename_i hshort
      have hm : msgs = buildMessages sq (truncateSnippets joined) := by simpa using hcall
      subst hm
      have hlong : ((trim (truncateSnippets joined)).isEmpty ||
          decide ((truncateSnippets joined).length < 80)) = false := by
        simpa using hshort
      obtain ⟨h1, h2⟩ := (worker_answer_of_call toLowerCase callLLM sq sources joined hj hlong).2
        summaryRaw streamed hret
      refine ⟨⟨?_, fun h => (h1 h).1⟩, h2, fun h => (h1 h).2⟩
      intro hst
      by_contra hne
      rw [(h2 hne).1] at hst
      cases hst

set_option maxRecDepth 8000 in
/-- Witness of C13: a fenced reply is unwrapped to `Answer`, and an empty return
falls back to the streamed text. -/
theorem worker_returned_status_witness :
    (worker asciiToLowerCase fencedReply sampleQuestion [sourceOfLength 100]).answer.status =
      .ok ∧
    (worker asciiToLowerCase fencedReply sampleQuestion [sourceOfLength 100]).answer.summary =
      js "Answer" ∧
    (worker asciiToLowerCase streamedReply sampleQuestion [sourceOfLength 100]).answer.summary =
      js "Answer" :=
  have h := (worker_returned_status asciiToLowerCase fencedReply sampleQuestion
    [sourceOfLength 100] (buildMessages sampleQuestion (sourceOfLength 100).content)
    (js "```markdown\nAnswer\n```") [] (by decide) rfl).2.1 (by decide)
  ⟨h.1, h.2.trans (by decide), by decide⟩

/-- C14. An answer with status `ok` lists, as `{ title, url }` and in the same
order, every source returned by `googleSearchAndFetch` for the sub-question,
those removed by the content filter included. -/
theorem worker_ok_sources (toLowerCase : JsString → JsString)
    (callLLM : List ChatMessage → LLMOutcome) (sq : SubQuestion)
    (sources : List FetchedSource)
    (hok : (worker toLowerCase callLLM sq sources).answer.status = .ok) :
    (worker toLowerCase callLLM sq sources).answer.sources =
      sources.map (fun c => { title := c.title, url := c.url }) ∧
    (worker toLowerCase callLLM sq sources).answer.sources.length = sources.length ∧
    (∀ c, c ∈ sources → c ∉ validContents toLowerCase sources →
      ({ title := c.title, url := c.url } : SourceRef) ∈
        (worker toLowerCase callLLM sq sources).answer.sources) := by
  have hs : (worker toLowerCase callLLM sq sources).answer.sources =
      sources.map (fun c => { title := c.title, url := c.url }) := by
    rcases worker_cases toLowerCase callLLM sq sources with
      ⟨_, _, ⟨h, _⟩ | ⟨h, _⟩⟩ | ⟨msgs, _, _, hs, _⟩
    · rw [h] at hok
      cases hok
    · rw [h] at hok
      cases hok
    · exact hs
  refine ⟨hs, by rw [hs, List.length_map], ?_⟩
  intro c hc _
  rw [hs]
  exact List.mem_map.2 ⟨c, hc, rfl⟩

set_option maxRecDepth 8000 in
/-- Witness of C14: of two fetched sources the one of 10 characters is removed
by the filter, and the `ok` answer lists both. -/
theorem worker_ok_sources_witness :
    (worker asciiToLowerCase fencedReply sampleQuestion
      [sourceOfLength 10, sourceOfLength 100]).answer.status = .ok ∧
    validContents asciiToLowerCase [sourceOfLength 10, sourceOfLength 100] =
      [sourceOfLength 100] ∧
    (worker asciiToLowerCase fencedReply sampleQuestion
      [sourceOfLength 10, sourceOfLength 100]).answer.sources.length = 2 :=
  have h := worker_ok_sources asciiToLowerCase fencedReply sampleQuestion
    [sourceOfLength 10, sourceOfLength 100] (by decide)
  ⟨by decide, by decide, h.2.1⟩

/-! ## Search results: hosts and returned sources -/

section SearchProofs

variable (toLowerCase : JsString → JsString) (hostname : JsString → Option JsString)
  (TOP_SOURCES : Nat) (now : Int) (query : JsVal) (yearPref : Option YearPref)

theorem dedupeHosts_sublist : ∀ (seen : List JsString) (raw : List SearchItem),
    (dedupeHosts toLowerCase hostname seen raw).Sublist raw
  | _, [] => List.Sublist.slnil
  | seen, it :: rest => by
    unfold dedupeHosts
    split
    · exact (dedupeHosts_sublist seen rest).cons _
    · split
      · exact (dedupeHosts_sublist seen rest).cons _
      · exact (dedupeHosts_sublist _ rest).cons₂ _

theorem dedupeHosts_key_fresh : ∀ (seen : List JsString) (raw : List SearchItem)
    (it : SearchItem), it ∈ dedupeHosts toLowerCase hostname seen raw →
    ∃ h, hostKey toLowerCase hostname it = some h ∧ h ∉ seen
  | _, [], it, hmem => by simp [dedupeHosts] at hmem
  | seen, x :: rest, it, hmem => by
    unfold dedupeHosts at hmem
    split at hmem
    · exact dedupeHosts_key_fresh seen rest it hmem
    · rename_i k hk
      split at hmem
      · exact dedupeHosts_key_fresh seen rest it hmem
      · rename_i hks
        rcases List.mem_cons.1 hmem with h | h
        · subst h
          exact ⟨k, hk, hks⟩
        · obtain ⟨h2, h3, h4⟩ := dedupeHosts_key_fresh (k :: seen) rest it h
          exact ⟨h2, h3, fun hin => h4 (List.mem_cons_of_mem _ hin)⟩

theorem dedupeHosts_pairwise : ∀ (seen : List JsString) (raw : List SearchItem),
    (dedupeHosts toLowerCase hostname seen raw).Pairwise
      (fun a b => hostKey toLowerCase hostname a ≠ hostKey toLowerCase hostname b)
  | _, [] => List.Pairwise.nil
  | seen, x :: rest => by
    unfold dedupeHosts
    split
    · exact dedupeHosts_pairwise seen rest
    · rename_i k hk
      split
      · exact dedupeHosts_pairwise seen rest
      · refine List.pairwise_cons.2 ⟨?_, dedupeHosts_pairwise _ rest⟩
        intro b hb
        obtain ⟨h, h1, h2⟩ := dedupeHosts_key_fresh toLowerCase hostname (k :: seen) rest b hb
        rw [hk, h1]
        intro heq
        injection heq with heq
        exact h2 (by rw [heq]; exact List.mem_cons_self _ _)

theorem dedupeHosts_find : ∀ (seen : List JsString) (raw : List SearchItem) (h : JsString),
    (dedupeHosts toLowerCase hostname seen raw).find?
        (fun it => decide (hostKey toLowerCase hostname it = some h)) =
      if h ∈ seen then none
      else raw.find? (fun it => decide (hostKey toLowerCase hostname it = some h))
  | seen, [], h => by simp [dedupeHosts]
  | seen, x :: rest, h => by
    unfold dedupeHosts
    split
    · rename_i hk
      rw [dedupeHosts_find seen rest h]
      have : decide (hostKey toLowerCase hostname x = some h) = false := by
        rw [hk]; simp
      rw [List.find?_cons, this]
    · rename_i k hk
      split
      · rename_i hks
        rw [dedupeHosts_find seen rest h]
        by_cases hh : h ∈ seen
        · simp [hh]
        · have hne : k ≠ h := fun e => hh (e ▸ hks)
          have : decide (hostKey toLowerCase hostname x = some h) = false := by
            rw [hk]; simpa using hne
          rw [List.find?_cons, this]
      · rename_i hks
        by_cases hkh : k = h
        · subst hkh
          have : decide (hostKey toLowerCase hostname x = some k) = true := by
            rw [hk]; simp
          rw [List.find?_cons, this, List.find?_cons, this, if_neg hks]
        · have : decide (hostKey toLowerCase hostname x = some h) = false := by
            rw [hk]; simpa using hkh
          rw [List.find?_cons, this, dedupeHosts_find (k :: seen) rest h, List.find?_cons, this]
          have hmem : h ∈ k :: seen ↔ h ∈ seen := by
            simp only [List.mem_cons]
            constructor
            · rintro (e | e)
              · exact absurd e.symm hkh
              · exact e
            · exact Or.inr
          simp only [hmem]

theorem fetchPage_url (item : SearchItem) (world : PageWorld) (c : FetchedSource)
    (h : fetchPage toLowerCase now query yearPref item world = some c) :
    c.url = item.link ∧ c.title = item.title := by
  have hfb : ∀ c, snippetFallback item = some c → c.url = item.link ∧ c.title = item.title := by
    intro c hc
    unfold snippetFallback at hc
    split at hc
    · injection hc with hc
      subst hc
      exact ⟨rfl, rfl⟩
    · cases hc
  unfold fetchPage at h
  split at h
  · split at h
    · split at h
      · cases h
      · injection h with h
        subst h
        exact ⟨rfl, rfl⟩
    · exact hfb c h
  · split at h
    · cases h
    · cases hr : rankedContent toLowerCase now query yearPref _ with
      | none => rw [hr] at h; cases h
      | some t =>
        rw [hr] at h
        injection h with h
        subst h
        exact ⟨rfl, rfl⟩
    · exact hfb c h

theorem keepResults_length_le : ∀ (l : List (Option FetchedSource)),
    (keepResults l).length ≤ l.length
  | [] => Nat.le_refl _
  | none :: rest => by
    have := keepResults_length_le rest
    simp only [keepResults, List.length_cons]
    omega
  | some c :: rest => by
    have := keepResults_length_le rest
    simp only [keepResults, List.length_cons]
    split
    · simp only [List.length_cons]; omega
    · omega

theorem keepResults_content : ∀ (l : List (Option FetchedSource)) (c : FetchedSource),
    c ∈ keepResults l → c.content ≠ [] ∧ some c ∈ l
  | [], c, h => by simp [keepResults] at h
  | none :: rest, c, h => by
    obtain ⟨h1, h2⟩ := keepResults_content rest c h
    exact ⟨h1, List.mem_cons_of_mem _ h2⟩
  | some d :: rest, c, h => by
    simp only [keepResults] at h
    split at h
    · rename_i hd
      rcases List.mem_cons.1 h with e | e
      · subst e
        refine ⟨?_, List.mem_cons_self _ _⟩
        intro h0
        rw [h0] at hd
        simp at hd
      · obtain ⟨h1, h2⟩ := keepResults_content rest c e
        exact ⟨h1, List.mem_cons_of_mem _ h2⟩
    · obtain ⟨h1, h2⟩ := keepResults_content rest c h
      exact ⟨h1, List.mem_cons_of_mem _ h2⟩

theorem fetchFrom_length (world : Nat → PageWorld) : ∀ (index : Nat) (pages : List SearchItem),
    (fetchFrom toLowerCase now query yearPref world index pages).length = pages.length
  | _, [] => rfl
  | index, item :: rest => by
    simp only [fetchFrom, List.length_cons, fetchFrom_length world (index + 1) rest]

theorem keepResults_fetchFrom_sublist (world : Nat → PageWorld) :
    ∀ (index : Nat) (pages : List SearchItem),
    ((keepResults (fetchFrom toLowerCase now query yearPref world index pages)).map
      (fun c => (c.url, c.title))).Sublist (pages.map (fun it => (it.link, it.title)))
  | _, [] => List.Sublist.slnil
  | index, item :: rest => by
    have ih := keepResults_fetchFrom_sublist world (index + 1) rest
    simp only [fetchFrom, List.map_cons]
    cases hf : fetchPage toLowerCase now query yearPref item (world index) with
    | none =>
      simp only [keepResults]
      exact ih.cons _
    | some c =>
      simp only [keepResults]
      split
      · obtain ⟨h1, h2⟩ := fetchPage_url toLowerCase now query yearPref item _ c hf
        simp only [List.map_cons, h1, h2]
        exact ih.cons₂ _
      · exact ih.cons _

end SearchProofs

/-- C19. For every list of raw search results, the list `items` built by
`googleSearchAndFetch` before the truncation is a subsequence of the raw
results (the relative order is kept), every retained item has a host name, no
two retained items have the same lower-cased host name, and for every host name
the retained item with that host name is the first raw result with it. -/
theorem dedupeHosts_first_per_host (toLowerCase : JsString → JsString)
    (hostname : JsString → Option JsString) (rawItems : List SearchItem) :
    (dedupeHosts toLowerCase hostname [] rawItems).Sublist rawItems ∧
    (∀ it, it ∈ dedupeHosts toLowerCase hostname [] rawItems →
      ∃ h, hostKey toLowerCase hostname it = some h) ∧
    (dedupeHosts toLowerCase hostname [] rawItems).Pairwise
      (fun a b => hostKey toLowerCase hostname a ≠ hostKey toLowerCase hostname b) ∧
    (∀ h, (dedupeHosts toLowerCase hostname [] rawItems).find?
        (fun it => decide (hostKey toLowerCase hostname it = some h)) =
      rawItems.find? (fun it => decide (hostKey toLowerCase hostname it = some h))) := by
  refine ⟨dedupeHosts_sublist toLowerCase hostname [] rawItems, ?_,
    dedupeHosts_pairwise toLowerCase hostname [] rawItems, ?_⟩
  · intro it hit
    obtain ⟨h, h1, _⟩ := dedupeHosts_key_fresh toLowerCase hostname [] rawItems it hit
    exact ⟨h, h1⟩
  · intro h
    rw [dedupeHosts_find toLowerCase hostname [] rawItems h]
    simp

/-- C20. For every query, the list returned by `googleSearchAndFetch` has at
most `TOP_SOURCES` entries, every entry has a non-empty content, and the entries
appear in the order of the retained search results: their `(url, title)` pairs
are a subsequence of the `(link, title)` pairs of the first `TOP_SOURCES`
retained results. When the request to the search backend fails the list is
empty. -/
theorem googleSearchAndFetch_results (toLowerCase : JsString → JsString)
    (hostname : JsString → Option JsString) (TOP_SOURCES : Nat) (now : Int) (query : JsVal)
    (yearPref : Option YearPref) (response : Except JsString (List SearchItem))
    (world : Nat → PageWorld) :
    (googleSearchAndFetch toLowerCase hostname TOP_SOURCES now query yearPref response
      world).length ≤ TOP_SOURCES ∧
    (∀ c, c ∈ googleSearchAndFetch toLowerCase hostname TOP_SOURCES now query yearPref response
      world → c.content ≠ []) ∧
    (∀ rawItems, response = .ok rawItems →
      ((googleSearchAndFetch toLowerCase hostname TOP_SOURCES now query yearPref response
        world).map (fun c => (c.url, c.title))).Sublist
        (((dedupeHosts toLowerCase hostname [] rawItems).take TOP_SOURCES).map
          (fun it => (it.link, it.title)))) ∧
    (∀ m, response = .error m →
      googleSearchAndFetch toLowerCase hostname TOP_SOURCES now query yearPref response
        world = []) := by
  cases response with
  | error m =>
    refine ⟨Nat.zero_le _, ?_, ?_, fun _ _ => rfl⟩
    · intro c hc
      simp [googleSearchAndFetch] at hc
    · intro rawItems h
      cases h
  | ok rawItems =>
    by_cases hlen : (dedupeHosts toLowerCase hostname [] rawItems).length = 0
    · have hres : googleSearchAndFetch toLowerCase hostname TOP_SOURCES now query yearPref
          (.ok rawItems) world = [] := by
        simp only [googleSearchAndFetch, hlen, ↓reduceIte]
      rw [hres]
      refine ⟨Nat.zero_le _, ?_, ?_, ?_⟩
      · intro c hc
        simp at hc
      · intro r _
        exact List.nil_sublist _
      · intro m h
        cases h
    · have hres : googleSearchAndFetch toLowerCase hostname TOP_SOURCES now query yearPref
          (.ok rawItems) world =
          keepResults (fetchFrom toLowerCase now query yearPref world 0
            ((dedupeHosts toLowerCase hostname [] rawItems).take TOP_SOURCES)) := by
        simp only [googleSearchAndFetch, hlen, ↓reduceIte]
      rw [hres]
      refine ⟨?_, ?_, ?_, ?_⟩
      · refine le_trans (keepResults_length_le _) ?_
        rw [fetchFrom_length]
        exact List.length_take_le _ _
      · intro c hc
        exact (keepResults_content _ c hc).1
      · intro r hr
        injection hr with hr
        subst hr
        exact keepResults_fetchFrom_sublist toLowerCase now query yearPref world 0 _
      · intro m h
        cases h

/-! ## Ranking of the extracted text -/

/-- C16. With `final` the cleaned accumulated text after the meta-description
fallback, the ranking code returns `null` whenever `final` has fewer than 100
characters and whenever its lower-cased form contains a marker of `BAD`, and
returns `final` otherwise; so every content it returns has at least 100
characters and contains no marker. The markers are lower-case, and the text
`404 Page Not Found` is rejected. -/
theorem rankedContent_rejects_short_or_marked (toLowerCase : JsString → JsString) (now : Int)
    (query : JsVal) (yearPref : Option YearPref) (page : HtmlPage) :
    ((withMetaFallback
        (cleanAccumulated (accumulatedText toLowerCase now query yearPref page)) page).length <
        100 →
      rankedContent toLowerCase now query yearPref page = none) ∧
    ((∃ p, p ∈ BAD ∧ includes (toLowerCase (withMetaFallback
        (cleanAccumulated (accumulatedText toLowerCase now query yearPref page)) page)) p =
          true) →
      rankedContent toLowerCase now query yearPref page = none) ∧
    (100 ≤ (withMetaFallback
        (cleanAccumulated (accumulatedText toLowerCase now query yearPref page)) page).length →
      (∀ p, p ∈ BAD → includes (toLowerCase (withMetaFallback
        (cleanAccumulated (accumulatedText toLowerCase now query yearPref page)) page)) p =
          false) →
      rankedContent toLowerCase now query yearPref page = some (withMetaFallback
        (cleanAccumulated (accumulatedText toLowerCase now query yearPref page)) page)) ∧
    (∀ content, rankedContent toLowerCase now query yearPref page = some content →
      100 ≤ content.length ∧ ∀ p, p ∈ BAD → includes (toLowerCase content) p = false) ∧
    acceptContent toLowerCase (js "404 Page Not Found") = none ∧
    BAD.map asciiToLowerCase = BAD := by
  have key : ∀ t : JsString,
      (t.length < 100 → acceptContent toLowerCase t = none) ∧
      ((∃ p, p ∈ BAD ∧ includes (toLowerCase t) p = true) →
        acceptContent toLowerCase t = none) ∧
      (100 ≤ t.length → (∀ p, p ∈ BAD → includes (toLowerCase t) p = false) →
        acceptContent toLowerCase t = some t) ∧
      (∀ content, acceptContent toLowerCase t = some content →
        content = t ∧ 100 ≤ t.length ∧ ∀ p, p ∈ BAD → includes (toLowerCase t) p = false) := by
    intro t
    refine ⟨?_, ?_, ?_, ?_⟩
    · intro h
      simp only [acceptContent, h, ↓reduceIte]
    · rintro ⟨p, hp, hinc⟩
      have hany : BAD.any (fun p => includes (toLowerCase t) p) = true :=
        List.any_eq_true.2 ⟨p, hp, hinc⟩
      simp only [acceptContent, hany, ↓reduceIte, ite_self]
    · intro h1 h2
      have hany : ¬ BAD.any (fun p => includes (toLowerCase t) p) = true := by
        intro h
        obtain ⟨p, hp, hinc⟩ := List.any_eq_true.1 h
        rw [h2 p hp] at hinc
        cases hinc
      unfold acceptContent
      rw [if_neg (by omega), if_neg hany]
    · intro content h
      unfold acceptContent at h
      split at h
      · cases h
      · rename_i hlen
        split at h
        · cases h
        · rename_i hany
          injection h with h
          refine ⟨h.symm, by omega, ?_⟩
          intro p hp
          by_contra hinc
          exact hany (List.any_eq_true.2 ⟨p, hp, by simpa using hinc⟩)
  obtain ⟨k1, k2, k3, k4⟩ := key (withMetaFallback
    (cleanAccumulated (accumulatedText toLowerCase now query yearPref page)) page)
  refine ⟨k1, k2, k3, ?_, (key _).1 (by decide), by decide⟩
  intro content h
  obtain ⟨h1, h2, h3⟩ := k4 content h
  rw [h1]
  exact ⟨h2, h3⟩

/-- C18. The accumulator visits the candidates in the order of `ranked`, which
is a rearrangement of the scored candidates with non-increasing scores. At each
candidate, while the accumulator has fewer than 8000 characters, the candidate
is appended (after the separator when the accumulator is not empty) unless the
accumulator is non-empty and contains the first 100 characters of the
candidate; once the accumulator has reached 8000 characters nothing more is
appended. -/
theorem accumulate_over_ranked (toLowerCase : JsString → JsString) (now : Int)
    (query : JsVal) (yearPref : Option YearPref) (candidates : List Candidate) :
    (ranked toLowerCase now query yearPref candidates).Pairwise
      (fun a b => a.score ≥ b.score) ∧
    (ranked toLowerCase now query yearPref candidates).Perm
      (candidates.map (fun c =>
        { sel := c.sel, text := c.text, priority := c.priority,
          score := scoreOf toLowerCase now query yearPref c.text c.priority })) ∧
    (∀ acc c rest, acc.length < MAX → acc = [] ∨ includes acc (c.text.take 100) = false →
      accumulate acc (c :: rest) =
        accumulate (acc ++ (if acc = [] then [] else js "\n\n") ++ c.text) rest) ∧
    (∀ acc c rest, acc.length < MAX → acc ≠ [] → includes acc (c.text.take 100) = true →
      accumulate acc (c :: rest) = accumulate acc rest) ∧
    (∀ acc l, MAX ≤ acc.length → accumulate acc l = acc) := by
  haveI : IsTotal RankedCandidate (fun a b => a.score ≥ b.score) :=
    ⟨fun a b => le_total b.score a.score⟩
  haveI : IsTrans RankedCandidate (fun a b => a.score ≥ b.score) :=
    ⟨fun a b c hab hbc => le_trans hbc hab⟩
  refine ⟨List.sorted_insertionSort _ _, List.perm_insertionSort _ _, ?_, ?_, ?_⟩
  · intro acc c rest hlen hnew
    have h1 : ¬ acc.length ≥ MAX := by omega
    have h2 : (acc.isEmpty || !includes acc (c.text.take 100)) = true := by
      rcases hnew with h | h
      · subst h; rfl
      · simp [h]
    rw [accumulate, if_neg h1, if_pos h2]
    cases acc <;> rfl
  · intro acc c rest hlen hne hinc
    have h1 : ¬ acc.length ≥ MAX := by omega
    have h2 : ¬ (acc.isEmpty || !includes acc (c.text.take 100)) = true := by
      cases acc with
      | nil => exact absurd rfl hne
      | cons a b => simp [hinc]
    rw [accumulate, if_neg h1, if_neg h2]
  · intro acc l hlen
    cases l with
    | nil => rfl
    | cons c rest => rw [accumulate, if_pos hlen]

/-! ## The score of a candidate -/

theorem termHits_foldl (low : JsString) : ∀ (terms : List JsString) (n : Nat),
    terms.foldl (fun n w => n + (if includes low w then 1 else 0)) n =
      n + (terms.filter (fun w => includes low w)).length
  | [], n => rfl
  | w :: ws, n => by
    rw [List.foldl_cons, termHits_foldl low ws]
    by_cases h : includes low w = true
    · simp only [h, ↓reduceIte, List.filter_cons_of_pos, List.length_cons]
      omega
    · simp only [h, Bool.false_eq_true, ↓reduceIte, List.filter_cons_of_neg, not_false_eq_true,
        Nat.add_zero]

theorem mem_uniqueFrom : ∀ (seen ws : List JsString) (w : JsString),
    w ∈ uniqueFrom seen ws ↔ w ∈ ws ∧ w ∉ seen
  | _, [], w => by simp [uniqueFrom]
  | seen, v :: vs, w => by
    unfold uniqueFrom
    split
    · rename_i hv
      rw [mem_uniqueFrom seen vs w, List.mem_cons]
      constructor
      · rintro ⟨h1, h2⟩
        exact ⟨Or.inr h1, h2⟩
      · rintro ⟨h1 | h1, h2⟩
        · subst h1
          exact absurd hv h2
        · exact ⟨h1, h2⟩
    · rename_i hv
      rw [List.mem_cons, mem_uniqueFrom (v :: seen) vs w, List.mem_cons, List.mem_cons]
      constructor
      · rintro (h | ⟨h1, h2⟩)
        · subst h
          exact ⟨Or.inl rfl, hv⟩
        · exact ⟨Or.inr h1, fun h => h2 (Or.inr h)⟩
      · rintro ⟨h1 | h1, h2⟩
        · exact Or.inl h1
        · by_cases hwv : w = v
          · exact Or.inl hwv
          · refine Or.inr ⟨h1, ?_⟩
            rintro (h | h)
            · exact hwv h
            · exact h2 h

theorem uniqueFrom_nodup : ∀ (seen ws : List JsString), (uniqueFrom seen ws).Nodup
  | _, [] => List.nodup_nil
  | seen, v :: vs => by
    unfold uniqueFrom
    split
    · exact uniqueFrom_nodup seen vs
    · refine List.nodup_cons.2 ⟨?_, uniqueFrom_nodup _ vs⟩
      intro h
      exact ((mem_uniqueFrom (v :: seen) vs v).1 h).2 (List.mem_cons_self _ _)

theorem termHits_uniqueFrom (ts : List JsString) (low : JsString) :
    termHits (uniqueFrom [] ts) low =
      (ts.toFinset.filter (fun w => includes low w = true)).card := by
  unfold termHits
  rw [termHits_foldl, Nat.zero_add]
  have hnd : ((uniqueFrom [] ts).filter (fun w => includes low w)).Nodup :=
    (uniqueFrom_nodup [] ts).filter _
  rw [← List.toFinset_card_of_nodup hnd]
  congr 1
  ext w
  simp only [List.mem_toFinset, List.mem_filter, Finset.mem_filter, mem_uniqueFrom,
    List.not_mem_nil, not_false_eq_true, and_true]

theorem splitTerms_chars : ∀ (inSep : Bool) (s w : JsString),
    w ∈ splitTerms inSep s → ∀ c, c ∈ w → isTermChar c = true
  | _, [], w, hw, c, hc => by
    simp only [splitTerms, List.mem_singleton] at hw
    subst hw
    simp at hc
  | inSep, d :: s, w, hw, c, hc => by
    unfold splitTerms at hw
    split at hw
    · rename_i hd
      have ih := splitTerms_chars false s
      cases hsp : splitTerms false s with
      | nil =>
        rw [hsp] at hw
        simp only [consHead, List.mem_singleton] at hw
        subst hw
        simp only [List.mem_singleton] at hc
        subst hc
        exact hd
      | cons l ls =>
        rw [hsp] at hw ih
        simp only [consHead, List.mem_cons] at hw
        rcases hw with hw | hw
        · subst hw
          rcases List.mem_cons.1 hc with e | e
          · subst e
            exact hd
          · exact ih l (List.mem_cons_self _ _) c e
        · exact ih w (List.mem_cons_of_mem _ hw) c hc
    · split at hw
      · exact splitTerms_chars true s w hw c hc
      · rcases List.mem_cons.1 hw with e | e
        · subst e
          simp at hc
        · exact splitTerms_chars true s w e c hc

/-! ## Length of the content of a page -/

theorem trim_length_le (s : JsString) : (trim s).length ≤ s.length := by
  unfold trim
  have h1 := dropWhile_length_le isWhiteSpace s
  have h2 := dropWhile_length_le isWhiteSpace (s.dropWhile isWhiteSpace).reverse
  simp only [List.length_reverse] at h2 ⊢
  omega

theorem collapseWhiteSpace_length_le : ∀ (inRun : Bool) (s : JsString),
    (collapseWhiteSpace inRun s).length ≤ s.length
  | _, [] => Nat.le_refl _
  | inRun, c :: s => by
    have h1 := collapseWhiteSpace_length_le true s
    have h2 := collapseWhiteSpace_length_le false s
    unfold collapseWhiteSpace
    split
    · split
      · simp only [List.length_cons]; omega
      · simp only [List.length_cons]; omega
    · simp only [List.length_cons]; omega

theorem squeezeNewlines_length_le : ∀ (kept : Nat) (s : JsString),
    (squeezeNewlines kept s).length ≤ s.length
  | _, [] => Nat.le_refl _
  | kept, c :: s => by
    have h1 := squeezeNewlines_length_le (kept + 1) s
    have h2 := squeezeNewlines_length_le kept s
    have h3 := squeezeNewlines_length_le 0 s
    unfold squeezeNewlines
    split
    · split
      · simp only [List.length_cons]; omega
      · simp only [List.length_cons]; omega
    · simp only [List.length_cons]; omega

theorem norm_length_le (s : JsString) : (norm s).length ≤ s.length := by
  unfold norm
  have h1 := trim_length_le (squeezeNewlines 0 (collapseWhiteSpace false s))
  have h2 := squeezeNewlines_length_le 0 (collapseWhiteSpace false s)
  have h3 := collapseWhiteSpace_length_le false s
  omega

theorem removeMatches_length_le (matchAt : Option Nat → JsString → Option Nat) :
    ∀ (s : JsString) (prev : Option Nat) (skip : Nat),
    (removeMatches matchAt prev skip s).length ≤ s.length
  | [], _, _ => by simp [removeMatches]
  | c :: s, prev, skip + 1 => by
    have := removeMatches_length_le matchAt s (some c) skip
    simp only [removeMatches, List.length_cons]
    omega
  | c :: s, prev, 0 => by
    unfold removeMatches
    split
    · rename_i n _
      have := removeMatches_length_le matchAt s (some c) n
      simp only [List.length_cons]
      omega
    · have := removeMatches_length_le matchAt s (some c) 0
      simp only [List.length_cons]
      omega

theorem cleanAccumulated_length_le (acc : JsString) :
    (cleanAccumulated acc).length ≤ acc.length := by
  unfold cleanAccumulated
  refine le_trans (trim_length_le _) ?_
  refine le_trans (removeMatches_length_le _ _ _ _) ?_
  refine le_trans (removeMatches_length_le _ _ _ _) ?_
  refine le_trans (removeMatches_length_le _ _ _ _) ?_
  refine le_trans (removeMatches_length_le _ _ _ _) ?_
  refine le_trans (removeMatches_length_le _ _ _ _) ?_
  refine le_trans (removeMatches_length_le _ _ _ _) ?_
  refine le_trans (removeMatches_length_le _ _ _ _) ?_
  exact norm_length_le acc

theorem accumulate_length_le (B : Nat) : ∀ (l : List RankedCandidate) (acc : JsString),
    (∀ c, c ∈ l → c.text.length ≤ B) → acc.length ≤ MAX + 1 + B →
    (accumulate acc l).length ≤ MAX + 1 + B
  | [], acc, _, hacc => hacc
  | c :: rest, acc, hB, hacc => by
    unfold accumulate
    split
    · exact hacc
    · rename_i hlt
      split
      · refine accumulate_length_le B rest _ (fun x hx => hB x (List.mem_cons_of_mem _ hx)) ?_
        have h1 := hB c (List.mem_cons_self _ _)
        have h2 : (if !acc.isEmpty then js "\n\n" else []).length ≤ 2 := by
          split <;> decide
        simp only [List.length_append]
        omega
      · exact accumulate_length_le B rest acc
          (fun x hx => hB x (List.mem_cons_of_mem _ hx)) hacc

theorem ranked_text (toLowerCase : JsString → JsString) (now : Int) (query : JsVal)
    (yearPref : Option YearPref) (candidates : List Candidate) (r : RankedCandidate)
    (hr : r ∈ ranked toLowerCase now query yearPref candidates) :
    ∃ c, c ∈ candidates ∧ r.text = c.text := by
  unfold ranked at hr
  have := (List.perm_insertionSort _ _).subset hr
  obtain ⟨c, hc, rfl⟩ := List.mem_map.1 this
  exact ⟨c, hc, rfl⟩

theorem meta_is_candidate (page : HtmlPage) (h : norm page.metaContent ≠ []) :
    ∃ c, c ∈ candidatesOf page ∧ c.text = norm page.metaContent := by
  refine ⟨{ sel := js "meta", text := norm page.metaContent, priority := 2 }, ?_, rfl⟩
  have hm : pushText (js "meta") (norm page.metaContent) 2 =
      [{ sel := js "meta", text := norm page.metaContent, priority := 2 }] := by
    unfold pushText
    cases hn : norm page.metaContent with
    | nil => exact absurd hn h
    | cons a b => rfl
  unfold candidatesOf
  rw [hm]
  simp

theorem acceptContent_some (toLowerCase : JsString → JsString) (t content : JsString)
    (h : acceptContent toLowerCase t = some content) : content = t := by
  unfold acceptContent at h
  split at h
  · cases h
  · split at h
    · cases h
    · injection h with h
      exact h.symm

theorem withMetaFallback_cases (cleanText : JsString) (page : HtmlPage) :
    withMetaFallback cleanText page = cleanText ∨
      (withMetaFallback cleanText page = norm page.metaContent ∧
        100 ≤ (norm page.metaContent).length) := by
  unfold withMetaFallback
  split
  · split
    · rename_i h
      exact Or.inr ⟨rfl, h⟩
    · exact Or.inl rfl
  · exact Or.inl rfl

/-- C15, amended. For every parsed page and every query, the content returned by
the ranking code has at most `8001 + B` characters, where `B` bounds the length
of the extracted fragments: the accumulator takes whole fragments, is only
compared with 8000 before a fragment is appended (with its two-character
separator), and the clean-up does not lengthen the text. -/
theorem rankedContent_length_le (toLowerCase : JsString → JsString) (now : Int)
    (query : JsVal) (yearPref : Option YearPref) (page : HtmlPage) (B : Nat)
    (hB : ∀ c, c ∈ candidatesOf page → c.text.length ≤ B) :
    (accumulatedText toLowerCase now query yearPref page).length ≤ 8001 + B ∧
    (cleanAccumulated (accumulatedText toLowerCase now query yearPref page)).length ≤
      (accumulatedText toLowerCase now query yearPref page).length ∧
    (∀ content, rankedContent toLowerCase now query yearPref page = some content →
      content.length ≤ 8001 + B) := by
  have hacc : (accumulatedText toLowerCase now query yearPref page).length ≤ MAX + 1 + B := by
    unfold accumulatedText
    refine accumulate_length_le B _ [] ?_ (by simp)
    intro r hr
    obtain ⟨c, hc, hrc⟩ := ranked_text toLowerCase now query yearPref _ r hr
    rw [hrc]
    exact hB c hc
  have hMAX : MAX + 1 + B = 8001 + B := rfl
  rw [hMAX] at hacc
  have hclean := cleanAccumulated_length_le (accumulatedText toLowerCase now query yearPref page)
  refine ⟨hacc, hclean, ?_⟩
  intro content h
  have hc := acceptContent_some toLowerCase _ content h
  rw [hc]
  rcases withMetaFallback_cases
      (cleanAccumulated (accumulatedText toLowerCase now query yearPref page)) page with
    h1 | ⟨h1, h2⟩
  · rw [h1]
    omega
  · rw [h1]
    have hne : norm page.metaContent ≠ [] := by
      intro h0
      rw [h0] at h2
      simp at h2
    obtain ⟨c, hcm, hct⟩ := meta_is_candidate page hne
    have := hB c hcm
    rw [hct] at this
    omega

theorem collapseWhiteSpace_letters : ∀ (inRun : Bool) (s : JsString), (∀ c, c ∈ s → c = 97) →
    collapseWhiteSpace inRun s = s
  | _, [], _ => rfl
  | inRun, c :: s, h => by
    have hc : c = 97 := h c (List.mem_cons_self _ _)
    subst hc
    have ih := collapseWhiteSpace_letters false s (fun x hx => h x (List.mem_cons_of_mem _ hx))
    have hw : isWhiteSpace 97 = false := by decide
    simp only [collapseWhiteSpace, hw, Bool.false_eq_true, ↓reduceIte, ih]

theorem squeezeNewlines_letters : ∀ (kept : Nat) (s : JsString), (∀ c, c ∈ s → c = 97) →
    squeezeNewlines kept s = s
  | _, [], _ => rfl
  | kept, c :: s, h => by
    have hc : c = 97 := h c (List.mem_cons_self _ _)
    subst hc
    have ih := squeezeNewlines_letters 0 s (fun x hx => h x (List.mem_cons_of_mem _ hx))
    have hn : ¬ (97 : Nat) = 10 := by decide
    simp only [squeezeNewlines, hn, ↓reduceIte, ih]

theorem dropWhile_letters (s : JsString) (h : ∀ c, c ∈ s → c = 97) :
    s.dropWhile isWhiteSpace = s := by
  cases s with
  | nil => rfl
  | cons c s =>
    have hc : c = 97 := h c (List.mem_cons_self _ _)
    subst hc
    exact List.dropWhile_cons_of_neg (by decide)

theorem trim_letters (s : JsString) (h : ∀ c, c ∈ s → c = 97) : trim s = s := by
  unfold trim
  rw [dropWhile_letters s h, dropWhile_letters s.reverse (fun c hc => h c (List.mem_reverse.1 hc)),
    List.reverse_reverse]

theorem norm_letters (s : JsString) (h : ∀ c, c ∈ s → c = 97) : norm s = s := by
  unfold norm
  rw [collapseWhiteSpace_letters false s h, squeezeNewlines_letters 0 s h, trim_letters s h]

theorem removeMatches_letters (matchAt : Option Nat → JsString → Option Nat)
    (hm : ∀ prev t, matchAt prev (97 :: t) = none) :
    ∀ (s : JsString) (prev : Option Nat), (∀ c, c ∈ s → c = 97) →
    removeMatches matchAt prev 0 s = s
  | [], _, _ => by simp [removeMatches]
  | c :: s, prev, h => by
    have hc : c = 97 := h c (List.mem_cons_self _ _)
    subst hc
    have ih := removeMatches_letters matchAt hm s (some 97)
      (fun x hx => h x (List.mem_cons_of_mem _ hx))
    simp only [removeMatches, hm, ih]

theorem matchPieces_lit_letter (p : JsString) (ps : List Piece) (t : JsString)
    (hp : startsWithFold [97] (p.take 1) = false) :
    matchPieces (.lit p :: ps) (97 :: t) = none := by
  cases p with
  | nil => simp [startsWithFold] at hp
  | cons d p =>
    simp only [List.take_succ_cons, List.take_zero, startsWithFold, Bool.and_true,
      beq_eq_false_iff_ne, ne_eq] at hp
    have : startsWithFold (97 :: t) (d :: p) = false := by
      simp only [startsWithFold, Bool.and_eq_false_imp, beq_iff_eq]
      intro h
      exact absurd h hp
    simp only [matchPieces, this, Bool.false_eq_true, ↓reduceIte]

theorem matchCallToAction_letter (prev : Option Nat) (t : JsString) :
    matchCallToAction prev (97 :: t) = none := by
  have h1 : js "click here" = 99 :: (js "click here").tail := by decide
  have h2 : js "read more" = 114 :: (js "read more").tail := by decide
  have h3 : js "learn more" = 108 :: (js "learn more").tail := by decide
  have f1 : startsWithFold (97 :: t) (js "click here") = false := by
    rw [h1]; simp [startsWithFold, foldCase]
  have f2 : startsWithFold (97 :: t) (js "read more") = false := by
    rw [h2]; simp [startsWithFold, foldCase]
  have f3 : startsWithFold (97 :: t) (js "learn more") = false := by
    rw [h3]; simp [startsWithFold, foldCase]
  unfold matchCallToAction
  split
  · rfl
  · simp only [List.find?, f1, f2, f3, Bool.false_and, Option.map_none']

theorem matchBullet_letter (prev : Option Nat) (t : JsString) :
    matchBullet prev (97 :: t) = none := by
  unfold matchBullet
  split
  · have hw : isWhiteSpace 97 = false := by decide
    have hm : ¬ (97 : Nat) ∈ [45, 8226] := by decide
    simp only [matchPieces, trySpaces, hw, Bool.false_eq_true, ↓reduceIte, hm]
  · rfl

theorem cleanAccumulated_letters (s : JsString) (h : ∀ c, c ∈ s → c = 97) :
    cleanAccumulated s = s := by
  unfold cleanAccumulated
  rw [norm_letters s h]
  rw [removeMatches_letters _ (fun _ t => matchPieces_lit_letter _ _ t (by decide)) s none h]
  rw [removeMatches_letters _ (fun _ t => matchPieces_lit_letter _ _ t (by decide)) s none h]
  rw [removeMatches_letters _ (fun _ t => matchPieces_lit_letter _ _ t (by decide)) s none h]
  rw [removeMatches_letters _ (fun _ t => matchPieces_lit_letter _ _ t (by decide)) s none h]
  rw [removeMatches_letters _ (fun _ t => matchPieces_lit_letter _ _ t (by decide)) s none h]
  rw [removeMatches_letters _ matchCallToAction_letter s none h]
  rw [removeMatches_letters _ matchBullet_letter s none h]
  exact trim_letters s h

theorem startsWith_mem : ∀ (s p : JsString), startsWith s p = true → ∀ x, x ∈ p → x ∈ s
  | _, [], _, x, hx => by simp at hx
  | [], _ :: _, h, _, _ => by simp [startsWith] at h
  | c :: s, d :: p, h, x, hx => by
    simp only [startsWith, Bool.and_eq_true, beq_iff_eq] at h
    rcases List.mem_cons.1 hx with e | e
    · rw [e, ← h.1]
      exact List.mem_cons_self _ _
    · exact List.mem_cons_of_mem _ (startsWith_mem s p h.2 x e)

theorem includes_mem : ∀ (s p : JsString), includes s p = true → ∀ x, x ∈ p → x ∈ s
  | [], p, h, x, hx => startsWith_mem [] p (by simpa [includes] using h) x hx
  | c :: s, p, h, x, hx => by
    simp only [includes, Bool.or_eq_true] at h
    rcases h with h | h
    · exact startsWith_mem _ p h x hx
    · exact List.mem_cons_of_mem _ (includes_mem s p h x hx)

theorem asciiToLowerCase_letters (s : JsString) (h : ∀ c, c ∈ s → c = 97) :
    asciiToLowerCase s = s := by
  unfold asciiToLowerCase
  conv_rhs => rw [← List.map_id s]
  apply List.map_congr_left
  intro c hc
  rw [h c hc]
  rfl

theorem acceptContent_letters (s : JsString) (h : ∀ c, c ∈ s → c = 97) (hlen : 100 ≤ s.length) :
    acceptContent asciiToLowerCase s = some s := by
  unfold acceptContent
  rw [if_neg (by omega), asciiToLowerCase_letters s h]
  have hany : ¬ BAD.any (fun p => includes s p) = true := by
    intro hh
    obtain ⟨p, hp, hinc⟩ := List.any_eq_true.1 hh
    have hall : ∀ x, x ∈ p → x = 97 := fun x hx => h x (includes_mem s p hinc x hx)
    have hbad : ∀ q, q ∈ BAD → ∃ x, x ∈ q ∧ x ≠ 97 := by decide
    obtain ⟨x, hx, hne⟩ := hbad p hp
    exact hne (hall x hx)
  rw [if_neg hany]

theorem pushIf_empty (page : HtmlPage) (sel : JsString) (priority : Nat)
    (h : page.text sel = []) : pushIf page sel priority = [] := by
  unfold pushIf
  rw [h]
  rfl

theorem candidatesOf_bodyOnly (t : JsString) (ht : norm t = t) (hne : t ≠ []) :
    candidatesOf (bodyOnly t) = [{ sel := js "body", text := t, priority := 1 }] := by
  have hother : ∀ sel, sel ≠ js "body" → (bodyOnly t).text sel = [] := by
    intro sel hsel
    simp only [bodyOnly, hsel, ↓reduceIte]
  have hbody : (bodyOnly t).text (js "body") = t := by
    simp only [bodyOnly, ↓reduceIte]
  have hn : norm ([] : JsString) = [] := rfl
  unfold candidatesOf
  rw [pushIf_empty _ _ _ (hother _ (by decide)), pushIf_empty _ _ _ (hother _ (by decide)),
    pushIf_empty _ _ _ (hother _ (by decide)), pushIf_empty _ _ _ (hother _ (by decide)),
    pushIf_empty _ _ _ (hother _ (by decide)), pushIf_empty _ _ _ (hother _ (by decide)),
    pushIf_empty _ _ _ (hother _ (by decide))]
  rw [hother _ (by decide), hother _ (by decide), hother _ (by decide), hbody, ht]
  have hmeta : (bodyOnly t).metaContent = [] := rfl
  rw [hmeta, hn]
  cases t with
  | nil => exact absurd rfl hne
  | cons a b => rfl

theorem replicate_letters_ne_nil (n : Nat) (hn : 0 < n) : List.replicate n 97 ≠ [] := by
  cases n with
  | zero => omega
  | succ m => simp [List.replicate_succ]

theorem rankedContent_bodyOnly_letters (now : Int) (query : JsVal) (yearPref : Option YearPref)
    (n : Nat) (hn : 100 ≤ n) :
    rankedContent asciiToLowerCase now query yearPref (bodyOnly (List.replicate n 97)) =
      some (List.replicate n 97) := by
  have hall : ∀ c, c ∈ List.replicate n 97 → c = 97 := fun c hc => (List.mem_replicate.1 hc).2
  have hne : List.replicate n 97 ≠ [] := replicate_letters_ne_nil n (by omega)
  have hacc : accumulatedText asciiToLowerCase now query yearPref
      (bodyOnly (List.replicate n 97)) = List.replicate n 97 := by
    unfold accumulatedText
    rw [candidatesOf_bodyOnly _ (norm_letters _ hall) hne]
    simp only [ranked, List.map_cons, List.map_nil, List.insertionSort, List.orderedInsert]
    rw [accumulate, if_neg (by decide)]
    simp [accumulate]
  unfold rankedContent
  rw [hacc, cleanAccumulated_letters _ hall]
  have hw : withMetaFallback (List.replicate n 97) (bodyOnly (List.replicate n 97)) =
      List.replicate n 97 := by
    unfold withMetaFallback
    rw [if_neg (by simp; omega)]
  rw [hw]
  exact acceptContent_letters _ hall (by simp; omega)

/-- C15, counterexample: for a page whose body text is the letter `a` repeated
9000 times (and nothing else), the ranking code returns that text, of 9000
characters, as content. -/
theorem rankedContent_exceeds_max :
    rankedContent asciiToLowerCase 2026 (.str (js "What is X?")) none
      (bodyOnly (List.replicate 9000 97)) = some (List.replicate 9000 97) ∧
    (List.replicate 9000 97).length = 9000 ∧ MAX < 9000 :=
  ⟨rankedContent_bodyOnly_letters 2026 _ none 9000 (by decide), List.length_replicate _ _,
    by decide⟩

/-- Witness of the amended C15 at the page whose body is 9000 letters `a`: the
content has at most `8001 + 9000` characters. -/
theorem rankedContent_length_le_witness :
    (∀ c, c ∈ candidatesOf (bodyOnly (List.replicate 9000 97)) → c.text.length ≤ 9000) ∧
    (∀ content, rankedContent asciiToLowerCase 2026 (.str (js "What is X?")) none
      (bodyOnly (List.replicate 9000 97)) = some content → content.length ≤ 8001 + 9000) :=
  have hc : ∀ c, c ∈ candidatesOf (bodyOnly (List.replicate 9000 97)) →
      c.text.length ≤ 9000 := by
    intro c hc
    rw [candidatesOf_bodyOnly _
      (norm_letters _ (fun c hc => (List.mem_replicate.1 hc).2))
      (replicate_letters_ne_nil 9000 (by decide))] at hc
    rw [List.mem_singleton.1 hc]
    exact le_of_eq (List.length_replicate _ _)
  ⟨hc, (rankedContent_length_le asciiToLowerCase 2026 (.str (js "What is X?")) none
    (bodyOnly (List.replicate 9000 97)) 9000 hc).2.2⟩

/-! ## Recency boost -/

theorem foldl_max_ge (l : List Nat) : ∀ (a : Nat), a ≤ l.foldl max a ∧
    (∀ y, y ∈ l → y ≤ l.foldl max a) ∧ (l.foldl max a = a ∨ l.foldl max a ∈ l) := by
  induction l with
  | nil => intro a; simp
  | cons x xs ih =>
    intro a
    obtain ⟨h1, h2, h3⟩ := ih (max a x)
    simp only [List.foldl_cons, List.mem_cons]
    refine ⟨le_trans (le_max_left a x) h1, ?_, ?_⟩
    · rintro y (hy | hy)
      · rw [hy]; exact le_trans (le_max_right a x) h1
      · exact h2 y hy
    · rcases h3 with h | h
      · rcases max_choice a x with hm | hm
        · left; rw [h, hm]
        · right; left; rw [h, hm]
      · right; right; exact h

theorem matchYear_range (prev : Option Nat) (s : JsString) (y : Nat)
    (h : matchYear prev s = some y) : 1900 ≤ y ∧ y ≤ 2099 := by
  unfold matchYear at h
  split at h
  · cases h
  · split at h
    · rename_i a b c d rest
      split at h
      · rename_i hc
        injection h with h
        simp only [Bool.and_eq_true, Bool.or_eq_true, beq_iff_eq, isDigit,
          decide_eq_true_eq] at hc
        obtain ⟨⟨⟨hab, hc1⟩, hd1⟩, _⟩ := hc
        rcases hab with ⟨ha, hb⟩ | ⟨ha, hb⟩ <;> subst ha <;> subst hb <;> omega
      · cases h
    · cases h

theorem yearsIn_range : ∀ (s : JsString) (prev : Option Nat) (skip : Nat) (y : Nat),
    y ∈ yearsIn prev skip s → 1900 ≤ y ∧ y ≤ 2099
  | [], _, _, y, h => by simp [yearsIn] at h
  | c :: s, prev, skip + 1, y, h => by
    simp only [yearsIn] at h
    exact yearsIn_range s _ _ y h
  | c :: s, prev, 0, y, h => by
    unfold yearsIn at h
    split at h
    · rename_i y0 hy0
      rcases List.mem_cons.1 h with e | e
      · rw [e]
        exact matchYear_range prev (c :: s) y0 hy0
      · exact yearsIn_range s _ _ y e
    · exact yearsIn_range s _ _ y h

/-- C25. For every text and preference, `recencyBoostFromText` returns a value
between 0 and 3: 0 when the text mentions no year `19xx`/`20xx`, and otherwise
`0.5 * (maxYear - base)` clamped to `[0, 3]`, where `maxYear` is the largest year
mentioned and `base` is the `fromYear` of the preference or, without a
preference, the current year minus 5. -/
theorem recencyBoostFromText_clamped (now : Int) (text : JsString) (pref : Option YearPref) :
    0 ≤ recencyBoostFromText now text pref ∧
    recencyBoostFromText now text pref ≤ 3 ∧
    (yearsIn none 0 text = [] → recencyBoostFromText now text pref = 0) ∧
    (yearsIn none 0 text ≠ [] →
      recencyBoostFromText now text pref =
        max 0 (min 3 ((1 / 2 : ℚ) *
          ((((yearsIn none 0 text).foldl max 0 : Nat) : ℚ) - (baseYear now pref : ℚ)))) ∧
      (yearsIn none 0 text).foldl max 0 ∈ yearsIn none 0 text ∧
      (∀ y, y ∈ yearsIn none 0 text → y ≤ (yearsIn none 0 text).foldl max 0)) ∧
    (∀ y, y ∈ yearsIn none 0 text → 1900 ≤ y ∧ y ≤ 2099) ∧
    (pref = none → baseYear now pref = now - 5) ∧
    (∀ p, pref = some p → p.fromYear ≠ 0 → baseYear now pref = p.fromYear) := by
  refine ⟨?_, ?_, ?_, ?_, yearsIn_range text none 0, ?_, ?_⟩
  · unfold recencyBoostFromText
    split
    · exact le_refl _
    · exact le_max_left _ _
  · unfold recencyBoostFromText
    split
    · norm_num
    · exact max_le (by norm_num) (min_le_left _ _)
  · intro h
    unfold recencyBoostFromText
    rw [h]
    rfl
  · intro h
    have hlen : ¬ (yearsIn none 0 text).length = 0 := fun h0 => h (List.length_eq_zero.1 h0)
    obtain ⟨_, h2, h3⟩ := foldl_max_ge (yearsIn none 0 text) 0
    refine ⟨?_, ?_, h2⟩
    · unfold recencyBoostFromText
      rw [if_neg hlen, mul_comm]
    · rcases h3 with h0 | h0
      · cases hy : yearsIn none 0 text with
        | nil => exact absurd hy h
        | cons y ys =>
          have hy1 := (yearsIn_range text none 0 y (by rw [hy]; exact List.mem_cons_self _ _)).1
          have hy2 := h2 y (by rw [hy]; exact List.mem_cons_self _ _)
          rw [h0] at hy2
          omega
      · exact h0
  · intro h
    subst h
    rfl
  · intro p h hp
    subst h
    simp only [baseYear, hp, ne_eq, not_false_eq_true, ↓reduceIte]

/-! ## Date restriction of a query -/

/-- C23: for every query text, the value of `dateRestrict` computed by
`buildDateRestrictFromPref(extractYearPrefFromText(query))` is `y2` when no
preference is detected, and otherwise `y` followed by an integer between 1 and
10. -/
theorem buildDateRestrictFromPref_window (now : Int) (text : JsString) :
    (extractYearPrefFromText now text = none →
      buildDateRestrictFromPref (extractYearPrefFromText now text) = js "y2") ∧
    (extractYearPrefFromText now text ≠ none →
      ∃ k : Int, 1 ≤ k ∧ k ≤ 10 ∧
        buildDateRestrictFromPref (extractYearPrefFromText now text)
          = js "y" ++ js (toString k)) := by
  constructor
  · intro h
    rw [h]
    rfl
  · intro h
    cases hp : extractYearPrefFromText now text with
    | none => exact absurd hp h
    | some p =>
      refine ⟨max 1 (min 10 (p.toYear - p.fromYear + 1)), le_max_left _ _, ?_, rfl⟩
      exact max_le (by norm_num) (min_le_left _ _)

/-- The preference read from a query with the phrasing `last 3 years` and no
year. -/
theorem extractYearPrefFromText_last_three (now : Int) :
    extractYearPrefFromText now (js "AI trends last 3 years")
      = some { fromYear := now - 3, toYear := now } := by
  have h1 : firstYearRange none (js "AI trends last 3 years") = none := by decide
  have h2 : yearsIn none 0 (js "AI trends last 3 years") = [] := by decide
  have h3 : firstLastYears none (js "AI trends last 3 years") = some 3 := by decide
  simp only [extractYearPrefFromText, h1, h2, h3]
  rfl

/-- C24: for the query `AI trends last 3 years`, which has the phrasing
`last N years` with N = 3 and no four-digit year, the code computes the date
restriction `y4`, a window of four years instead of three, whatever the current
year is. -/
theorem buildDateRestrictFromPref_last_three_years (now : Int) :
    buildDateRestrictFromPref
        (extractYearPrefFromText now (js "AI trends last 3 years")) = js "y4" ∧
      js "y4" ≠ js "y" ++ js (toString (min 3 10)) := by
  constructor
  · rw [extractYearPrefFromText_last_three]
    have h : (now - (now - 3) + 1 : Int) = 4 := by ring
    simp only [buildDateRestrictFromPref, h]
    rfl
  · decide

/-! ## Failures of the search backend and of a page -/

/-- C21: when the request to the search backend fails with message `m`,
`googleSearchAndFetch` returns normally: it resolves to the empty list, and the
events it sends are `search-start`, then `search-error` with `m`, then
`search-done` with count 0, and nothing else. -/
theorem googleSearchAndFetchRun_backend_failure (toLowerCase : JsString → JsString)
    (hostname : JsString → Option JsString) (TOP_SOURCES : Nat) (now : Int)
    (query category : JsVal) (m : JsString) (world : Nat → PageWorld) :
    (googleSearchAndFetchRun toLowerCase hostname TOP_SOURCES now query category
        (.error m) world).results = [] ∧
      (googleSearchAndFetchRun toLowerCase hostname TOP_SOURCES now query category
          (.error m) world).events
        = [.searchStart
              (searchQueryOf (cleanQueryOf query)
                (extractYearPrefFromText now (cleanQueryOf query)))
              category
              (buildDateRestrictFromPref (extractYearPrefFromText now (cleanQueryOf query))),
            .searchError
              (searchQueryOf (cleanQueryOf query)
                (extractYearPrefFromText now (cleanQueryOf query))) m,
            .searchDone
              (searchQueryOf (cleanQueryOf query)
                (extractYearPrefFromText now (cleanQueryOf query))) 0] :=
  ⟨rfl, rfl⟩

/-- C22: when the request or the extraction for one retained result fails, the
callback of `pages.map` returns normally: it resolves to a source with the link
and title of the result and its trimmed snippet as content when that snippet is
not empty, and to `null` otherwise. -/
theorem fetchPage_error_falls_back_to_snippet (toLowerCase : JsString → JsString)
    (now : Int) (query : JsVal) (yearPref : Option YearPref) (item : SearchItem)
    (world : PageWorld) (m : JsString)
    (hfail : (if endsWith (toLowerCase item.link) (js ".pdf") then world.pdf = .error m
      else world.html = .error m)) :
    (trim item.snippet ≠ [] →
      fetchPage toLowerCase now query yearPref item world
        = some { url := item.link, title := item.title, content := trim item.snippet }) ∧
    (trim item.snippet = [] →
      fetchPage toLowerCase now query yearPref item world = none) := by
  have hfb : fetchPage toLowerCase now query yearPref item world = snippetFallback item := by
    unfold fetchPage
    by_cases hpdf : endsWith (toLowerCase item.link) (js ".pdf") = true
    · rw [if_pos hpdf] at hfail
      rw [if_pos hpdf, hfail]
    · rw [if_neg hpdf] at hfail
      rw [if_neg hpdf, hfail]
  rw [hfb]
  constructor
  · intro h
    cases hs : trim item.snippet with
    | nil => exact absurd hs h
    | cons c s => simp [snippetFallback, hs]
  · intro h
    simp [snippetFallback, h]

/-- Witness of C22: a page whose requests fail with `timeout`, for a result with
a snippet. -/
theorem fetchPage_error_falls_back_to_snippet_witness :
    (if endsWith (asciiToLowerCase sampleItem.link) (js ".pdf") then
        failedWorld.pdf = .error (js "timeout")
      else failedWorld.html = .error (js "timeout")) ∧
    fetchPage asciiToLowerCase 2026 (.str (js "a")) none sampleItem failedWorld
      = some { url := sampleItem.link, title := sampleItem.title,
               content := js "A snippet." } ∧
    fetchPage asciiToLowerCase 2026 (.str (js "a")) none bareItem failedWorld = none :=
  ⟨by rw [if_neg (by decide)]; rfl,
    (fetchPage_error_falls_back_to_snippet asciiToLowerCase 2026 (.str (js "a")) none
      sampleItem failedWorld (js "timeout") (by rw [if_neg (by decide)]; rfl)).1 (by decide),
    (fetchPage_error_falls_back_to_snippet asciiToLowerCase 2026 (.str (js "a")) none
      bareItem failedWorld (js "timeout") (by rw [if_neg (by decide)]; rfl)).2 (by decide)⟩

/-! ## The number of sub-questions processed at a time -/

theorem step_cursors_length (toLowerCase : JsString → JsString) (env : Env)
    (CONCURRENCY : Nat) (flat : List SubQuestion) (a : Action) (st st1 : ExecState)
    (h : step toLowerCase env CONCURRENCY flat a st = some st1) :
    st1.cursors.length = st.cursors.length := by
  cases a with
  | workerDone c =>
    simp only [step] at h
    cases hc : st.cursors[c]? with
    | none => simp [hc] at h
    | some i =>
      simp only [hc] at h
      by_cases hi : i < flat.length
      · rw [if_pos hi] at h
        injection h with h
        rw [← h]
        simp
      · rw [if_neg hi] at h
        exact absurd h (by simp)
  | yieldNext =>
    simp only [step] at h
    by_cases hy : st.yielded.length < flat.length
    · rw [if_pos hy] at h
      cases hq : st.queue with
      | nil => simp [hq] at h
      | cons a rest =>
        simp only [hq] at h
        injection h with h
        rw [← h]
    · rw [if_neg hy] at h
      exact absurd h (by simp)

theorem run_cursors_length (toLowerCase : JsString → JsString) (env : Env)
    (CONCURRENCY : Nat) (flat : List SubQuestion) :
    ∀ (acts : List Action) (st st1 : ExecState),
      run toLowerCase env CONCURRENCY flat acts st = some st1 →
      st1.cursors.length = st.cursors.length := by
  intro acts
  induction acts with
  | nil =>
    intro st st1 h
    simp only [run] at h
    injection h with h
    rw [h]
  | cons a as ih =>
    intro st st1 h
    simp only [run] at h
    cases hs : step toLowerCase env CONCURRENCY flat a st with
    | none => simp [hs] at h
    | some st2 =>
      simp only [hs] at h
      rw [ih st2 st1 h, step_cursors_length toLowerCase env CONCURRENCY flat a st st2 hs]

/-- C26: in every state reached by a run of `executorGemini` with `CONCURRENCY`
pool members, at most `CONCURRENCY` sub-questions are being processed. -/
theorem executorGemini_in_flight_le (toLowerCase : JsString → JsString) (env : Env)
    (CONCURRENCY : Nat) (subQuestions : JsVal) (flat : List SubQuestion)
    (hnorm : normalizeSubQuestions subQuestions = .ok flat) :
    ∀ acts st, executorGemini toLowerCase env CONCURRENCY subQuestions acts = .ok (some st) →
      (inFlight flat st).length ≤ CONCURRENCY := by
  intro acts st h
  simp only [executorGemini, hnorm] at h
  have hrun : run toLowerCase env CONCURRENCY flat acts (initState CONCURRENCY) = some st := by
    injection h
  have hlen := run_cursors_length toLowerCase env CONCURRENCY flat acts _ st hrun
  simp only [initState, List.length_range] at hlen
  rw [← hlen]
  exact List.length_filter_le _ _

/-- Witness of C26: five sub-questions and two pool members; two sub-questions
are being processed when the run starts, and never more than two. -/
theorem executorGemini_in_flight_le_witness :
    normalizeSubQuestions fiveQuestions = .ok fiveQuestionsFlat ∧
    (inFlight fiveQuestionsFlat (initState 2)).length = 2 ∧
    (∀ acts st, executorGemini asciiToLowerCase quietEnv 2 fiveQuestions acts = .ok (some st) →
      (inFlight fiveQuestionsFlat st).length ≤ 2) :=
  ⟨rfl, by decide,
    executorGemini_in_flight_le asciiToLowerCase quietEnv 2 fiveQuestions fiveQuestionsFlat rfl⟩

/-! ## The source list of the final event -/

theorem indexOfFrom_append (url : JsString) (rest : List JsString) :
    ∀ (pre : List JsString) (index : Nat), url ∉ pre →
      indexOfFrom url index (pre ++ url :: rest) = ((index + pre.length : Nat) : Int) := by
  intro pre
  induction pre with
  | nil =>
    intro index _
    simp [indexOfFrom]
  | cons p pre ih =>
    intro index h
    have hp : p ≠ url := fun e => h (by simp [e])
    have hpre : url ∉ pre := fun e => h (List.mem_cons_of_mem _ e)
    show indexOfFrom url index (p :: (pre ++ url :: rest)) = _
    rw [indexOfFrom, if_neg hp, ih (index + 1) hpre, List.length_cons]
    push_cast
    omega

theorem keepFirstOccurrences_index (self : List JsString) :
    ∀ (rest : List JsString) (index : Nat), ∀ u ∈ keepFirstOccurrences self index rest,
      u ≠ [] ∧ u ∈ rest ∧ (index : Int) ≤ indexOfFrom u 0 self := by
  intro rest
  induction rest with
  | nil =>
    intro index u hu
    simp [keepFirstOccurrences] at hu
  | cons url rest ih =>
    intro index u hu
    simp only [keepFirstOccurrences] at hu
    by_cases hk : (!url.isEmpty && decide (indexOfFrom url 0 self = (index : Int))) = true
    · rw [if_pos hk] at hu
      simp only [Bool.and_eq_true, Bool.not_eq_true', decide_eq_true_eq] at hk
      rcases List.mem_cons.1 hu with h | h
      · subst h
        refine ⟨?_, List.mem_cons_self _ _, le_of_eq hk.2.symm⟩
        intro e
        rw [e] at hk
        simp at hk
      · obtain ⟨h1, h2, h3⟩ := ih (index + 1) u h
        exact ⟨h1, List.mem_cons_of_mem _ h2, by push_cast at h3; omega⟩
    · rw [if_neg hk] at hu
      obtain ⟨h1, h2, h3⟩ := ih (index + 1) u hu
      exact ⟨h1, List.mem_cons_of_mem _ h2, by push_cast at h3; omega⟩

theorem keepFirstOccurrences_pairwise (self : List JsString) :
    ∀ (rest : List JsString) (index : Nat),
      (keepFirstOccurrences self index rest).Pairwise
        (fun u v => indexOfFrom u 0 self < indexOfFrom v 0 self) := by
  intro rest
  induction rest with
  | nil =>
    intro index
    simp [keepFirstOccurrences]
  | cons url rest ih =>
    intro index
    simp only [keepFirstOccurrences]
    by_cases hk : (!url.isEmpty && decide (indexOfFrom url 0 self = (index : Int))) = true
    · rw [if_pos hk]
      simp only [Bool.and_eq_true, Bool.not_eq_true', decide_eq_true_eq] at hk
      refine List.pairwise_cons.2 ⟨?_, ih (index + 1)⟩
      intro v hv
      have h3 := (keepFirstOccurrences_index self rest (index + 1) v hv).2.2
      rw [hk.2]
      push_cast at h3
      omega
    · rw [if_neg hk]
      exact ih (index + 1)

theorem keepFirstOccurrences_complete (self : List JsString) :
    ∀ (rest pre : List JsString), self = pre ++ rest →
      ∀ u ∈ rest, u ≠ [] → u ∉ pre → u ∈ keepFirstOccurrences self pre.length rest := by
  intro rest
  induction rest with
  | nil =>
    intro pre _ u hu
    simp at hu
  | cons url rest ih =>
    intro pre hself u hu hne hpre
    have hself2 : self = (pre ++ [url]) ++ rest := by
      rw [hself, List.append_assoc]
      rfl
    have hrec := ih (pre ++ [url]) hself2 u
    rw [List.length_append, List.length_singleton] at hrec
    simp only [keepFirstOccurrences]
    by_cases hk : (!url.isEmpty && decide (indexOfFrom url 0 self = (pre.length : Int))) = true
    · rw [if_pos hk]
      by_cases hu2 : u = url
      · rw [hu2]
        exact List.mem_cons_self _ _
      · refine List.mem_cons_of_mem _ (hrec ?_ hne ?_)
        · rcases List.mem_cons.1 hu with h | h
          · exact absurd h hu2
          · exact h
        · intro h
          rcases List.mem_append.1 h with h | h
          · exact hpre h
          · exact hu2 (List.mem_singleton.1 h)
    · rw [if_neg hk]
      have hu2 : u ≠ url := by
        intro e
        apply hk
        rw [← e]
        have hidx := indexOfFrom_append u rest pre 0 hpre
        rw [e, ← hself, ← e] at hidx
        simp only [Bool.and_eq_true, Bool.not_eq_true', decide_eq_true_eq]
        refine ⟨?_, by rw [hidx]; simp⟩
        cases u with
        | nil => exact absurd rfl hne
        | cons c s => rfl
      refine hrec ?_ hne ?_
      · rcases List.mem_cons.1 hu with h | h
        · exact absurd h hu2
        · exact h
      · intro h
        rcases List.mem_append.1 h with h | h
        · exact hpre h
        · exact hu2 (List.mem_singleton.1 h)

theorem allSourceUrls_eq (answers : List ResearchAnswer) :
    allSourceUrls answers = answers.flatMap (fun a => a.sources.map (fun s => s.url)) := by
  unfold allSourceUrls
  induction answers with
  | nil => rfl
  | cons a rest ih =>
    by_cases h : a.sources.length > 0
    · rw [List.filter_cons_of_pos (by simpa using h)]
      simp only [List.flatMap_cons, ih]
    · have hnil : a.sources = [] := List.length_eq_zero.1 (by omega)
      rw [List.filter_cons_of_neg (by simpa using h)]
      simp only [List.flatMap_cons, ih, hnil, List.map_nil, List.nil_append]

/-- C27: for every list of answers, the source list of the event `completed`
holds only non-empty URLs taken from the sources of the answers, holds no URL
twice, lists them by increasing position of their first occurrence among the
URLs of all sources, has at most 20 entries, and leaves out a non-empty URL of
the sources only when 20 URLs that occur earlier are listed. -/
theorem sourceUrls_unique_first_twenty (answers : List ResearchAnswer) :
    allSourceUrls answers = answers.flatMap (fun a => a.sources.map (fun s => s.url)) ∧
    (∀ u ∈ sourceUrls answers, u ≠ [] ∧ u ∈ allSourceUrls answers) ∧
    (sourceUrls answers).Nodup ∧
    (sourceUrls answers).Pairwise
      (fun u v => indexOfFrom u 0 (allSourceUrls answers)
        < indexOfFrom v 0 (allSourceUrls answers)) ∧
    (sourceUrls answers).length ≤ 20 ∧
    (∀ u ∈ allSourceUrls answers, u ≠ [] → u ∉ sourceUrls answers →
      (sourceUrls answers).length = 20 ∧
      ∀ v ∈ sourceUrls answers,
        indexOfFrom v 0 (allSourceUrls answers) < indexOfFrom u 0 (allSourceUrls answers)) := by
  have hpw := keepFirstOccurrences_pairwise (allSourceUrls answers) (allSourceUrls answers) 0
  have hpw2 : (sourceUrls answers).Pairwise
      (fun u v => indexOfFrom u 0 (allSourceUrls answers)
        < indexOfFrom v 0 (allSourceUrls answers)) :=
    hpw.sublist (List.take_sublist _ _)
  refine ⟨allSourceUrls_eq answers, ?_, ?_, hpw2, ?_, ?_⟩
  · intro u hu
    have h := keepFirstOccurrences_index (allSourceUrls answers) (allSourceUrls answers) 0 u
      (List.mem_of_mem_take hu)
    exact ⟨h.1, h.2.1⟩
  · refine hpw2.imp ?_
    intro u v h e
    rw [e] at h
    exact lt_irrefl _ h
  · exact List.length_take_le _ _
  · intro u hu hne hnot
    have hk : u ∈ keepFirstOccurrences (allSourceUrls answers) 0 (allSourceUrls answers) :=
      keepFirstOccurrences_complete (allSourceUrls answers) (allSourceUrls answers) [] rfl
        u hu hne (List.not_mem_nil u)
    rw [← List.take_append_drop 20
      (keepFirstOccurrences (allSourceUrls answers) 0 (allSourceUrls answers))] at hk hpw
    have hdrop : u ∈ (keepFirstOccurrences (allSourceUrls answers) 0
        (allSourceUrls answers)).drop 20 := by
      rcases List.mem_append.1 hk with h | h
      · exact absurd h hnot
      · exact h
    constructor
    · unfold sourceUrls
      rw [List.length_take]
      have hlen : 20 < (keepFirstOccurrences (allSourceUrls answers) 0
          (allSourceUrls answers)).length := by
        by_contra hc
        rw [List.drop_of_length_le (by omega)] at hdrop
        exact List.not_mem_nil _ hdrop
      omega
    · intro v hv
      exact (List.pairwise_append.1 hpw).2.2 v hv u hdrop

/-! ## Validation of the topic -/

theorem topic_condition (topic : JsVal) :
    topicRejected topic = true ↔ ¬ ∃ s, topic = .str s ∧ 3 ≤ (trim s).length := by
  unfold topicRejected
  cases topic with
  | str s =>
    have hlen : (trim s).length ≤ s.length := trim_length_le s
    cases s with
    | nil =>
      constructor
      · rintro _ ⟨s, hs, h3⟩
        injection hs with hs
        rw [← hs] at h3
        have h0 : (trim ([] : JsString)).length ≤ 0 := trim_length_le []
        omega
      · intro _
        rfl
    | cons c r =>
      simp only [JsVal.truthy, JsVal.typeof, List.isEmpty_cons, Bool.not_false, Bool.not_true,
        bne_self_eq_false, Bool.false_or, decide_eq_true_eq]
      constructor
      · rintro h ⟨s, hs, h3⟩
        injection hs with hs
        rw [← hs] at h3
        omega
      · intro h
        by_contra hc
        exact h ⟨c :: r, rfl, by omega⟩
  | undefined => simp [JsVal.truthy]
  | null => simp [JsVal.truthy]
  | bool b => cases b <;> simp [JsVal.truthy, JsVal.typeof]
  | num n =>
    by_cases h : n.val = 0
    · simp [JsVal.truthy, h]
    · simp [JsVal.truthy, JsVal.typeof, h]
  | arr a => simp [JsVal.truthy, JsVal.typeof]
  | obj o => simp [JsVal.truthy, JsVal.typeof]

theorem model_condition (model : JsVal) :
    (!model.truthy || model.typeof != .string) = true ↔ ¬ ∃ m, model = .str m ∧ m ≠ [] := by
  cases model with
  | str s =>
    cases s with
    | nil => simp [JsVal.truthy]
    | cons c r => simp [JsVal.truthy, JsVal.typeof]
  | undefined => simp [JsVal.truthy]
  | null => simp [JsVal.truthy]
  | bool b => cases b <;> simp [JsVal.truthy, JsVal.typeof]
  | num n =>
    by_cases h : n.val = 0
    · simp [JsVal.truthy, h]
    · simp [JsVal.truthy, JsVal.typeof, h]
  | arr a => simp [JsVal.truthy, JsVal.typeof]
  | obj o => simp [JsVal.truthy, JsVal.typeof]

/-- C28, counterexample: the topic `abc` is a string with three characters after
trimming, the route accepts it, and `deepsearch` called without a model throws
before any research step. -/
theorem deepsearch_rejects_valid_topic_without_model :
    (trim (js "abc")).length = 3 ∧
    streamRoute (.str (js "abc")) = .started (.str (js "abc")) ∧
    ∃ e, deepsearch (.str (js "abc")) .undefined = .error e :=
  ⟨by decide, rfl, _, rfl⟩

/-- C28, amended: the route `/stream` answers with an error event, before any
research step, exactly when the topic is not a string with at least 3 code units
after trimming, and otherwise starts `deepsearchStream` with the topic;
`deepsearch` throws before any research step exactly when the topic is such or
the model is not a non-empty string, and otherwise runs with the trimmed
topic. -/
theorem deepsearch_validation (topic model : JsVal) :
    ((∃ e, streamRoute topic = .errorEvent e) ↔
      ¬ ∃ s, topic = .str s ∧ 3 ≤ (trim s).length) ∧
    ((∃ e, deepsearch topic model = .error e) ↔
      (¬ ∃ s, topic = .str s ∧ 3 ≤ (trim s).length) ∨ ¬ ∃ m, model = .str m ∧ m ≠ []) ∧
    (∀ s, topic = .str s → 3 ≤ (trim s).length →
      streamRoute topic = .started topic ∧
      ((∃ m, model = .str m ∧ m ≠ []) → deepsearch topic model = .ok (trim s))) := by
  have ht := topic_condition topic
  have hm := model_condition model
  refine ⟨?_, ?_, ?_⟩
  · unfold streamRoute
    by_cases h : topicRejected topic = true
    · rw [if_pos h]
      exact ⟨fun _ => ht.1 h, fun _ => ⟨_, rfl⟩⟩
    · rw [if_neg h]
      constructor
      · rintro ⟨e, he⟩
        exact absurd he (by simp)
      · intro h2
        exact absurd (ht.2 h2) h
  · unfold deepsearch
    by_cases h : topicRejected topic = true
    · rw [if_pos h]
      exact ⟨fun _ => Or.inl (ht.1 h), fun _ => ⟨_, rfl⟩⟩
    · rw [if_neg h]
      by_cases h2 : (!model.truthy || model.typeof != .string) = true
      · rw [if_pos h2]
        exact ⟨fun _ => Or.inr (hm.1 h2), fun _ => ⟨_, rfl⟩⟩
      · rw [if_neg h2]
        constructor
        · rintro ⟨e, he⟩
          cases topic <;> simp at he
        · rintro (h3 | h3)
          · exact absurd (ht.2 h3) h
          · exact absurd (hm.2 h3) h2
  · intro s hs h3
    have hnot : ¬ (topicRejected topic = true) := fun h => ht.1 h ⟨s, hs, h3⟩
    constructor
    · unfold streamRoute
      rw [if_neg hnot]
    · intro hmodel
      have hnot2 : ¬ ((!model.truthy || model.typeof != .string) = true) :=
        fun h => hm.1 h hmodel
      unfold deepsearch
      rw [if_neg hnot, if_neg hnot2, hs]

/-! ## File names of the reports -/

theorem replaceNonWordRuns_word : ∀ (s : JsString) (inRun : Bool),
    ∀ c ∈ replaceNonWordRuns inRun s, isWordChar c = true := by
  intro s
  induction s with
  | nil =>
    intro inRun c hc
    simp [replaceNonWordRuns] at hc
  | cons a s ih =>
    intro inRun c hc
    simp only [replaceNonWordRuns] at hc
    by_cases ha : isWordChar a = true
    · rw [if_pos ha] at hc
      rcases List.mem_cons.1 hc with h | h
      · rw [h]
        exact ha
      · exact ih false c h
    · rw [if_neg ha] at hc
      cases inRun with
      | true => exact ih true c (by simpa using hc)
      | false =>
        simp only [Bool.false_eq_true, ↓reduceIte] at hc
        rcases List.mem_cons.1 hc with h | h
        · rw [h]
          decide
        · exact ih true c h

theorem collapseUnderscores_subset : ∀ (s : JsString) (inRun : Bool),
    ∀ c ∈ collapseUnderscores inRun s, c ∈ s := by
  intro s
  induction s with
  | nil =>
    intro inRun c hc
    simp [collapseUnderscores] at hc
  | cons a s ih =>
    intro inRun c hc
    simp only [collapseUnderscores] at hc
    by_cases ha : (a == 95) = true
    · rw [if_pos ha] at hc
      have ha2 : a = 95 := by simpa using ha
      cases inRun with
      | true => exact List.mem_cons_of_mem _ (ih true c (by simpa using hc))
      | false =>
        simp only [Bool.false_eq_true, ↓reduceIte] at hc
        rcases List.mem_cons.1 hc with h | h
        · rw [h, ha2]
          exact List.mem_cons_self _ _
        · exact List.mem_cons_of_mem _ (ih true c h)
    · rw [if_neg ha] at hc
      rcases List.mem_cons.1 hc with h | h
      · rw [h]
        exact List.mem_cons_self _ _
      · exact List.mem_cons_of_mem _ (ih false c h)

theorem collapseUnderscores_chain : ∀ (s : JsString) (inRun : Bool),
    (collapseUnderscores inRun s).Chain' (fun a b => ¬ (a = 95 ∧ b = 95)) ∧
      (inRun = true → (collapseUnderscores inRun s).head? ≠ some 95) := by
  intro s
  induction s with
  | nil =>
    intro inRun
    simp [collapseUnderscores]
  | cons a s ih =>
    intro inRun
    simp only [collapseUnderscores]
    by_cases ha : (a == 95) = true
    · rw [if_pos ha]
      cases inRun with
      | true =>
        simp only [↓reduceIte]
        exact ⟨(ih true).1, fun _ => (ih true).2 rfl⟩
      | false =>
        simp only [Bool.false_eq_true, ↓reduceIte]
        refine ⟨List.chain'_cons'.2 ⟨?_, (ih true).1⟩, fun h => absurd h (by simp)⟩
        intro y hy hand
        exact (ih true).2 rfl (by rw [Option.mem_def.1 hy, hand.2])
    · rw [if_neg ha]
      have ha2 : a ≠ 95 := by simpa using ha
      refine ⟨List.chain'_cons'.2 ⟨?_, (ih false).1⟩, ?_⟩
      · intro y _ hand
        exact ha2 hand.1
      · intro _ h
        simp only [List.head?_cons, Option.some.injEq] at h
        exact ha2 h

theorem collapseUnderscores_head (s : JsString) (h : s.head? ≠ some 95) :
    (collapseUnderscores false s).head? ≠ some 95 := by
  cases s with
  | nil => simp [collapseUnderscores]
  | cons a s =>
    have ha : a ≠ 95 := by simpa using h
    have ha2 : ¬ ((a == 95) = true) := by simpa using ha
    simp only [collapseUnderscores, if_neg ha2, List.head?_cons]
    simpa using ha

theorem collapseUnderscores_concat (c : Nat) (hc : c ≠ 95) : ∀ (s : JsString) (inRun : Bool),
    collapseUnderscores inRun (s ++ [c]) = collapseUnderscores inRun s ++ [c] := by
  intro s
  induction s with
  | nil =>
    intro inRun
    have hc2 : ¬ ((c == 95) = true) := by simpa using hc
    simp [collapseUnderscores, hc2]
  | cons a s ih =>
    intro inRun
    have key : ∀ (b : Bool) (x : JsString), collapseUnderscores b (a :: x)
        = (if a == 95 then
            (if b then collapseUnderscores true x else 95 :: collapseUnderscores true x)
          else a :: collapseUnderscores false x) := fun _ _ => rfl
    rw [List.cons_append, key, key, ih true, ih false]
    by_cases ha : (a == 95) = true
    · rw [if_pos ha, if_pos ha]
      cases inRun with
      | true => simp only [↓reduceIte]
      | false => simp only [Bool.false_eq_true, ↓reduceIte, List.cons_append]
    · rw [if_neg ha, if_neg ha, List.cons_append]

theorem collapseUnderscores_last (s : JsString) (inRun : Bool) (h : s.getLast? ≠ some 95) :
    (collapseUnderscores inRun s).getLast? ≠ some 95 := by
  rcases List.eq_nil_or_concat s with hs | ⟨l, c, hs⟩
  · rw [hs]
    simp [collapseUnderscores]
  · rw [hs, List.concat_eq_append] at h ⊢
    have hc : c ≠ 95 := by simpa using h
    rw [collapseUnderscores_concat c hc]
    simpa using hc

theorem stripUnderscores_initial (s : JsString) :
    stripUnderscores s <+: s.dropWhile (fun c => c == 95) :=
  List.rdropWhile_prefix _ _

theorem stripUnderscores_subset (s : JsString) : ∀ c ∈ stripUnderscores s, c ∈ s := by
  intro c hc
  exact (List.dropWhile_suffix _).subset ((stripUnderscores_initial s).subset hc)

theorem head?_of_initial {a b : JsString} (h : a <+: b) (hb : b.head? ≠ some 95) :
    a.head? ≠ some 95 := by
  obtain ⟨z, hz⟩ := h
  cases a with
  | nil => simp
  | cons x a =>
    rw [← hz] at hb
    simpa using hb

theorem dropWhile_head (s : JsString) : (s.dropWhile (fun c => c == 95)).head? ≠ some 95 := by
  have h := List.head?_dropWhile_not (fun c => c == 95) s
  intro e
  rw [e] at h
  simp at h

theorem stripUnderscores_head (s : JsString) : (stripUnderscores s).head? ≠ some 95 :=
  head?_of_initial (stripUnderscores_initial s) (dropWhile_head s)

theorem stripUnderscores_last (s : JsString) : (stripUnderscores s).getLast? ≠ some 95 := by
  intro e
  have hne : stripUnderscores s ≠ [] := by
    intro h
    rw [h] at e
    simp at e
  have h := List.rdropWhile_last_not (fun c => c == 95) (s.dropWhile (fun c => c == 95)) hne
  rw [List.getLast?_eq_getLast _ hne] at e
  injection e with e
  apply h
  unfold stripUnderscores at e
  simp [e]

theorem rdropWhile_split (p : Nat → Bool) (l : JsString) :
    ∃ q, l = l.rdropWhile p ++ q ∧ ∀ x ∈ q, p x = true := by
  refine ⟨(l.reverse.takeWhile p).reverse, ?_, ?_⟩
  · unfold List.rdropWhile
    rw [← List.reverse_append, List.takeWhile_append_dropWhile, List.reverse_reverse]
  · intro x hx
    exact List.mem_takeWhile_imp (List.mem_reverse.1 hx)

theorem truncateName_spec (t : JsString) (hhead : t.head? ≠ some 95)
    (hlast : t.getLast? ≠ some 95)
    (hchain : t.Chain' (fun a b => ¬ (a = 95 ∧ b = 95))) :
    (truncateName t).length ≤ 60 ∧ (∀ c ∈ truncateName t, c ∈ t) ∧
    (truncateName t).head? ≠ some 95 ∧ (truncateName t).getLast? ≠ some 95 ∧
    (truncateName t).Chain' (fun a b => ¬ (a = 95 ∧ b = 95)) := by
  unfold truncateName
  by_cases hlen : t.length > 60
  · rw [if_pos hlen]
    have hidx : lastIndexOf 95 t 60
        = (((t.take 61).rdropWhile (fun x => x != 95)).length : Int) - 1 := rfl
    have hpre : (t.take 61).rdropWhile (fun x => x != 95) <+: t :=
      ( List.rdropWhile_prefix _ _).trans ( List.take_prefix _ _)
    have hplen : ((t.take 61).rdropWhile (fun x => x != 95)).length ≤ 61 :=
      le_trans ( List.rdropWhile_prefix _ _).length_le (List.length_take_le _ _)
    obtain ⟨q, hq, hqall⟩ := rdropWhile_split (fun x => x != 95) (t.take 61)
    generalize hP : (t.take 61).rdropWhile (fun x => x != 95) = P at hidx hpre hplen hq
    have hPlast : ∀ hne : P ≠ [], P.getLast hne = 95 := by
      intro hne
      have h := List.rdropWhile_last_not (fun x => x != 95) (t.take 61) (by rw [hP]; exact hne)
      simp only [hP] at h
      simpa using h
    refine ⟨?_, fun c hc => List.mem_of_mem_take hc, ?_, ?_, ?_⟩
    · refine le_trans (List.length_take_le _ _) ?_
      by_cases hpos : lastIndexOf 95 t 60 > 0
      · rw [if_pos hpos]
        omega
      · rw [if_neg hpos]
    · exact head?_of_initial ( List.take_prefix _ _) hhead
    · by_cases hpos : lastIndexOf 95 t 60 > 0
      · rw [if_pos hpos]
        have hne : P ≠ [] := by
          intro h
          rw [h] at hidx
          simp at hidx
          omega
        obtain ⟨r, hr⟩ : ∃ r, P = r ++ [95] :=
          ⟨P.dropLast, (List.dropLast_append_getLast hne).symm.trans (by rw [hPlast hne])⟩
        subst hr
        have hn : (lastIndexOf 95 t 60).toNat = r.length := by
          rw [List.length_append, List.length_singleton] at hidx
          omega
        have htake : t.take (lastIndexOf 95 t 60).toNat = r := by
          obtain ⟨z, hz⟩ := hpre
          rw [hn, ← hz, List.append_assoc, List.take_left]
        rw [htake]
        have hc2 : (r ++ [95]).Chain' (fun a b => ¬ (a = 95 ∧ b = 95)) :=
          List.Chain'.prefix hchain hpre
        intro e
        have := (List.chain'_append.1 hc2).2.2 95 (Option.mem_def.2 e) 95 (by simp)
        exact this ⟨rfl, rfl⟩
      · rw [if_neg hpos]
        have hP1 : P.length ≤ 1 := by omega
        have h61 : (t.take 61).length = 61 := by
          rw [List.length_take]
          omega
        have hqlen : q.length = 61 - P.length := by
          have := congrArg List.length hq
          rw [List.length_append, h61] at this
          omega
        have h60 : t.take 60 = P ++ q.take (60 - P.length) := by
          have h1 : t.take 60 = (t.take 61).take 60 := by
            rw [List.take_take]
            rfl
          rw [h1, hq, List.take_append_eq_append_take, List.take_of_length_le (by omega)]
        have hqne : q.take (60 - P.length) ≠ [] := by
          intro h
          have := congrArg List.length h
          rw [List.length_take, hqlen, List.length_nil] at this
          omega
        rw [h60, List.getLast?_append_of_ne_nil _ hqne]
        intro e
        have hmem : (95 : Nat) ∈ q.take (60 - P.length) := List.mem_of_mem_getLast? (Option.mem_def.2 e)
        have := hqall 95 (List.mem_of_mem_take hmem)
        simp at this
    · exact List.Chain'.prefix hchain ( List.take_prefix _ _)
  · rw [if_neg hlen]
    exact ⟨by omega, fun c hc => hc, hhead, hlast, hchain⟩

/-- C30: for every input string, `toFileName` returns at most 60 code units, all
of them ASCII letters, digits or underscores; the result does not begin or end
with an underscore and has no two consecutive underscores; and the copy of the
function in the route computes the same result. -/
theorem toFileName_shape (normalizeNFD : JsString → JsString) (str : JsString) :
    (toFileName normalizeNFD str).length ≤ 60 ∧
    (∀ c ∈ toFileName normalizeNFD str,
      (97 ≤ c ∧ c ≤ 122) ∨ (65 ≤ c ∧ c ≤ 90) ∨ (48 ≤ c ∧ c ≤ 57) ∨ c = 95) ∧
    (toFileName normalizeNFD str).head? ≠ some 95 ∧
    (toFileName normalizeNFD str).getLast? ≠ some 95 ∧
    (toFileName normalizeNFD str).Chain' (fun a b => ¬ (a = 95 ∧ b = 95)) ∧
    toFileNameRoute normalizeNFD str = toFileName normalizeNFD str := by
  have hroute : toFileNameRoute normalizeNFD str = toFileName normalizeNFD str := by
    simp only [toFileNameRoute, toFileName, truncateName]
  generalize ht : collapseUnderscores false
      (stripUnderscores
        (replaceNonWordRuns false (removeCombiningMarks (normalizeNFD str)))) = t
  have hsub : ∀ c ∈ t, isWordChar c = true := by
    intro c hc
    rw [← ht] at hc
    exact replaceNonWordRuns_word _ _ c
      (stripUnderscores_subset _ c (collapseUnderscores_subset _ _ c hc))
  have hhead : t.head? ≠ some 95 := by
    rw [← ht]
    exact collapseUnderscores_head _ (stripUnderscores_head _)
  have hlast : t.getLast? ≠ some 95 := by
    rw [← ht]
    exact collapseUnderscores_last _ _ (stripUnderscores_last _)
  have hchain : t.Chain' (fun a b => ¬ (a = 95 ∧ b = 95)) := by
    rw [← ht]
    exact (collapseUnderscores_chain _ _).1
  have hname : toFileName normalizeNFD str = truncateName t := by
    rw [← ht]
    rfl
  have h := truncateName_spec t hhead hlast hchain
  rw [hroute, hname]
  refine ⟨h.1, ?_, h.2.2.1, h.2.2.2.1, h.2.2.2.2, rfl⟩
  intro c hc
  have hw := hsub c (h.2.1 c hc)
  simp only [isWordChar, Bool.or_eq_true, Bool.and_eq_true, decide_eq_true_eq,
    beq_iff_eq] at hw
  rcases hw with ((h1 | h1) | h1) | h1
  · exact Or.inl h1
  · exact Or.inr (Or.inl h1)
  · exact Or.inr (Or.inr (Or.inl h1))
  · exact Or.inr (Or.inr (Or.inr h1))

/-! ## Tables of a report -/

theorem rdropWhile_cons_keep (p : Nat → Bool) (c : Nat) (hc : p c = false) :
    ∀ s : List Nat, ∃ t, (c :: s).rdropWhile p = c :: t := by
  intro s
  induction s using List.reverseRecOn with
  | nil =>
    refine ⟨[], ?_⟩
    have := List.rdropWhile_concat_neg p [] c (by simp [hc])
    simpa using this
  | append_singleton s a ih =>
    by_cases ha : p a = true
    · obtain ⟨t, ht⟩ := ih
      refine ⟨t, ?_⟩
      rw [← List.cons_append, List.rdropWhile_concat_pos p _ a ha]
      exact ht
    · refine ⟨s ++ [a], ?_⟩
      rw [← List.cons_append, List.rdropWhile_concat_neg p _ a ha]

theorem trim_cons_keep (c : Nat) (hc : isWhiteSpace c = false) (s : JsString) :
    ∃ t, trim (c :: s) = c :: t := by
  have h1 : (c :: s).dropWhile isWhiteSpace = c :: s := by
    simp [List.dropWhile, hc]
  have h2 : trim (c :: s) = ((c :: s).dropWhile isWhiteSpace).rdropWhile isWhiteSpace := rfl
  rw [h2, h1]
  exact rdropWhile_cons_keep isWhiteSpace c hc s

theorem drop_of_getElem? : ∀ (lines : List JsString) (i : Nat) (l : JsString),
    lines[i]? = some l → lines.drop i = l :: lines.drop (i + 1) := by
  intro lines
  induction lines with
  | nil =>
    intro i l h
    simp at h
  | cons a t ih =>
    intro i l h
    cases i with
    | zero =>
      simp at h
      rw [h]
      rfl
    | succ n =>
      simp only [List.getElem?_cons_succ] at h
      simpa using ih n l h

theorem drop_of_getElem?_none (lines : List JsString) (i : Nat) (h : lines[i]? = none) :
    lines.drop i = [] :=
  List.drop_eq_nil_of_le (List.getElem?_eq_none_iff.1 h)

theorem tableLoop_eq (lines : List JsString) : ∀ (fuel i : Nat) (rows : List (List JsString)),
    lines.length - i ≤ fuel →
    tableLoop lines fuel i rows
      = (i + (tableBlock lines i).length,
          rows ++ ((tableBlock lines i).filter (fun l => !separatorTest (trim l))).map
            (fun l => cellsOf (trim l))) := by
  intro fuel
  induction fuel with
  | zero =>
    intro i rows h
    have hd : lines.drop i = [] := List.drop_eq_nil_of_le (by omega)
    simp [tableLoop, tableBlock, hd]
  | succ fuel ih =>
    intro i rows h
    cases hl : lines[i]? with
    | none =>
      have hd := drop_of_getElem?_none lines i hl
      simp [tableLoop, tableBlock, hd, hl]
    | some l =>
      have hd := drop_of_getElem? lines i l hl
      have hlt : i < lines.length := by
        by_contra hc
        have := List.getElem?_eq_none_iff.2 (Nat.le_of_not_lt hc)
        rw [this] at hl
        exact absurd hl (by simp)
      have hb : tableBlock lines i
          = if startsWith (trim l) (js "|") then l :: tableBlock lines (i + 1) else [] := by
        unfold tableBlock
        rw [hd, List.takeWhile_cons]
      simp only [tableLoop, hl]
      by_cases hs : startsWith (trim l) (js "|") = true
      · rw [if_pos hs] at hb ⊢
        rw [hb]
        by_cases hsep : separatorTest (trim l) = true
        · rw [if_pos hsep, ih (i + 1) rows (by omega)]
          simp [hsep]
          omega
        · rw [if_neg hsep, ih (i + 1) _ (by omega)]
          simp [hsep]
          omega
      · rw [if_neg hs] at hb ⊢
        rw [hb]
        simp

theorem startsWith_bar {raw : JsString} (h : startsWith raw (js "|") = true) :
    ∃ rest, raw = 124 :: rest := by
  have hjs : js "|" = [124] := by decide
  rw [hjs] at h
  cases raw with
  | nil => simp [startsWith] at h
  | cons c rest =>
    simp only [startsWith, Bool.and_true, beq_iff_eq] at h
    exact ⟨rest, by rw [h]⟩

theorem trim_startsWith_bar {raw : JsString} (h : startsWith raw (js "|") = true) :
    startsWith (trim raw) (js "|") = true := by
  obtain ⟨rest, hr⟩ := startsWith_bar h
  obtain ⟨t, ht⟩ := trim_cons_keep 124 (by decide) rest
  rw [hr, ht]
  have hjs : js "|" = [124] := by decide
  rw [hjs]
  simp [startsWith]

theorem lineOf_startsWith_bar {raw : JsString} (h : startsWith (lineOf raw) (js "|") = true) :
    startsWith (trim raw) (js "|") = true := by
  unfold lineOf at h
  by_cases hc : (startsWith raw (js "#") || startsWith raw (js "- ") ||
      startsWith raw (js ">")) = true
  · rw [if_pos hc] at h
    exact h
  · rw [if_neg hc] at h
    exact trim_startsWith_bar h

theorem tableBlock_pos (lines : List JsString) (i : Nat) (raw : JsString)
    (hline : lines[i]? = some raw) (h : startsWith (trim raw) (js "|") = true) :
    0 < (tableBlock lines i).length := by
  unfold tableBlock
  rw [drop_of_getElem? lines i raw hline, List.takeWhile_cons, if_pos h]
  simp

theorem tableBlock_le (lines : List JsString) (i : Nat) :
    i + (tableBlock lines i).length ≤ max i lines.length := by
  unfold tableBlock
  have h := (List.takeWhile_sublist (fun l => startsWith (trim l) (js "|"))
    (l := lines.drop i)).length_le
  rw [List.length_drop] at h
  omega

theorem lineStep_table (p : LinkPatterns) (lines : List JsString) (i : Nat) (raw : JsString)
    (hstart : startsWith raw (js "|") = true) :
    lineStep p lines i false raw
      = { children := pushTable (tableLoop lines (lines.length - i) i []).2,
          i := (tableLoop lines (lines.length - i) i []).1 - 1,
          inMermaid := false } := by
  obtain ⟨rest, hr⟩ := startsWith_bar hstart
  obtain ⟨t, ht⟩ := trim_cons_keep 124 (by decide) rest
  subst hr
  have h1 : (trim (124 :: rest)).isEmpty = false := by
    rw [ht]
    rfl
  have h2 : lineOf (124 :: rest) = 124 :: rest := rfl
  have h3 : startsWith (124 :: rest) (js "```mermaid") = false := rfl
  have h4 : startsWith (124 :: rest) (js "# ") = false := rfl
  have h5 : startsWith (124 :: rest) (js "## ") = false := rfl
  have h6 : startsWith (124 :: rest) (js "### ") = false := rfl
  have h7 : startsWith (124 :: rest) (js "- ") = false := rfl
  simp only [lineStep, h1, h2, h3, h4, h5, h6, h7, hstart, Bool.false_eq_true, ↓reduceIte,
    Bool.false_and]

theorem lineStep_index_le (p : LinkPatterns) (lines : List JsString) (i : Nat)
    (inMermaid : Bool) (raw : JsString) (hline : lines[i]? = some raw) :
    i ≤ (lineStep p lines i inMermaid raw).i ∧
      (lineStep p lines i inMermaid raw).i + 1 ≤ lines.length := by
  have hlt : i < lines.length := by
    by_contra hc
    have := List.getElem?_eq_none_iff.2 (Nat.le_of_not_lt hc)
    rw [this] at hline
    exact absurd hline (by simp)
  unfold lineStep
  split_ifs with c1 c2 c3 c4 c5 c6 c7 c8 c9
  all_goals try exact ⟨le_refl _, hlt⟩
  · split <;> exact ⟨le_refl _, hlt⟩
  · have hpos := tableBlock_pos lines i raw hline (lineOf_startsWith_bar c9)
    have hle := tableBlock_le lines i
    rw [tableLoop_eq lines _ i [] (le_refl _)]
    simp only
    omega
  · split
    · exact ⟨le_refl _, hlt⟩
    · split <;> exact ⟨le_refl _, hlt⟩

theorem parseLoop_fuel (p : LinkPatterns) (lines : List JsString) :
    ∀ (fuel fuel2 i : Nat) (inMermaid : Bool),
      lines.length - i ≤ fuel → lines.length - i ≤ fuel2 →
      parseLoop p lines fuel i inMermaid = parseLoop p lines fuel2 i inMermaid := by
  intro fuel
  induction fuel with
  | zero =>
    intro fuel2 i inMermaid h1 _
    have hnone : lines[i]? = none := List.getElem?_eq_none_iff.2 (by omega)
    cases fuel2 with
    | zero => rfl
    | succ f => simp [parseLoop, hnone]
  | succ fuel ih =>
    intro fuel2 i inMermaid h1 h2
    cases hl : lines[i]? with
    | none =>
      cases fuel2 with
      | zero => simp [parseLoop, hl]
      | succ f => simp [parseLoop, hl]
    | some raw =>
      have hidx := lineStep_index_le p lines i inMermaid raw hl
      cases fuel2 with
      | zero =>
        have hnone : lines[i]? = none := List.getElem?_eq_none_iff.2 (by omega)
        rw [hnone] at hl
        exact absurd hl (by simp)
      | succ f =>
        simp only [parseLoop, hl]
        rw [ih f _ _ (by omega) (by omega)]

theorem lineStep_in_mermaid (p : LinkPatterns) (lines : List JsString) (i : Nat)
    (raw : JsString) (hstart : startsWith raw (js "|") = true) :
    lineStep p lines i true raw = { children := [], i := i, inMermaid := true } := by
  obtain ⟨rest, hr⟩ := startsWith_bar hstart
  obtain ⟨t, ht⟩ := trim_cons_keep 124 (by decide) rest
  subst hr
  have h1 : (trim (124 :: rest)).isEmpty = false := by
    rw [ht]
    rfl
  have h2 : lineOf (124 :: rest) = 124 :: rest := rfl
  have h3 : startsWith (124 :: rest) (js "```mermaid") = false := rfl
  have h4 : startsWith (124 :: rest) (js "```") = false := rfl
  simp only [lineStep, h1, h2, h3, h4, Bool.false_eq_true, ↓reduceIte, Bool.and_false]

/-- The array `lines` is what the loop of `parseMarkdownToDocx` runs over. -/
theorem parseMarkdownToDocx_eq (p : LinkPatterns) (markdown : JsString) :
    parseMarkdownToDocx p markdown
      = parseLoop p (reportLines markdown) (reportLines markdown).length 0 false :=
  rfl

/-- A report that consists of a Mermaid block only is taken for a text wrapped
in a fence: the fence lines are removed before the loop, and the line between
them becomes a table. -/
theorem parseMarkdownToDocx_wrapped_block :
    reportLines wrappedReport = [js "|a|b|"] ∧
    parseMarkdownToDocx noLinks wrappedReport = [.table [[js "a", js "b"]]] := by
  decide

/-- The text before the line of the report heading is cut off, so a table there
is not converted. -/
theorem parseMarkdownToDocx_prefaced :
    reportLines prefacedReport
      = [[], js "intro ## báo cáo phân tích chuyên sâu", js "| y |"] ∧
    parseMarkdownToDocx noLinks prefacedReport
      = [.paragraph (js "intro ## báo cáo phân tích chuyên sâu"), .table [[js "y"]]] := by
  decide

/-- C29, counterexample: a line starting with `|` inside a Mermaid block that
follows a heading yields no table, and a run made of a separator line only
yields no table either. -/
theorem parseMarkdownToDocx_run_without_table :
    reportLines mermaidReport = [js "# Chart", js "```mermaid", js "|a|b|", js "```"] ∧
    parseMarkdownToDocx noLinks mermaidReport = [.heading 1 (js "Chart"), .mermaidNote] ∧
    reportLines (js "|---|---|") = [js "|---|---|"] ∧
    parseMarkdownToDocx noLinks (js "|---|---|") = [] := by
  decide

/-- C29, amended: when the loop over the array `lines` reaches a line that
starts with `|`, this line and the lines after it whose trimmed text starts with
`|` form one block. Inside a Mermaid block the line produces nothing and the
loop goes on at the next line. Outside a Mermaid block, if the lines of the
block with a dash right after the first `|` are exactly its separator lines (all
cells made of dashes), the block gives one table, or none when every line is a
separator, whose rows are the cells of the other lines, one row per line in
order, and the loop goes on at the first line after the block. -/
theorem parseLoop_table_block (p : LinkPatterns) (lines : List JsString) (i fuel : Nat)
    (raw : JsString) (hline : lines[i]? = some raw)
    (hstart : startsWith raw (js "|") = true) (hfuel : lines.length - i ≤ fuel)
    (hsep : ∀ l ∈ tableBlock lines i, separatorTest (trim l) = dashCellsOnly (trim l)) :
    0 < (tableBlock lines i).length ∧
    parseLoop p lines fuel i true = parseLoop p lines fuel (i + 1) true ∧
    parseLoop p lines fuel i false
      = pushTable (((tableBlock lines i).filter (fun l => !dashCellsOnly (trim l))).map
          (fun l => cellsOf (trim l)))
        ++ parseLoop p lines fuel (i + (tableBlock lines i).length) false := by
  have hpos := tableBlock_pos lines i raw hline (trim_startsWith_bar hstart)
  have hfilter : (tableBlock lines i).filter (fun l => !dashCellsOnly (trim l))
      = (tableBlock lines i).filter (fun l => !separatorTest (trim l)) := by
    apply List.filter_congr
    intro l hl
    rw [hsep l hl]
  cases fuel with
  | zero =>
    have hnone : lines[i]? = none := List.getElem?_eq_none_iff.2 (by omega)
    rw [hnone] at hline
    exact absurd hline (by simp)
  | succ f =>
    have hlt : i < lines.length := by
      by_contra hc
      have := List.getElem?_eq_none_iff.2 (Nat.le_of_not_lt hc)
      rw [this] at hline
      exact absurd hline (by simp)
    have hle := tableBlock_le lines i
    refine ⟨hpos, ?_, ?_⟩
    · rw [parseLoop_fuel p lines (f + 1) f (i + 1) true (by omega) (by omega)]
      simp only [parseLoop, hline]
      rw [lineStep_in_mermaid p lines i raw hstart]
      rfl
    · have hnext :
          i + (tableBlock lines i).length - 1 + 1 = i + (tableBlock lines i).length := by
        omega
      rw [parseLoop_fuel p lines (f + 1) f (i + (tableBlock lines i).length) false (by omega)
        (by omega)]
      simp only [parseLoop, hline]
      rw [lineStep_table p lines i raw hstart, tableLoop_eq lines _ i [] (le_refl _)]
      simp only [List.nil_append]
      rw [hfilter, hnext]

/-- Witness of C29: the table of `tableReport`, which starts at the second line
and has a header, a separator and an indented row. -/
theorem parseLoop_table_block_witness :
    (reportLines tableReport)[1]? = some (js "| a | b |") ∧
    startsWith (js "| a | b |") (js "|") = true ∧
    (reportLines tableReport).length - 1 ≤ 5 ∧
    (∀ l ∈ tableBlock (reportLines tableReport) 1,
      separatorTest (trim l) = dashCellsOnly (trim l)) ∧
    (tableBlock (reportLines tableReport) 1).length = 3 ∧
    parseLoop noLinks (reportLines tableReport) 5 1 false
      = pushTable [[js "a", js "b"], [js "1", js "2"]]
        ++ parseLoop noLinks (reportLines tableReport) 5 4 false ∧
    parseMarkdownToDocx noLinks tableReport
      = [.paragraph (js "Results"), .table [[js "a", js "b"], [js "1", js "2"]],
          .paragraph (js "Done")] :=
  ⟨by decide, rfl, by decide, by decide, by decide,
    (parseLoop_table_block noLinks (reportLines tableReport) 1 5 (js "| a | b |")
      (by decide) rfl (by decide) (by decide)).2.2,
    by decide⟩

/-! ## Rounding to a double -/

theorem roundHalfEven_floor_le (x : ℚ) : ⌊x⌋ ≤ roundHalfEven x := by
  unfold roundHalfEven
  split_ifs <;> omega

theorem roundHalfEven_le_floor_succ (x : ℚ) : roundHalfEven x ≤ ⌊x⌋ + 1 := by
  unfold roundHalfEven
  split_ifs <;> omega

theorem roundHalfEven_intCast (z : ℤ) : roundHalfEven (z : ℚ) = z := by
  unfold roundHalfEven
  rw [Int.floor_intCast]
  simp

theorem roundHalfEven_mono {x y : ℚ} (h : x ≤ y) : roundHalfEven x ≤ roundHalfEven y := by
  have hf : ⌊x⌋ ≤ ⌊y⌋ := Int.floor_mono h
  rcases lt_or_eq_of_le hf with hlt | heq
  · exact le_trans (roundHalfEven_le_floor_succ x)
      (le_trans (by omega) (roundHalfEven_floor_le y))
  · unfold roundHalfEven
    rw [← heq]
    have hxy : x - ⌊x⌋ ≤ y - ⌊x⌋ := by linarith
    split_ifs <;> first | omega | (exfalso; linarith)

theorem roundHalfEven_eq_of_near (x : ℚ) (z : ℤ) (h1 : (z : ℚ) - 1 / 2 < x)
    (h2 : x < (z : ℚ) + 1 / 2) : roundHalfEven x = z := by
  unfold roundHalfEven
  by_cases hz : (z : ℚ) ≤ x
  · have hfl : ⌊x⌋ = z := Int.floor_eq_iff.2 ⟨hz, by linarith⟩
    rw [hfl, if_pos (by linarith)]
  · have hfl : ⌊x⌋ = z - 1 := Int.floor_eq_iff.2 ⟨by push_cast; linarith, by push_cast; linarith⟩
    rw [hfl]
    push_cast
    rw [if_neg (by linarith), if_pos (by linarith)]
    omega

theorem ulp_pos (q : ℚ) : 0 < ulp q := by
  unfold ulp
  positivity

theorem roundDouble_zero : roundDouble 0 = 0 := by
  unfold roundDouble
  rw [if_neg (lt_irrefl _), zero_div]
  have := roundHalfEven_intCast 0
  simp only [Int.cast_zero] at this
  rw [this]
  simp

theorem roundDouble_nonneg {q : ℚ} (h : 0 ≤ q) : 0 ≤ roundDouble q := by
  unfold roundDouble
  rw [if_neg (not_lt.2 h)]
  have h0 : (0 : ℤ) ≤ roundHalfEven (q / ulp q) := by
    have := roundHalfEven_mono (div_nonneg h (ulp_pos q).le)
    rwa [show ((0 : ℚ)) = ((0 : ℤ) : ℚ) from by simp, roundHalfEven_intCast] at this
  have h1 : (0 : ℚ) ≤ (roundHalfEven (q / ulp q) : ℚ) := by exact_mod_cast h0
  exact mul_nonneg h1 (ulp_pos q).le

theorem two_zpow_intCast (n : ℕ) : ((2 : ℚ) ^ (n : ℤ)) = (((2 : ℤ) ^ n : ℤ) : ℚ) := by
  rw [zpow_natCast]
  push_cast
  rfl

theorem roundDouble_le_zpow {x : ℚ} (hx : 0 < x) :
    roundDouble x ≤ 2 ^ (max (Int.log 2 x) (-1022) + 1) := by
  unfold roundDouble
  rw [if_neg (not_lt.2 hx.le)]
  have hu : ulp x = 2 ^ (max (Int.log 2 x) (-1022) - 52) := by
    unfold ulp
    rw [abs_of_pos hx]
  have hlt : x < 2 ^ (Int.log 2 x + 1) := Int.lt_zpow_succ_log_self (by norm_num) x
  have hle : (2 : ℚ) ^ (Int.log 2 x + 1) ≤ 2 ^ (max (Int.log 2 x) (-1022) + 1) :=
    zpow_le_zpow_right₀ (by norm_num) (by omega)
  have hdiv : x / ulp x ≤ ((2 ^ 53 : ℤ) : ℚ) := by
    rw [div_le_iff₀ (ulp_pos x), hu]
    have : ((2 ^ 53 : ℤ) : ℚ) * 2 ^ (max (Int.log 2 x) (-1022) - 52)
        = 2 ^ (max (Int.log 2 x) (-1022) + 1) := by
      have h53 : ((2 ^ 53 : ℤ) : ℚ) = (2 : ℚ) ^ (53 : ℤ) := by norm_num
      rw [h53, ← zpow_add₀ (by norm_num : (2 : ℚ) ≠ 0)]
      congr 1
      omega
    rw [this]
    linarith
  have hr := roundHalfEven_mono hdiv
  rw [roundHalfEven_intCast] at hr
  have hr2 : (roundHalfEven (x / ulp x) : ℚ) ≤ ((2 ^ 53 : ℤ) : ℚ) := by exact_mod_cast hr
  calc (roundHalfEven (x / ulp x) : ℚ) * ulp x
      ≤ ((2 ^ 53 : ℤ) : ℚ) * ulp x := mul_le_mul_of_nonneg_right hr2 (ulp_pos x).le
    _ = 2 ^ (max (Int.log 2 x) (-1022) + 1) := by
      rw [hu]
      have h53 : ((2 ^ 53 : ℤ) : ℚ) = (2 : ℚ) ^ (53 : ℤ) := by norm_num
      rw [h53, ← zpow_add₀ (by norm_num : (2 : ℚ) ≠ 0)]
      congr 1
      omega

theorem zpow_le_roundDouble {y : ℚ} (hy : 0 < y) (hlog : -1022 ≤ Int.log 2 y) :
    (2 : ℚ) ^ (Int.log 2 y) ≤ roundDouble y := by
  unfold roundDouble
  rw [if_neg (not_lt.2 hy.le)]
  have hu : ulp y = 2 ^ (Int.log 2 y - 52) := by
    unfold ulp
    rw [abs_of_pos hy, max_eq_left hlog]
  have hge : (2 : ℚ) ^ (Int.log 2 y) ≤ y := Int.zpow_log_le_self (by norm_num) hy
  have h52 : ((2 ^ 52 : ℤ) : ℚ) = (2 : ℚ) ^ (52 : ℤ) := by norm_num
  have hmul : ((2 ^ 52 : ℤ) : ℚ) * 2 ^ (Int.log 2 y - 52) = 2 ^ (Int.log 2 y) := by
    rw [h52, ← zpow_add₀ (by norm_num : (2 : ℚ) ≠ 0)]
    congr 1
    omega
  have hdiv : ((2 ^ 52 : ℤ) : ℚ) ≤ y / ulp y := by
    rw [le_div_iff₀ (ulp_pos y), hu, hmul]
    exact hge
  have hr := roundHalfEven_mono hdiv
  rw [roundHalfEven_intCast] at hr
  have hr2 : ((2 ^ 52 : ℤ) : ℚ) ≤ (roundHalfEven (y / ulp y) : ℚ) := by exact_mod_cast hr
  calc (2 : ℚ) ^ (Int.log 2 y) = ((2 ^ 52 : ℤ) : ℚ) * ulp y := by rw [hu, hmul]
    _ ≤ (roundHalfEven (y / ulp y) : ℚ) * ulp y :=
      mul_le_mul_of_nonneg_right hr2 (ulp_pos y).le

/-- Rounding to a double is monotone on the numbers that are not negative. -/
theorem roundDouble_mono {x y : ℚ} (hx : 0 ≤ x) (h : x ≤ y) :
    roundDouble x ≤ roundDouble y := by
  rcases eq_or_lt_of_le hx with h0 | hpos
  · rw [← h0, roundDouble_zero]
    exact roundDouble_nonneg (le_trans hx h)
  · have hy : 0 < y := lt_of_lt_of_le hpos h
    have hlog : Int.log 2 x ≤ Int.log 2 y := Int.log_mono_right hpos h
    rcases eq_or_lt_of_le (max_le_max_right (-1022) hlog) with heq | hlt
    · have hu : ulp x = ulp y := by
        unfold ulp
        rw [abs_of_pos hpos, abs_of_pos hy, heq]
      unfold roundDouble
      rw [if_neg (not_lt.2 hx), if_neg (not_lt.2 hy.le), hu]
      have hr := roundHalfEven_mono (div_le_div_of_nonneg_right h (ulp_pos y).le)
      have hr2 : (roundHalfEven (x / ulp y) : ℚ) ≤ (roundHalfEven (y / ulp y) : ℚ) := by
        exact_mod_cast hr
      exact mul_le_mul_of_nonneg_right hr2 (ulp_pos y).le
    · have hylog : -1022 ≤ Int.log 2 y := by
        by_contra hc
        rw [max_eq_right (by omega : Int.log 2 y ≤ -1022)] at hlt
        have := le_max_right (Int.log 2 x) (-1022)
        omega
      have hmax : max (Int.log 2 y) (-1022) = Int.log 2 y := max_eq_left hylog
      rw [hmax] at hlt
      calc roundDouble x ≤ 2 ^ (max (Int.log 2 x) (-1022) + 1) := roundDouble_le_zpow hpos
        _ ≤ 2 ^ (Int.log 2 y) := zpow_le_zpow_right₀ (by norm_num) (by omega)
        _ ≤ roundDouble y := zpow_le_roundDouble hy hylog

/-- A number `m * 2 ^ j` with `m < 2 ^ 53` and `j ≥ -1074` is a double. -/
theorem roundDouble_exact (m : ℕ) (j : ℤ) (hm : m < 2 ^ 53) (hj : -1074 ≤ j) :
    roundDouble ((m : ℚ) * 2 ^ j) = (m : ℚ) * 2 ^ j := by
  rcases Nat.eq_zero_or_pos m with h0 | hpos
  · rw [h0]
    simp [roundDouble_zero]
  · have h2 : (0 : ℚ) < 2 ^ j := by positivity
    have hq : (0 : ℚ) < (m : ℚ) * 2 ^ j := mul_pos (by exact_mod_cast hpos) h2
    have hlt : (m : ℚ) * 2 ^ j < 2 ^ (53 + j) := by
      rw [zpow_add₀ (by norm_num : (2 : ℚ) ≠ 0)]
      have : (m : ℚ) < 2 ^ (53 : ℤ) := by
        calc (m : ℚ) < ((2 ^ 53 : ℕ) : ℚ) := by exact_mod_cast hm
          _ = 2 ^ (53 : ℤ) := by norm_num
      exact mul_lt_mul_of_pos_right this h2
    have hlog : Int.log 2 ((m : ℚ) * 2 ^ j) < 53 + j :=
      (Int.lt_zpow_iff_log_lt (by norm_num) hq).1 (by exact_mod_cast hlt)
    have hk : max (Int.log 2 ((m : ℚ) * 2 ^ j)) (-1022) - 52 ≤ j := by
      rcases max_cases (Int.log 2 ((m : ℚ) * 2 ^ j)) (-1022) with ⟨h, _⟩ | ⟨h, _⟩ <;> omega
    obtain ⟨d, hd⟩ := Int.eq_ofNat_of_zero_le (sub_nonneg.2 hk)
    have hu : ulp ((m : ℚ) * 2 ^ j) = 2 ^ (j - (d : ℤ)) := by
      unfold ulp
      rw [abs_of_pos hq]
      congr 1
      omega
    have hdiv : (m : ℚ) * 2 ^ j / ulp ((m : ℚ) * 2 ^ j) = (((m * 2 ^ d : ℕ) : ℤ) : ℚ) := by
      rw [hu, zpow_sub₀ (by norm_num : (2 : ℚ) ≠ 0), zpow_natCast]
      push_cast
      field_simp
      ring
    unfold roundDouble
    rw [if_neg (not_lt.2 hq.le), hdiv, roundHalfEven_intCast, ← hdiv]
    exact div_mul_cancel₀ _ (ulp_pos _).ne'

/-- The double nearest to a number of the binade of `2 ^ e`. -/
theorem roundDouble_eq_of_near (q : ℚ) (e z : ℤ) (hq : 0 < q) (he : -1022 ≤ e)
    (h1 : (2 : ℚ) ^ e ≤ q) (h2 : q < 2 ^ (e + 1))
    (h3 : (z : ℚ) - 1 / 2 < q / 2 ^ (e - 52)) (h4 : q / 2 ^ (e - 52) < (z : ℚ) + 1 / 2) :
    roundDouble q = (z : ℚ) * 2 ^ (e - 52) := by
  have hlog : Int.log 2 q = e := by
    have ha : e ≤ Int.log 2 q := (Int.zpow_le_iff_le_log (by norm_num) hq).1 (by exact_mod_cast h1)
    have hb : Int.log 2 q < e + 1 :=
      (Int.lt_zpow_iff_log_lt (by norm_num) hq).1 (by exact_mod_cast h2)
    omega
  have hu : ulp q = 2 ^ (e - 52) := by
    unfold ulp
    rw [abs_of_pos hq, hlog, max_eq_left he]
  unfold roundDouble
  rw [if_neg (not_lt.2 hq.le), hu, roundHalfEven_eq_of_near _ z h3 h4]

theorem roundHalfEven_near (x : ℚ) :
    (roundHalfEven x : ℚ) - x ≤ 1 / 2 ∧ x - (roundHalfEven x : ℚ) ≤ 1 / 2 := by
  have h1 := Int.floor_le x
  have h2 := Int.lt_floor_add_one x
  unfold roundHalfEven
  split_ifs <;> push_cast <;> constructor <;> linarith

/-- The relative error of a rounding: at most `2 ^ (-53)` for a number that is
zero or at least `2 ^ (-1022)`. -/
theorem roundDouble_error {q : ℚ} (hq : q = 0 ∨ (2 : ℚ) ^ (-1022 : ℤ) ≤ q) :
    roundDouble q - q ≤ q / 2 ^ 53 ∧ q - roundDouble q ≤ q / 2 ^ 53 := by
  rcases hq with h0 | hn
  · rw [h0, roundDouble_zero]
    simp
  · have hpos : 0 < q := lt_of_lt_of_le (by positivity) hn
    have hlog : -1022 ≤ Int.log 2 q :=
      (Int.zpow_le_iff_le_log (by norm_num) hpos).1 (by exact_mod_cast hn)
    have hu : ulp q = 2 ^ (Int.log 2 q - 52) := by
      unfold ulp
      rw [abs_of_pos hpos, max_eq_left hlog]
    have hge : (2 : ℚ) ^ (Int.log 2 q) ≤ q := Int.zpow_log_le_self (by norm_num) hpos
    have hu2 : ulp q * 2 ^ 52 = 2 ^ (Int.log 2 q) := by
      rw [hu, zpow_sub₀ (by norm_num : (2 : ℚ) ≠ 0)]
      have : (2 : ℚ) ^ (52 : ℤ) = 2 ^ 52 := by norm_num
      rw [this]
      field_simp
    have hup := ulp_pos q
    have hnear := roundHalfEven_near (q / ulp q)
    have hval : roundDouble q = (roundHalfEven (q / ulp q) : ℚ) * ulp q := by
      unfold roundDouble
      rw [if_neg (not_lt.2 hpos.le)]
    have hhalf : ulp q / 2 ≤ q / 2 ^ 53 := by
      rw [div_le_div_iff₀ (by norm_num) (by positivity)]
      calc ulp q * 2 ^ 53 = 2 * (ulp q * 2 ^ 52) := by ring
        _ = 2 * 2 ^ (Int.log 2 q) := by rw [hu2]
        _ ≤ 2 * q := by linarith
        _ = q * 2 := by ring
    have e1 : roundDouble q - q = ((roundHalfEven (q / ulp q) : ℚ) - q / ulp q) * ulp q := by
      rw [hval, sub_mul, div_mul_cancel₀ _ hup.ne']
    have b1 : ((roundHalfEven (q / ulp q) : ℚ) - q / ulp q) * ulp q ≤ 1 / 2 * ulp q :=
      mul_le_mul_of_nonneg_right hnear.1 hup.le
    have b2 : (q / ulp q - (roundHalfEven (q / ulp q) : ℚ)) * ulp q ≤ 1 / 2 * ulp q :=
      mul_le_mul_of_nonneg_right hnear.2 hup.le
    constructor
    · rw [e1]
      linarith
    · have e2 : q - roundDouble q
          = (q / ulp q - (roundHalfEven (q / ulp q) : ℚ)) * ulp q := by
        rw [hval, sub_mul, div_mul_cancel₀ _ hup.ne']
      rw [e2]
      linarith

/-- Two numbers at least one half apart, below `2 ^ 50`, are rounded to
different doubles. -/
theorem roundDouble_lt_of_gap {a b : ℚ} (ha : 0 ≤ a) (hab : a + 1 / 2 ≤ b)
    (hb : b < 2 ^ 50) : roundDouble a < roundDouble b := by
  have hc0 : (0 : ℤ) ≤ ⌈4 * a⌉ := Int.ceil_nonneg (by linarith)
  obtain ⟨n, hn⟩ := Int.eq_ofNat_of_zero_le hc0
  have h1 : 4 * a ≤ (n : ℚ) := by
    have := Int.le_ceil (4 * a)
    rw [hn] at this
    exact_mod_cast this
  have h2 : (n : ℚ) < 4 * a + 1 := by
    have := Int.ceil_lt_add_one (4 * a)
    rw [hn] at this
    exact_mod_cast this
  have hn53 : n + 1 < 2 ^ 53 := by
    have : (n : ℚ) + 1 < 2 ^ 53 := by
      have : (2 : ℚ) ^ 53 = 8 * 2 ^ 50 := by norm_num
      linarith
    exact_mod_cast this
  have hz : (2 : ℚ) ^ (-2 : ℤ) = 1 / 4 := by norm_num
  have e1 := roundDouble_exact n (-2) (by omega) (by norm_num)
  have e2 := roundDouble_exact (n + 1) (-2) hn53 (by norm_num)
  rw [hz] at e1 e2
  have m1 : roundDouble a ≤ roundDouble ((n : ℚ) * (1 / 4)) :=
    roundDouble_mono ha (by linarith)
  have m2 : roundDouble (((n + 1 : ℕ) : ℚ) * (1 / 4)) ≤ roundDouble b :=
    roundDouble_mono (by positivity) (by push_cast; linarith)
  rw [e1] at m1
  rw [e2] at m2
  push_cast at m2
  linarith

theorem roundHalfEven_eq_of_tie (x : ℚ) (z : ℤ) (hx : x = (z : ℚ) - 1 / 2)
    (hz : z % 2 = 0) : roundHalfEven x = z := by
  unfold roundHalfEven
  have hfl : ⌊x⌋ = z - 1 :=
    Int.floor_eq_iff.2 ⟨by rw [hx]; push_cast; linarith, by rw [hx]; push_cast; linarith⟩
  rw [hfl]
  have hfr : x - ((z - 1 : ℤ) : ℚ) = 1 / 2 := by
    rw [hx]
    push_cast
    ring
  rw [hfr, if_neg (lt_irrefl _), if_neg (lt_irrefl _), if_neg (by omega)]
  omega

/-- The double nearest to a number of the binade of `2 ^ e` that lies halfway
between two doubles: the one with the even significand. -/
theorem roundDouble_eq_of_tie (q : ℚ) (e z : ℤ) (hq : 0 < q) (he : -1022 ≤ e)
    (h1 : (2 : ℚ) ^ e ≤ q) (h2 : q < 2 ^ (e + 1))
    (h3 : q / 2 ^ (e - 52) = (z : ℚ) - 1 / 2) (hz : z % 2 = 0) :
    roundDouble q = (z : ℚ) * 2 ^ (e - 52) := by
  have hlog : Int.log 2 q = e := by
    have ha : e ≤ Int.log 2 q := (Int.zpow_le_iff_le_log (by norm_num) hq).1 (by exact_mod_cast h1)
    have hb : Int.log 2 q < e + 1 :=
      (Int.lt_zpow_iff_log_lt (by norm_num) hq).1 (by exact_mod_cast h2)
    omega
  have hu : ulp q = 2 ^ (e - 52) := by
    unfold ulp
    rw [abs_of_pos hq, hlog, max_eq_left he]
  unfold roundDouble
  rw [if_neg (not_lt.2 hq.le), hu, roundHalfEven_eq_of_tie _ z h3 hz]

/-! ## The score of a candidate in double arithmetic -/

theorem recencyBoost_bounds (now : Int) (text : JsString) (pref : Option YearPref) :
    0 ≤ recencyBoostFromText now text pref ∧ recencyBoostFromText now text pref ≤ 3 ∧
    (recencyBoostFromText now text pref = 0 ∨ 1 / 2 ≤ recencyBoostFromText now text pref) := by
  unfold recencyBoostFromText
  by_cases h : (yearsIn none 0 text).length = 0
  · rw [if_pos h]
    exact ⟨le_refl _, by norm_num, Or.inl rfl⟩
  · rw [if_neg h]
    have hk : ((((yearsIn none 0 text).foldl max 0 : Nat) : ℚ) - (baseYear now pref : ℚ))
        = ((((((yearsIn none 0 text).foldl max 0 : Nat) : ℤ) - baseYear now pref : ℤ)) : ℚ) := by
      push_cast
      rfl
    rw [hk]
    generalize ((((yearsIn none 0 text).foldl max 0 : Nat) : ℤ) - baseYear now pref) = k
    refine ⟨le_max_left _ _, max_le (by norm_num) (min_le_left _ _), ?_⟩
    rcases le_or_lt k 0 with hle | hgt
    · left
      have : (k : ℚ) ≤ 0 := by exact_mod_cast hle
      exact max_eq_left (le_trans (min_le_right _ _) (by linarith))
    · right
      have : (1 : ℚ) ≤ (k : ℚ) := by exact_mod_cast hgt
      exact le_trans (le_min (by norm_num) (by linarith)) (le_max_right _ _)

theorem coarse_roundDouble {q : ℚ} (h : q = 0 ∨ 1 / 2048 ≤ q) :
    roundDouble q = 0 ∨ 1 / 2048 ≤ roundDouble q := by
  rcases h with h0 | hq
  · left
    rw [h0, roundDouble_zero]
  · right
    have e := roundDouble_exact 1 (-11) (by norm_num) (by norm_num)
    have hz : ((1 : ℕ) : ℚ) * 2 ^ (-11 : ℤ) = 1 / 2048 := by norm_num
    rw [hz] at e
    rw [← e]
    exact roundDouble_mono (by norm_num) hq

theorem coarse_add {a b : ℚ} (ha : a = 0 ∨ 1 / 2048 ≤ a) (hb : b = 0 ∨ 1 / 2048 ≤ b) :
    a + b = 0 ∨ 1 / 2048 ≤ a + b := by
  rcases ha with ha | ha <;> rcases hb with hb | hb
  · left; rw [ha, hb]; norm_num
  · right; rw [ha]; linarith
  · right; rw [hb]; linarith
  · right; linarith

theorem coarse_normal {q : ℚ} (h : q = 0 ∨ 1 / 2048 ≤ q) :
    q = 0 ∨ (2 : ℚ) ^ (-1022 : ℤ) ≤ q := by
  rcases h with h | h
  · exact Or.inl h
  · right
    have h1 : (2 : ℚ) ^ (-1022 : ℤ) ≤ 2 ^ (-11 : ℤ) :=
      zpow_le_zpow_right₀ (by norm_num) (by norm_num)
    have h2 : (2 : ℚ) ^ (-11 : ℤ) = 1 / 2048 := by norm_num
    calc (2 : ℚ) ^ (-1022 : ℤ) ≤ 2 ^ (-11 : ℤ) := h1
      _ = 1 / 2048 := h2
      _ ≤ q := h

theorem coarse_nonneg {q : ℚ} (h : q = 0 ∨ 1 / 2048 ≤ q) : 0 ≤ q := by
  rcases h with h | h
  · rw [h]
  · linarith

theorem coarse_natCast_mul (n : ℕ) (c : ℚ) (hc : 1 / 2048 ≤ c) :
    (n : ℚ) * c = 0 ∨ 1 / 2048 ≤ (n : ℚ) * c := by
  rcases Nat.eq_zero_or_pos n with h | h
  · left
    rw [h]
    simp
  · right
    have h1 : (1 : ℚ) ≤ (n : ℚ) := by exact_mod_cast h
    nlinarith

/-- The score computed in doubles differs from the exact value of the formula by
a relative error of at most `2 ^ (-50)`. -/
theorem score_accuracy (h len p : ℕ) (r : ℚ) (hr : r = 0 ∨ 1 / 2 ≤ r) :
    |doubleAdd
        (doubleAdd (doubleAdd (doubleMul (h : ℚ) 3) (min (doubleDiv (len : ℚ) 2000) 1)) r)
        (doubleMul (p : ℚ) (1 / 2))
      - ((h : ℚ) * 3 + min ((len : ℚ) / 2000) 1 + r + (p : ℚ) * (1 / 2))|
      ≤ ((h : ℚ) * 3 + min ((len : ℚ) / 2000) 1 + r + (p : ℚ) * (1 / 2)) / 2 ^ 50 := by
  unfold doubleAdd doubleMul doubleDiv
  have cH : (h : ℚ) * 3 = 0 ∨ 1 / 2048 ≤ (h : ℚ) * 3 := coarse_natCast_mul h 3 (by norm_num)
  have cL : (len : ℚ) / 2000 = 0 ∨ 1 / 2048 ≤ (len : ℚ) / 2000 := by
    have := coarse_natCast_mul len (1 / 2000) (by norm_num)
    rwa [mul_one_div] at this
  have cP : (p : ℚ) * (1 / 2) = 0 ∨ 1 / 2048 ≤ (p : ℚ) * (1 / 2) :=
    coarse_natCast_mul p (1 / 2) (by norm_num)
  have cr : r = 0 ∨ 1 / 2048 ≤ r := by
    rcases hr with hr | hr
    · exact Or.inl hr
    · exact Or.inr (by linarith)
  have ca := coarse_roundDouble cH
  have cl := coarse_roundDouble cL
  have ea := roundDouble_error (coarse_normal cH)
  have el := roundDouble_error (coarse_normal cL)
  have ep := roundDouble_error (coarse_normal cP)
  have cp := coarse_roundDouble cP
  have hone : 1 ≤ (len : ℚ) / 2000 → 1 ≤ roundDouble ((len : ℚ) / 2000) := by
    intro hge
    have e1 := roundDouble_exact 1 0 (by norm_num) (by norm_num)
    simp only [Nat.cast_one, zpow_zero, mul_one] at e1
    have hm := roundDouble_mono (by norm_num : (0 : ℚ) ≤ 1) hge
    rwa [e1] at hm
  generalize roundDouble ((h : ℚ) * 3) = a1 at *
  generalize roundDouble ((len : ℚ) / 2000) = l1 at *
  generalize roundDouble ((p : ℚ) * (1 / 2)) = p1 at *
  have hL0 := coarse_nonneg cL
  have hH0 := coarse_nonneg cH
  have hP0 := coarse_nonneg cP
  have hr0 := coarse_nonneg cr
  have cm : min l1 1 = 0 ∨ 1 / 2048 ≤ min l1 1 := by
    rcases cl with hl | hl
    · left
      rw [hl]
      exact min_eq_left (by norm_num)
    · right
      exact le_min hl (by norm_num)
  have em : min l1 1 - min ((len : ℚ) / 2000) 1 ≤ min ((len : ℚ) / 2000) 1 / 2 ^ 53 ∧
      min ((len : ℚ) / 2000) 1 - min l1 1 ≤ min ((len : ℚ) / 2000) 1 / 2 ^ 53 := by
    rcases le_total ((len : ℚ) / 2000) 1 with hle | hge
    · rw [min_eq_left hle]
      constructor
      · exact le_trans (sub_le_sub_right (min_le_left _ _) _) el.1
      · rcases le_total l1 1 with h1 | h1
        · rw [min_eq_left h1]
          exact el.2
        · rw [min_eq_right h1]
          have : (0 : ℚ) ≤ (len : ℚ) / 2000 / 2 ^ 53 := by positivity
          linarith
    · rw [min_eq_right hge]
      have h1 : 1 ≤ l1 := hone hge
      rw [min_eq_right h1]
      norm_num
  generalize min l1 1 = m1 at *
  generalize min ((len : ℚ) / 2000) 1 = M at *
  have c1 := coarse_add ca cm
  have e1 := roundDouble_error (coarse_normal c1)
  have cs1 := coarse_roundDouble c1
  generalize roundDouble (a1 + m1) = s1 at *
  have c2 := coarse_add cs1 cr
  have e2 := roundDouble_error (coarse_normal c2)
  have cs2 := coarse_roundDouble c2
  generalize roundDouble (s1 + r) = s2 at *
  have c3 := coarse_add cs2 cp
  have e3 := roundDouble_error (coarse_normal c3)
  generalize roundDouble (s2 + p1) = s3 at *
  have hM0 : 0 ≤ M := by
    have := coarse_nonneg cm
    have h53 : (0 : ℚ) < 2 ^ 53 := by positivity
    by_contra hc
    push_neg at hc
    have : M / 2 ^ 53 < 0 := div_neg_of_neg_of_pos hc h53
    linarith [em.1, em.2]
  have k53 : ((2 : ℚ) ^ 53) = 9007199254740992 := by norm_num
  have k50 : ((2 : ℚ) ^ 50) = 1125899906842624 := by norm_num
  rw [k53] at ea el ep em e1 e2 e3
  rw [k50]
  rw [abs_le]
  constructor <;> linarith [ea.1, ea.2, ep.1, ep.2, em.1, em.2, e1.1, e1.2, e2.1, e2.2, e3.1, e3.2]

theorem roundDouble_natCast (n : ℕ) (hn : n < 2 ^ 53) : roundDouble (n : ℚ) = n := by
  have := roundDouble_exact n 0 hn (by norm_num)
  simpa using this

theorem roundDouble_half (n : ℕ) (hn : n < 2 ^ 53) :
    roundDouble ((n : ℚ) * (1 / 2)) = (n : ℚ) * (1 / 2) := by
  have := roundDouble_exact n (-1) hn (by norm_num)
  have hz : (2 : ℚ) ^ (-1 : ℤ) = 1 / 2 := by norm_num
  rwa [hz] at this

/-- For a fixed text the score is strictly increasing in the priority, for
counts of hits and priorities below `2 ^ 40`. -/
theorem score_strict_mono (h len p1 p2 : ℕ) (r : ℚ) (hr0 : 0 ≤ r) (hr3 : r ≤ 3)
    (hh : h < 2 ^ 40) (hp : p1 < p2) (hp2 : p2 < 2 ^ 40) :
    doubleAdd
        (doubleAdd (doubleAdd (doubleMul (h : ℚ) 3) (min (doubleDiv (len : ℚ) 2000) 1)) r)
        (doubleMul (p1 : ℚ) (1 / 2))
      < doubleAdd
        (doubleAdd (doubleAdd (doubleMul (h : ℚ) 3) (min (doubleDiv (len : ℚ) 2000) 1)) r)
        (doubleMul (p2 : ℚ) (1 / 2)) := by
  unfold doubleAdd doubleMul doubleDiv
  have ha : roundDouble ((h : ℚ) * 3) = ((h * 3 : ℕ) : ℚ) := by
    rw [← roundDouble_natCast (h * 3) (by omega)]
    push_cast
    rfl
  have hl0 : 0 ≤ roundDouble ((len : ℚ) / 2000) := roundDouble_nonneg (by positivity)
  have hm0 : 0 ≤ min (roundDouble ((len : ℚ) / 2000)) 1 := le_min hl0 (by norm_num)
  have hm1 : min (roundDouble ((len : ℚ) / 2000)) 1 ≤ 1 := min_le_right _ _
  generalize min (roundDouble ((len : ℚ) / 2000)) 1 = m1 at *
  rw [ha]
  have hs1a : 0 ≤ roundDouble (((h * 3 : ℕ) : ℚ) + m1) :=
    roundDouble_nonneg (by positivity)
  have hs1b : roundDouble (((h * 3 : ℕ) : ℚ) + m1) ≤ ((h * 3 + 1 : ℕ) : ℚ) := by
    rw [← roundDouble_natCast (h * 3 + 1) (by omega)]
    exact roundDouble_mono (by positivity) (by push_cast; linarith)
  generalize roundDouble (((h * 3 : ℕ) : ℚ) + m1) = s1 at *
  have hs2a : 0 ≤ roundDouble (s1 + r) := roundDouble_nonneg (by linarith)
  have hs2b : roundDouble (s1 + r) ≤ ((h * 3 + 4 : ℕ) : ℚ) := by
    rw [← roundDouble_natCast (h * 3 + 4) (by omega)]
    exact roundDouble_mono (by linarith) (by push_cast at hs1b ⊢; linarith)
  generalize roundDouble (s1 + r) = s2 at *
  rw [roundDouble_half p1 (by omega), roundDouble_half p2 (by omega)]
  have hp' : (p1 : ℚ) + 1 ≤ (p2 : ℚ) := by exact_mod_cast hp
  have hp2' : (p2 : ℚ) < 2 ^ 40 := by exact_mod_cast hp2
  have hh' : (h : ℚ) < 2 ^ 40 := by exact_mod_cast hh
  push_cast at hs2b
  apply roundDouble_lt_of_gap
  · positivity
  · linarith
  · have k40 : ((2 : ℚ) ^ 40) = 1099511627776 := by norm_num
    have k50 : ((2 : ℚ) ^ 50) = 1125899906842624 := by norm_num
    rw [k40] at hp2' hh'
    rw [k50]
    linarith

/-- C17. The score of a fragment is `3 * hits + min(len / 2000, 1) + recency +
0.5 * priority` evaluated in double arithmetic, every operation rounded, where
`hits` is the number of distinct tokens of the lower-cased query, of at least 4
characters, that occur in the lower-cased fragment; the tokens are the pieces of
letters and digits between the separators. The score differs from the exact
value of the formula by a relative error of at most `2 ^ (-50)`. For a fixed
text it is strictly increasing in the priority, for fewer than `2 ^ 40` hits and
priorities below `2 ^ 40`; the code uses the priorities 1 to 10. -/
theorem scoreOf_formula (toLowerCase : JsString → JsString) (now : Int) (query : JsVal)
    (yearPref : Option YearPref) (text : JsString) (priority : Nat) :
    scoreOf toLowerCase now query yearPref text priority =
      doubleAdd
        (doubleAdd
          (doubleAdd
            (doubleMul (((queryTerms toLowerCase query).toFinset.filter
              (fun w => includes (toLowerCase text) w = true)).card : ℚ) 3)
            (min (doubleDiv (text.length : ℚ) 2000) 1))
          (recencyBoostFromText now text yearPref))
        (doubleMul (priority : ℚ) (1 / 2)) ∧
    |scoreOf toLowerCase now query yearPref text priority -
        (3 * (((queryTerms toLowerCase query).toFinset.filter
            (fun w => includes (toLowerCase text) w = true)).card : ℚ) +
          min ((text.length : ℚ) / 2000) 1 +
          recencyBoostFromText now text yearPref +
          (1 / 2) * (priority : ℚ))|
      ≤ (3 * (((queryTerms toLowerCase query).toFinset.filter
            (fun w => includes (toLowerCase text) w = true)).card : ℚ) +
          min ((text.length : ℚ) / 2000) 1 +
          recencyBoostFromText now text yearPref +
          (1 / 2) * (priority : ℚ)) / 2 ^ 50 ∧
    (∀ w, w ∈ queryTerms toLowerCase query ↔
      w ∈ splitTerms false (toLowerCase query.toJsString) ∧ 4 ≤ w.length) ∧
    (∀ w, w ∈ queryTerms toLowerCase query → ∀ c, c ∈ w → isTermChar c = true) ∧
    (∀ p1 p2 : Nat, p1 < p2 → p2 < 2 ^ 40 →
      ((queryTerms toLowerCase query).toFinset.filter
        (fun w => includes (toLowerCase text) w = true)).card < 2 ^ 40 →
      scoreOf toLowerCase now query yearPref text p1 <
        scoreOf toLowerCase now query yearPref text p2) := by
  have hdef : ∀ p : Nat, scoreOf toLowerCase now query yearPref text p =
      doubleAdd
        (doubleAdd
          (doubleAdd
            (doubleMul (((queryTerms toLowerCase query).toFinset.filter
              (fun w => includes (toLowerCase text) w = true)).card : ℚ) 3)
            (min (doubleDiv (text.length : ℚ) 2000) 1))
          (recencyBoostFromText now text yearPref))
        (doubleMul (p : ℚ) (1 / 2)) := by
    intro p
    unfold scoreOf uniqueTerms
    rw [termHits_uniqueFrom]
  have hrec := recencyBoost_bounds now text yearPref
  refine ⟨hdef priority, ?_, ?_, ?_, ?_⟩
  · rw [hdef priority]
    have := score_accuracy
      ((queryTerms toLowerCase query).toFinset.filter
        (fun w => includes (toLowerCase text) w = true)).card
      text.length priority (recencyBoostFromText now text yearPref) hrec.2.2
    have e : (3 * (((queryTerms toLowerCase query).toFinset.filter
            (fun w => includes (toLowerCase text) w = true)).card : ℚ) +
          min ((text.length : ℚ) / 2000) 1 +
          recencyBoostFromText now text yearPref +
          (1 / 2) * (priority : ℚ))
        = ((((queryTerms toLowerCase query).toFinset.filter
            (fun w => includes (toLowerCase text) w = true)).card : ℚ) * 3 +
          min ((text.length : ℚ) / 2000) 1 +
          recencyBoostFromText now text yearPref +
          (priority : ℚ) * (1 / 2)) := by ring
    rw [e]
    exact this
  · intro w
    unfold queryTerms
    rw [List.mem_filter]
    simp only [ge_iff_le, decide_eq_true_eq]
  · intro w hw c hc
    unfold queryTerms at hw
    exact splitTerms_chars false _ w (List.mem_filter.1 hw).1 c hc
  · intro p1 p2 h hp2 hh
    rw [hdef p1, hdef p2]
    exact score_strict_mono _ text.length p1 p2 _ hrec.1 hrec.2.1 hh h hp2

/-! ## A tie of the exact formula that the rounding breaks -/

theorem yearsIn_letters : ∀ (n : Nat) (prev : Option Nat) (skip : Nat),
    yearsIn prev skip (List.replicate n 97) = [] := by
  intro n
  induction n with
  | zero =>
    intro prev skip
    cases skip <;> rfl
  | succ n ih =>
    intro prev skip
    rw [List.replicate_succ]
    cases skip with
    | succ k => exact ih _ _
    | zero =>
      have hm : matchYear prev (97 :: List.replicate n 97) = none := by
        unfold matchYear
        split_ifs
        · rfl
        · cases n with
          | zero => rfl
          | succ n =>
            cases n with
            | zero => rfl
            | succ n =>
              cases n with
              | zero => rfl
              | succ n => rfl
      simp only [yearsIn, hm]
      exact ih _ _

theorem recencyBoost_letters (now : Int) (n : Nat) (pref : Option YearPref) :
    recencyBoostFromText now (List.replicate n 97) pref = 0 := by
  unfold recencyBoostFromText
  rw [yearsIn_letters]
  rfl

/-- The score of a text of `n` letters `a` for the query `a`, which has no token
of 4 characters: no hits and no year. -/
theorem scoreOf_letters (now : Int) (pref : Option YearPref) (n p : Nat) :
    scoreOf asciiToLowerCase now (.str (js "a")) pref (List.replicate n 97) p
      = roundDouble (roundDouble (roundDouble (min (roundDouble ((n : ℚ) / 2000)) 1))
          + roundDouble ((p : ℚ) * (1 / 2))) := by
  have hu : uniqueTerms asciiToLowerCase (.str (js "a")) = [] := by decide
  unfold scoreOf
  rw [hu, recencyBoost_letters]
  unfold doubleAdd doubleMul doubleDiv termHits
  simp only [List.foldl_nil, Nat.cast_zero, zero_mul, roundDouble_zero, zero_add, add_zero,
    List.length_replicate]

theorem roundDouble_headings_length :
    roundDouble ((108 : ℚ) / 2000) = 7782220156096217 * 2 ^ (-57 : ℤ) := by
  have := roundDouble_eq_of_near ((108 : ℚ) / 2000) (-5) 7782220156096217 (by norm_num)
    (by norm_num) (by norm_num) (by norm_num) (by norm_num) (by norm_num)
  simpa using this

theorem roundDouble_paragraphs_length :
    roundDouble ((1108 : ℚ) / 2000) = 4989988387126510 * 2 ^ (-53 : ℤ) := by
  have := roundDouble_eq_of_near ((1108 : ℚ) / 2000) (-1) 4989988387126510 (by norm_num)
    (by norm_num) (by norm_num) (by norm_num) (by norm_num) (by norm_num)
  simpa using this

/-- Headings of 108 characters (priority 5) and paragraphs of 1108 characters
(priority 4) without hits and years have the same exact value of the formula,
2.554; in doubles the score of the headings is 2.554 and that of the paragraphs
2.5540000000000003, one unit in the last place above (the sum for the
paragraphs lies halfway between the two doubles and goes to the even one). -/
theorem scoreOf_rounding_breaks_tie (now : Int) (pref : Option YearPref) :
    scoreOf asciiToLowerCase now (.str (js "a")) pref (List.replicate 108 97) 5
      = 5751096724152123 / 2 ^ 51 ∧
    scoreOf asciiToLowerCase now (.str (js "a")) pref (List.replicate 1108 97) 4
      = 5751096724152124 / 2 ^ 51 ∧
    (3 * 0 + min ((108 : ℚ) / 2000) 1 + 0 + 1 / 2 * 5
      = 3 * 0 + min ((1108 : ℚ) / 2000) 1 + 0 + 1 / 2 * 4) := by
  refine ⟨?_, ?_, ?_⟩
  · rw [scoreOf_letters]
    have h1 : roundDouble (((108 : ℕ) : ℚ) / 2000) = 7782220156096217 * 2 ^ (-57 : ℤ) := by
      exact_mod_cast roundDouble_headings_length
    have h2 : min ((7782220156096217 : ℚ) * 2 ^ (-57 : ℤ)) 1
        = ((7782220156096217 : ℕ) : ℚ) * 2 ^ (-57 : ℤ) := by
      rw [min_eq_left (by norm_num)]
      norm_num
    have h3 := roundDouble_exact 7782220156096217 (-57) (by norm_num) (by norm_num)
    have h4 := roundDouble_half 5 (by norm_num)
    rw [h1, h2, h3, h3, h4]
    have := roundDouble_eq_of_near
      (((7782220156096217 : ℕ) : ℚ) * 2 ^ (-57 : ℤ) + ((5 : ℕ) : ℚ) * (1 / 2)) 1
      5751096724152123 (by norm_num) (by norm_num) (by norm_num) (by norm_num) (by norm_num)
      (by norm_num)
    rw [this]
    norm_num
  · rw [scoreOf_letters]
    have h1 : roundDouble (((1108 : ℕ) : ℚ) / 2000) = 4989988387126510 * 2 ^ (-53 : ℤ) := by
      exact_mod_cast roundDouble_paragraphs_length
    have h2 : min ((4989988387126510 : ℚ) * 2 ^ (-53 : ℤ)) 1
        = ((4989988387126510 : ℕ) : ℚ) * 2 ^ (-53 : ℤ) := by
      rw [min_eq_left (by norm_num)]
      norm_num
    have h3 := roundDouble_exact 4989988387126510 (-53) (by norm_num) (by norm_num)
    have h4 := roundDouble_half 4 (by norm_num)
    rw [h1, h2, h3, h3, h4]
    have := roundDouble_eq_of_tie
      (((4989988387126510 : ℕ) : ℚ) * 2 ^ (-53 : ℤ) + ((4 : ℕ) : ℚ) * (1 / 2)) 1
      5751096724152124 (by norm_num) (by norm_num) (by norm_num) (by norm_num) (by norm_num)
      (by norm_num)
    rw [this]
    norm_num
  · norm_num

/-- On a page with these headings and paragraphs the paragraphs are ranked
first. -/
theorem ranked_rounding_example (now : Int) (pref : Option YearPref) :
    (ranked asciiToLowerCase now (.str (js "a")) pref
      [{ sel := js "headings", text := List.replicate 108 97, priority := 5 },
       { sel := js "paragraphs", text := List.replicate 1108 97, priority := 4 }]).map
      (fun c => c.sel) = [js "paragraphs", js "headings"] := by
  have h := scoreOf_rounding_breaks_tie now pref
  have hlt : ¬ (scoreOf asciiToLowerCase now (.str (js "a")) pref (List.replicate 108 97) 5
      ≥ scoreOf asciiToLowerCase now (.str (js "a")) pref (List.replicate 1108 97) 4) := by
    rw [h.1, h.2.1]
    norm_num
  simp only [ranked, List.map, List.insertionSort, List.orderedInsert, hlt, ↓reduceIte]

end DeepResearch
